import Mathlib

/-!
Verification development for the callout-exporter plugin (`src/main.js`).

The pure text-processing core of the plugin is embedded shallowly:
a document is a `List Char`, a line is a `List Char` without newline
characters, and a split document is a `List Line`.  Every function below
mirrors the JavaScript source function of the same name; host (Obsidian /
ECMAScript builtin) collaborators that the source treats as black boxes
(`normalizePath`, `encodeURI`, `decodeURI`, the locale comparator of
`Array.prototype.sort` in `rebuildAllMasters`, `Math.random` in
`generateId`) are modelled from the specification as noted on their
definitions.
-/

set_option maxHeartbeats 1000000

namespace CalloutExporter

/-- A line of a document: characters without `'\n'`. -/
abbrev Line := List Char

/-- A document split into lines. -/
abbrev Doc := List Line

/-- The ECMAScript whitespace class `\s` (and the characters removed by
`String.prototype.trim`/`trimStart`), restricted to the characters this
development manipulates. -/
def isSpaceJS (c : Char) : Bool :=
  c = ' ' || c = '\t' || c = '\n' || c = '\r' || c = '\x0b' || c = '\x0c' ||
    c = ' ' || c = '﻿'

/-- JavaScript `String.prototype.trimStart`. -/
def trimStartJS (l : Line) : Line := l.dropWhile isSpaceJS

/-- JavaScript `String.prototype.trim`. -/
def trimJS (l : Line) : Line :=
  ((l.dropWhile isSpaceJS).reverse.dropWhile isSpaceJS).reverse

/-- `text.split(/\r?\n/)` from main.js: split on `\n` or `\r\n`; a lone
carriage return does not split. -/
def splitLines : List Char → Doc
  | [] => [[]]
  | '\r' :: '\n' :: r => [] :: splitLines r
  | '\n' :: r => [] :: splitLines r
  | c :: r =>
    match splitLines r with
    | [] => [[c]]
    | l :: ls => (c :: l) :: ls

/-- `lines.join("\n")` from main.js. -/
def joinLines : Doc → List Char
  | [] => []
  | [l] => l
  | l :: d => l ++ '\n' :: joinLines d

/-- `parseCalloutStart` (main.js line 65): match `^>\s*\[!([^\]\s]+)\]`
case-insensitively and return the captured tag lowercased. -/
def parseCalloutStart (line : Line) : Option Line :=
  match line with
  | '>' :: r1 =>
    match r1.dropWhile isSpaceJS with
    | '[' :: '!' :: r2 =>
      let tok := r2.takeWhile (fun c => !(c = ']' || isSpaceJS c))
      if tok.isEmpty then none
      else
        match r2.drop tok.length with
        | ']' :: _ => some (tok.map Char.toLower)
        | _ => none
    | _ => none
  | _ => none

/-- `unquoteLine` (main.js line 72): remove one leading `>` plus at most one
whitespace character (`^>\s?`). -/
def unquoteLine (line : Line) : Line :=
  match line with
  | '>' :: c :: r => if isSpaceJS c then r else c :: r
  | '>' :: [] => []
  | l => l

/-- `quoteBodyLines` (main.js line 77): blank lines become a bare `>`. -/
def quoteBodyLines (bodyLines : Doc) : Doc :=
  bodyLines.map (fun l => if trimJS l = [] then ['>'] else '>' :: ' ' :: l)

/-- `trimTrailingBlankLines` (main.js line 82). -/
def trimTrailingBlankLines (lines : Doc) : Doc :=
  (lines.reverse.dropWhile (fun l => decide (trimJS l = []))).reverse

/-- The block-identifier character class `[A-Za-z0-9_-]`. -/
def isIdChar (c : Char) : Bool :=
  ('A' ≤ c && c ≤ 'Z') || ('a' ≤ c && c ≤ 'z') || ('0' ≤ c && c ≤ '9') ||
    c = '_' || c = '-'

/-- `parseBlockId` (main.js line 88): trim, then match `^\^([A-Za-z0-9_-]+)\s*$`. -/
def parseBlockId (line : Line) : Option Line :=
  match trimJS line with
  | '^' :: r => if !r.isEmpty && r.all isIdChar then some r else none
  | _ => none

/-- `uniqLower` (main.js line 27).  `Set` deduplication only ever feeds
membership tests here, so `List.dedup` is an adequate model of its
insertion-order iteration. -/
def uniqLower (arr : List Line) : List Line :=
  ((arr.map (fun s => (trimJS s).map Char.toLower)).filter
    (fun s => !s.isEmpty)).dedup

/-- The body-scan test of `extractTrackedCallouts` (main.js line 127):
`String(lines[j]).trimStart().startsWith(">")`. -/
def startsQuote (l : Line) : Bool := (trimStartJS l).head? = some '>'

/-- A parsed callout record (main.js lines 177-184).  `blockId` is `none`
exactly where the JavaScript field is `null`. -/
structure Callout where
  ctype : Line
  blockId : Option Line
  bodyLines : Doc
  startLine : Nat
  quoteEndLine : Nat
  idLine : Option Nat
deriving DecidableEq, Repr

/-- The tracked-type test of the scan loop (main.js lines 117-118). -/
def calloutStartTracked (tracked : List Line) (line : Line) : Option Line :=
  match parseCalloutStart line with
  | none => none
  | some t => if t ∈ tracked then some t else none

/-- The body consumed by the scan loop (main.js lines 123-131): the lines
after the header whose trimmed start is a quote marker (the source's local
`body`, before unquoting). -/
def scanBody (rest : Doc) : Doc := rest.takeWhile startsQuote

/-- The lines after the blockquote (the source's `lines` from
`quoteEndLine` on). -/
def scanRest2 (rest : Doc) : Doc := rest.drop (scanBody rest).length

/-- The blank lines skipped while looking for a block id (main.js line 136). -/
def scanBlanks (rest : Doc) : Doc :=
  (scanRest2 rest).takeWhile (fun l => decide (trimJS l = []))

/-- The lines from the first non-blank line after the blockquote on. -/
def scanRest3 (rest : Doc) : Doc :=
  (scanRest2 rest).drop (scanBlanks rest).length

/-- The block id found after the callout, if any (main.js line 137). -/
def scanFound (rest : Doc) : Option Line :=
  match scanRest3 rest with
  | [] => none
  | idl :: _ => parseBlockId idl

/-- The scan loop of `extractTrackedCallouts` (main.js lines 116-185), as a
recursion over the remaining lines.  `off` is the absolute index of the head
of the remaining list inside the (patched) full line array; `gi` counts the
identifiers generated so far, so `gen gi` is the next `generateId()` result
(`generateId` draws from `Math.random` and is modelled as an oracle
parameter).  The returned document is the patched remainder.

Two transformations relative to the JavaScript loop.  First, when the loop
inserts a blank line after a fresh identifier, it resumes with `i` pointing
at that inserted blank, which can never start a callout, so the iteration
that steps over it is fused into the same recursive step here (the recursion
resumes directly after the inserted blank).  Second, the recursion carries a
fuel argument, always at least the number of remaining lines (each step
consumes at least one line), purely to make the recursion structural; the
zero-fuel case is never reached from `extractLines`. -/
def extractGo (tracked : List Line) (ai : Bool) (gen : Nat → Line) :
    Nat → Nat → Nat → Doc → Doc × List Callout
  | 0, _, _, _ => ([], [])
  | _ + 1, _, _, [] => ([], [])
  | fuel + 1, gi, off, line :: rest =>
    match calloutStartTracked tracked line with
    | none =>
      let r := extractGo tracked ai gen fuel gi (off + 1) rest
      (line :: r.1, r.2)
    | some t =>
      let q := off + 1 + (scanBody rest).length
      match scanFound rest with
      | some bid =>
        -- identifier found at absolute index k = q + (scanBlanks rest).length;
        -- the loop resumes at k + 1 (main.js line 174, then i++)
        let k := q + (scanBlanks rest).length
        let r := extractGo tracked ai gen fuel gi (k + 1)
          ((scanRest3 rest).drop 1)
        (line :: scanBody rest ++ scanBlanks rest ++
            (scanRest3 rest).take 1 ++ r.1,
          ⟨t, some bid,
            trimTrailingBlankLines ((scanBody rest).map unquoteLine),
            off, q, some k⟩ :: r.2)
      | none =>
        if ai then
          -- insert a fresh identifier (main.js lines 144-171)
          let bid := gen gi
          match (scanRest2 rest).head? with
          | some b0 =>
            if trimJS b0 = [] then
              -- the line at the insertion point is already blank: only the
              -- identifier line is spliced in, at index q; the loop resumes
              -- at q + 1, which is that pre-existing blank line
              let r := extractGo tracked ai gen fuel (gi + 1) (q + 1)
                (scanRest2 rest)
              (line :: scanBody rest ++ ('^' :: bid) :: r.1,
                ⟨t, some bid,
                  trimTrailingBlankLines ((scanBody rest).map unquoteLine),
                  off, q, some q⟩ :: r.2)
            else
              -- blank, identifier, blank are spliced in at index q; the loop
              -- resumes just past the trailing inserted blank (see above)
              let r := extractGo tracked ai gen fuel (gi + 1) (q + 3)
                (scanRest2 rest)
              (line :: scanBody rest ++ [] :: ('^' :: bid) :: [] :: r.1,
                ⟨t, some bid,
                  trimTrailingBlankLines ((scanBody rest).map unquoteLine),
                  off, q, some (q + 1)⟩ :: r.2)
          | none =>
            -- end of document: blank, identifier, blank are appended
            (line :: scanBody rest ++ [[], '^' :: bid, []],
              [⟨t, some bid,
                trimTrailingBlankLines ((scanBody rest).map unquoteLine),
                off, q, some (q + 1)⟩])
        else
          -- no identifier and no auto-insert: the callout is still pushed,
          -- with null blockId and idLine (main.js lines 172-184); the loop
          -- resumes at quoteEndLine
          let r := extractGo tracked ai gen fuel gi q (scanRest2 rest)
          (line :: scanBody rest ++ r.1,
            ⟨t, none,
              trimTrailingBlankLines ((scanBody rest).map unquoteLine),
              off, q, none⟩ :: r.2)

/-- `extractTrackedCallouts` (main.js line 107) at the line level: the
patched line array together with the callout list. -/
def extractLines (text : List Char) (trackedTypes : List Line) (ai : Bool)
    (gen : Nat → Line) : Doc × List Callout :=
  extractGo (uniqLower trackedTypes) ai gen (splitLines text).length 0 0
    (splitLines text)

/-- `extractTrackedCallouts` (main.js line 107): returns the possibly patched
text (`lines.join("\n")`) and the callouts. -/
def extractTrackedCallouts (text : List Char) (trackedTypes : List Line)
    (ai : Bool) (gen : Nat → Line) : List Char × List Callout :=
  let r := extractLines text trackedTypes ai gen
  (joinLines r.1, r.2)

/-! ### URI encoding and decoding (host builtins, modelled from the spec)

`encodeURI` and `decodeURI` are ECMAScript builtins, external to the
repository; the spec (sections 4.3 and 4.4) specifies only that the chunk
builder URI-encodes the path and the master-chunk parser URI-decodes it.
They are modelled here by the standard percent-encoding rules restricted to
the scope this development exercises: `encodeURI` percent-encodes the UTF-8
bytes of every character outside the ECMAScript unescaped set, and
`decodeURI` decodes percent sequences, keeps escapes of reserved characters
encoded, and fails (the source catches `URIError` and keeps the raw path) on
malformed input. -/

/-- The character set `encodeURI` leaves unescaped. -/
def uriUnescaped (c : Char) : Bool :=
  c.isAlpha || c.isDigit ||
    c ∈ [';', '/', '?', ':', '@', '&', '=', '+', '$', ',', '-', '_', '.',
      '!', '~', '*', Char.ofNat 39, '(', ')', '#']

/-- Bytes whose percent escapes `decodeURI` leaves encoded
(`# $ & + , / : ; = ? @`). -/
def uriReservedByte (b : Nat) : Bool :=
  b ∈ [35, 36, 38, 43, 44, 47, 58, 59, 61, 63, 64]

def hexDigitVal (c : Char) : Option Nat :=
  if '0' ≤ c && c ≤ '9' then some (c.toNat - 48)
  else if 'A' ≤ c && c ≤ 'F' then some (c.toNat - 55)
  else if 'a' ≤ c && c ≤ 'f' then some (c.toNat - 87)
  else none

def hexUpper (n : Nat) : Char :=
  if n < 10 then Char.ofNat (48 + n) else Char.ofNat (55 + n)

/-- Percent-encode one byte. -/
def percentByte (b : Nat) : Line := ['%', hexUpper (b / 16), hexUpper (b % 16)]

/-- UTF-8 bytes of a code point. -/
def utf8Bytes (n : Nat) : List Nat :=
  if n < 0x80 then [n]
  else if n < 0x800 then [0xc0 + n / 64, 0x80 + n % 64]
  else if n < 0x10000 then
    [0xe0 + n / 4096, 0x80 + n / 64 % 64, 0x80 + n % 64]
  else [0xf0 + n / 262144, 0x80 + n / 4096 % 64, 0x80 + n / 64 % 64,
    0x80 + n % 64]

/-- Modelled from the spec: the ECMAScript builtin `encodeURI`. -/
def encodeURI (p : Line) : Line :=
  p.flatMap (fun c =>
    if uriUnescaped c then [c] else (utf8Bytes c.toNat).flatMap percentByte)

/-- First pass of `decodeURI`: literal characters, or a percent-escaped byte
together with its original two hex characters; `none` on a malformed escape. -/
def pctTokens : Line → Option (List (Char ⊕ (Nat × Char × Char)))
  | [] => some []
  | '%' :: h1 :: h2 :: r =>
    match hexDigitVal h1, hexDigitVal h2, pctTokens r with
    | some a, some b, some t => some (Sum.inr (a * 16 + b, h1, h2) :: t)
    | _, _, _ => none
  | '%' :: _ => none
  | c :: r =>
    match pctTokens r with
    | some t => some (Sum.inl c :: t)
    | none => none

/-- The value of a UTF-8 continuation byte token. -/
def contVal : (Char ⊕ (Nat × Char × Char)) → Option Nat
  | Sum.inr (b, _, _) => if 0x80 ≤ b && b < 0xc0 then some (b - 0x80) else none
  | _ => none

/-- Second pass of `decodeURI`: UTF-8 decoding of escaped byte runs, keeping
reserved single-byte escapes encoded; `none` models `URIError`. -/
def utf8Decode : List (Char ⊕ (Nat × Char × Char)) → Option Line
  | [] => some []
  | Sum.inl c :: t => (utf8Decode t).map (fun x => c :: x)
  | Sum.inr (b, h1, h2) :: t =>
    if b < 0x80 then
      if uriReservedByte b then
        (utf8Decode t).map (fun x => '%' :: h1 :: h2 :: x)
      else (utf8Decode t).map (fun x => Char.ofNat b :: x)
    else if b < 0xc2 then none
    else if b < 0xe0 then
      match t with
      | t1 :: t2 =>
        match contVal t1 with
        | some v1 => (utf8Decode t2).map (fun x =>
            Char.ofNat ((b - 0xc0) * 64 + v1) :: x)
        | none => none
      | [] => none
    else if b < 0xf0 then
      match t with
      | t1 :: t2 :: t3 =>
        match contVal t1, contVal t2 with
        | some v1, some v2 =>
          let n := (b - 0xe0) * 4096 + v1 * 64 + v2
          if n < 0x800 || (0xd800 ≤ n && n < 0xe000) then none
          else (utf8Decode t3).map (fun x => Char.ofNat n :: x)
        | _, _ => none
      | _ => none
    else if b < 0xf5 then
      match t with
      | t1 :: t2 :: t3 :: t4 =>
        match contVal t1, contVal t2, contVal t3 with
        | some v1, some v2, some v3 =>
          let n := (b - 0xf0) * 262144 + v1 * 4096 + v2 * 64 + v3
          if n < 0x10000 || 0x110000 ≤ n then none
          else (utf8Decode t4).map (fun x => Char.ofNat n :: x)
        | _, _, _ => none
      | _ => none
    else none

/-- Modelled from the spec: the ECMAScript builtin `decodeURI`;
`none` models a thrown `URIError`. -/
def decodeURI (p : Line) : Option Line :=
  match pctTokens p with
  | some t => utf8Decode t
  | none => none

/-- Modelled from the spec: the host application's `normalizePath` (an
external black-box path utility, spec section 6), specified only as
returning the storage layer's canonical form of a path.  The model takes
canonical paths as the path type, making normalization the identity. -/
def normalizePath (p : Line) : Line := p

/-! ### Master-chunk parsing and building -/

/-- A parsed master link head (main.js lines 214-219 and 235-240).
`formatMd` is `true` for the markdown form, `false` for the wiki form. -/
structure LinkHead where
  display : Line
  path : Line
  blockId : Line
  formatMd : Bool
deriving DecidableEq, Repr

/-- Split `v` as `path ++ "#^" ++ id` where `id` is a nonempty run of
identifier characters reaching the end of `v`; this is the (unique) match of
the lazy group in `\((.+?)#\^([A-Za-z0-9_-]+)\)`. -/
def splitPathId : Line → Option (Line × Line)
  | [] => none
  | c :: r =>
    match c, r with
    | '#', '^' :: r2 =>
      if !r2.isEmpty && r2.all isIdChar then some ([], r2)
      else
        match splitPathId r with
        | some (p, bid) => some ('#' :: p, bid)
        | none => none
    | _, _ =>
      match splitPathId r with
      | some (p, bid) => some (c :: p, bid)
      | none => none

/-- The markdown form `^\[([^\]]+)\]\((.+?)#\^([A-Za-z0-9_-]+)\)\s*$` on a
trimmed line (main.js line 203); returns display, raw path, block id. -/
def parseMdHead (t : Line) : Option (Line × Line × Line) :=
  match t with
  | '[' :: r1 =>
    let d := r1.takeWhile (fun c => !(c = ']'))
    if d.isEmpty then none
    else
      match r1.drop d.length with
      | ']' :: '(' :: u =>
        if u.getLast? = some ')' then
          match splitPathId u.dropLast with
          | some (p, bid) => if p.isEmpty then none else some (d, p, bid)
          | none => none
        else none
      | _ => none
  | _ => none

/-- The tail of the wiki form after the identifier: `\|([^\]]+?)\]\]\s*$`;
returns (block id, display). -/
def wikiTryId (r : Line) : Option (Line × Line) :=
  let tok := r.takeWhile isIdChar
  if tok.isEmpty then none
  else
    match r.drop tok.length with
    | '|' :: dr =>
      let d := dr.takeWhile (fun c => !(c = ']'))
      if d.isEmpty then none
      else
        match dr.drop d.length with
        | [']', ']'] => some (tok, d)
        | _ => none
    | _ => none

/-- Scan for the leftmost `#^` of the wiki form whose continuation parses,
accumulating the (lazy, `|`/`]`-free) path group. -/
def wikiScan : Line → Option (Line × Line × Line)
  | [] => none
  | c :: r =>
    match c, r with
    | '#', '^' :: r2 =>
      (match wikiTryId r2 with
       | some (bid, d) => some (([] : Line), bid, d)
       | none =>
         match wikiScan r with
         | some (p, bid, d) => some ('#' :: p, bid, d)
         | none => none)
    | _, _ =>
      if c = '|' || c = ']' then none
      else
        match wikiScan r with
        | some (p, bid, d) => some (c :: p, bid, d)
        | none => none

/-- The wiki form `^\[\[([^|\]]+?)#\^([A-Za-z0-9_-]+)\|([^\]]+?)\]\]\s*$` on
a trimmed line (main.js line 225); returns raw path, block id, display. -/
def parseWikiHead (t : Line) : Option (Line × Line × Line) :=
  match t with
  | '[' :: '[' :: c :: r =>
    if c = '|' || c = ']' then none
    else
      match wikiScan r with
      | some (p, bid, d) => some (c :: p, bid, d)
      | none => none
  | _ => none

/-- `parseMasterLinkLine` (main.js line 198). -/
def parseMasterLinkLine (line : Line) : Option LinkHead :=
  let t := trimJS line
  match parseMdHead t with
  | some (d, rawPath, bid) =>
    some ⟨d, normalizePath ((decodeURI rawPath).getD rawPath), bid, true⟩
  | none =>
    match parseWikiHead t with
    | some (rawPath, bid, d) =>
      some ⟨d, normalizePath ((decodeURI rawPath).getD rawPath), bid, false⟩
    | none => none

/-- Whether a line is recognized as a master chunk header. -/
def isMasterHead (l : Line) : Bool := (parseMasterLinkLine l).isSome

/-- A parsed master chunk (main.js lines 264-271).  The JavaScript field
`end` (exclusive) is called `stop` here. -/
structure MasterChunk where
  start : Nat
  stop : Nat
  display : Line
  sourcePath : Line
  blockId : Line
  bodyLines : Doc
deriving DecidableEq, Repr

/-- The scan loop of `parseMasterChunks` (main.js lines 250-274): a chunk
runs from a header line up to (excluding) the next header line or the end of
the document; `bodyLines` are the span's lines with trailing blanks trimmed.
As in `extractGo`, the fuel argument (at least the number of remaining
lines) only makes the recursion structural and never runs out. -/
def chunksGo : Nat → Nat → Doc → List MasterChunk
  | 0, _, _ => []
  | _ + 1, _, [] => []
  | fuel + 1, i, l :: rest =>
    match parseMasterLinkLine l with
    | none => chunksGo fuel (i + 1) rest
    | some h =>
      let body := rest.takeWhile (fun x => !(isMasterHead x))
      let rest2 := rest.drop body.length
      ⟨i, i + 1 + body.length, h.display, h.path, h.blockId,
        trimTrailingBlankLines body⟩ ::
        chunksGo fuel (i + 1 + body.length) rest2

/-- The chunk list of a split document. -/
def chunksOf (lines : Doc) : List MasterChunk := chunksGo lines.length 0 lines

/-- `parseMasterChunks` (main.js line 246). -/
def parseMasterChunks (text : List Char) : Doc × List MasterChunk :=
  let lines := splitLines text
  (lines, chunksOf lines)

/-- The link line of `buildMasterChunkLines` (main.js line 282). -/
def buildLinkLine (display sourcePath blockId : Line) : Line :=
  '[' :: display ++ ']' :: '(' :: encodeURI sourcePath ++
    '#' :: '^' :: blockId ++ [')']

/-- `buildMasterChunkLines` (main.js line 279). -/
def buildMasterChunkLines (display sourcePath blockId : Line)
    (bodyLines : Doc) : Doc :=
  buildLinkLine display sourcePath blockId :: bodyLines ++ [[]]

/-! ### Line-range operations -/

/-- A `{start, end, insert}` line-range operation (the JavaScript field
`end` is called `stop`). -/
structure LineOp where
  start : Nat
  stop : Nat
  insert : Doc
deriving DecidableEq, Repr

/-- `lines.splice(op.start, op.end - op.start, ...op.insert)`. -/
def spliceOp (lines : Doc) (op : LineOp) : Doc :=
  lines.take op.start ++ op.insert ++ lines.drop op.stop

/-- The comparator `(a, b) => b.start - a.start`: descending by `start`. -/
def opDescLe (a b : LineOp) : Bool := decide (b.start ≤ a.start)

/-- Stable insertion into a sorted list: the inserted element goes before
the first element it relates to. -/
def insertB (le : α → α → Bool) (a : α) : List α → List α
  | [] => [a]
  | b :: r => if le a b then a :: b :: r else b :: insertB le a r

/-- Stable insertion sort, modelling the stable `Array.prototype.sort`. -/
def insertionSortB (le : α → α → Bool) : List α → List α
  | [] => []
  | a :: r => insertB le a (insertionSortB le r)

/-- `ops.sort((a, b) => b.start - a.start)` followed by the splice loop
(main.js lines 560-563 and 631-634). -/
def applyOps (lines : Doc) (ops : List LineOp) : Doc :=
  (insertionSortB opDescLe ops).foldl spliceOp lines

/-- Simultaneous application of ascending, non-overlapping line-range
operations: each source segment between operation ranges is kept, each range
is replaced by its insertion.  `i` is the current absolute position. -/
def simApplyFrom (lines : Doc) : Nat → List LineOp → Doc
  | i, [] => lines.drop i
  | i, op :: rest =>
    (lines.drop i).take (op.start - i) ++ op.insert ++
      simApplyFrom lines op.stop rest

/-- Simultaneous application from position 0. -/
def simApply (lines : Doc) (ops : List LineOp) : Doc := simApplyFrom lines 0 ops

/-- The index at which the source line at absolute position `k` — assumed to
lie outside every operation's range — reappears in
`simApplyFrom lines i ops`. -/
def posOf : List LineOp → Nat → Nat → Nat
  | [], i, k => k - i
  | op :: rest, i, k =>
    if k < op.start then k - i
    else op.start - i + op.insert.length + posOf rest op.stop k

/-! ### The two reconciliation passes and the rebuild -/

/-- The fields of a source callout that `updateMasterForSourceFile` reads
(`blockId`, non-null there because the extraction pass auto-assigned it, and
`bodyLines`); also the shape of a master chunk handed to
`applyMasterEditsToSource`. -/
structure MasterEntry where
  blockId : Line
  bodyLines : Doc
deriving DecidableEq, Repr

/-- `desiredById.get(bid)` where the `Map` was filled by iterating the
callout list (main.js lines 517-518): the last entry with the key wins. -/
def lookupDesired (callouts : List MasterEntry) (bid : Line) :
    Option MasterEntry :=
  (callouts.filter (fun c => c.blockId = bid)).getLast?

/-- The replace/remove operations of `updateMasterForSourceFile`
(main.js lines 522-541), one per existing chunk of the source file. -/
def masterOps (chunks : List MasterChunk) (path basename : Line)
    (callouts : List MasterEntry) : List LineOp :=
  (chunks.filter (fun c => c.sourcePath = path)).map (fun ch =>
    match lookupDesired callouts ch.blockId with
    | none => ⟨ch.start, ch.stop, []⟩
    | some d =>
      ⟨ch.start, ch.stop,
        buildMasterChunkLines basename path d.blockId d.bodyLines⟩)

/-- The appended lines for callouts with no existing chunk
(main.js lines 544-557). -/
def masterAdditions (chunks : List MasterChunk) (path basename : Line)
    (callouts : List MasterEntry) : Doc :=
  let existingIds := (chunks.filter (fun c => c.sourcePath = path)).map
    (fun c => c.blockId)
  (callouts.filter (fun c => !(c.blockId ∈ existingIds))).flatMap (fun d =>
    buildMasterChunkLines basename path d.blockId d.bodyLines)

/-- Main.js lines 565-570: a separating blank line is pushed before the
additions when the document does not already end with a blank line. -/
def appendAdditions (lines adds : Doc) : Doc :=
  if adds.isEmpty then lines
  else if !lines.isEmpty && !(trimJS (lines.getLast?.getD [])).isEmpty then
    lines ++ [[]] ++ adds
  else lines ++ adds

/-- Main.js lines 572-574: normalize the output to end with a newline. -/
def ensureTrailingNewline (s : List Char) : List Char :=
  if s.getLast? = some '\n' then s else s ++ ['\n']

/-- The pure content core of `updateMasterForSourceFile` (main.js lines
503-577): given the master's current text, the source file's path and base
name, and the current callouts of the relevant type, the new master text. -/
def updateMasterForSourceFile (masterText : List Char) (path basename : Line)
    (callouts : List MasterEntry) : List Char :=
  let lines := splitLines masterText
  let chunks := chunksOf lines
  let lines2 := applyOps lines (masterOps chunks path basename callouts)
  let lines3 :=
    appendAdditions lines2 (masterAdditions chunks path basename callouts)
  ensureTrailingNewline (joinLines lines3)

/-- `byId.get(e.blockId)` (main.js lines 614, 619): keys are the possibly
null callout identifiers, the last callout with the key wins, and a chunk's
(non-null) id only ever matches callouts with a non-null id. -/
def lookupCallout (callouts : List Callout) (bid : Line) : Option Callout :=
  (callouts.filter (fun c => c.blockId = some bid)).getLast?

/-- `applyMasterEditsToSource` (main.js lines 607-637): re-extract the
source's callouts without identifier insertion, then replace each matched
callout's body span (`startLine+1` to `quoteEndLine`) with the chunk's body
re-wrapped in block-quote form.  The generator argument of the extraction is
never consulted because auto-insertion is disabled. -/
def applyMasterEditsToSource (sourceText : List Char) (ctype : Line)
    (entries : List MasterEntry) : List Char :=
  let r := extractTrackedCallouts sourceText [ctype] false (fun _ => [])
  let lines := splitLines r.1
  let ops := entries.filterMap (fun e =>
    (lookupCallout r.2 e.blockId).map (fun c =>
      (⟨c.startLine + 1, c.quoteEndLine, quoteBodyLines e.bodyLines⟩ :
        LineOp)))
  joinLines (applyOps lines ops)

/-- A gathered entry of `rebuildAllMasters` (main.js lines 662-667). -/
structure RebuildEntry where
  display : Line
  sourcePath : Line
  blockId : Line
  bodyLines : Doc
deriving DecidableEq, Repr

/-- The per-type master text written by `rebuildAllMasters` (main.js lines
677-687).  The sort comparator is `localeCompare` on
`sourcePath + blockId`, a host/ICU black box (spec section 4.5 specifies
only a deterministic order by source path then block id); it is taken as a
parameter `le`, the sort itself being the stable `Array.prototype.sort`. -/
def rebuildMasterText (le : RebuildEntry → RebuildEntry → Bool)
    (entries : List RebuildEntry) : List Char :=
  let sorted := insertionSortB le entries
  let lines := sorted.flatMap (fun e =>
    buildMasterChunkLines e.display e.sourcePath e.blockId e.bodyLines)
  ensureTrailingNewline (joinLines lines)

/-- The content effect of `writeFileIfChanged` (main.js lines 438-452):
the equality guard `oldText === newText` suppresses the write.  Returns the
resulting content and whether a write occurred; the suppression-window side
effect has no content-level meaning. -/
def writeFileIfChanged (oldText newText : List Char) : List Char × Bool :=
  if oldText = newText then (oldText, false) else (newText, true)

/-! ### Derived notions used by the statements -/

/-- Shorthand for string literals in statements. -/
def str (s : String) : List Char := s.toList

/-- The first line index strictly after everything a parsed callout spans
(its blockquote, and its identifier line when present). -/
def calloutEnd (c : Callout) : Nat :=
  match c.idLine with
  | some k => k + 1
  | none => c.quoteEndLine

/-- A line free of line-break characters; `splitLines` produces only such
lines when the text contains no carriage returns, and joining such lines is
inverse to splitting. -/
def cleanLine (l : Line) : Prop := '\n' ∉ l ∧ '\r' ∉ l

instance (l : Line) : Decidable (cleanLine l) := by
  unfold cleanLine; infer_instance

/-- A well-formed generator oracle: every generated identifier is a nonempty
run of identifier characters (true of `generateId`, which draws from the
base-36 digits). -/
def genOK (gen : Nat → Line) : Prop :=
  ∀ n, gen n ≠ [] ∧ (gen n).all isIdChar = true

/-- The projection of a callout handed to `updateMasterForSourceFile` by
`syncFromSource` (auto-assignment has made `blockId` non-null). -/
def toMasterEntry (c : Callout) : MasterEntry :=
  ⟨c.blockId.getD [], c.bodyLines⟩

/-- A nonempty run of block-identifier characters. -/
def idOK (bid : Line) : Prop := bid ≠ [] ∧ bid.all isIdChar = true

instance (bid : Line) : Decidable (idOK bid) := by
  unfold idOK; infer_instance

/-- A display name that survives the markdown-link round trip: nonempty,
free of `]` and of line breaks. -/
def displayOK (d : Line) : Prop := d ≠ [] ∧ ']' ∉ d ∧ cleanLine d

instance (d : Line) : Decidable (displayOK d) := by
  unfold displayOK; infer_instance

/-- A plain canonical path: nonempty and made of characters that both URI
codecs fix (letters, digits, `.`, `/`, `_`, `-`). -/
def pathOK (p : Line) : Prop :=
  p ≠ [] ∧ ∀ c ∈ p, c.isAlpha = true ∨ c.isDigit = true ∨ c = '.' ∨
    c = '/' ∨ c = '_' ∨ c = '-'

instance (p : Line) : Decidable (pathOK p) := by
  unfold pathOK; infer_instance

/-- Body lines that round-trip through a master document: free of line
breaks and never themselves recognized as a chunk header. -/
def bodyOK (body : Doc) : Prop :=
  ∀ l ∈ body, cleanLine l ∧ isMasterHead l = false

instance (body : Doc) : Decidable (bodyOK body) := by
  unfold bodyOK; infer_instance

/-- Ascending, non-overlapping line-range operations with strictly
increasing starts. -/
def OpsOrdered (ops : List LineOp) : Prop :=
  List.Pairwise (fun a b => a.stop ≤ b.start ∧ a.start < b.start) ops

/-- Every operation has a well-formed range inside the line array. -/
def OpsBounded (lines : Doc) (ops : List LineOp) : Prop :=
  ∀ op ∈ ops, op.start ≤ op.stop ∧ op.stop ≤ lines.length

instance (ops : List LineOp) : Decidable (OpsOrdered ops) := by
  unfold OpsOrdered; exact List.instDecidablePairwise ops

instance (lines : Doc) (ops : List LineOp) : Decidable (OpsBounded lines ops) := by
  unfold OpsBounded; infer_instance

/-- The body-replacement operations of `applyMasterEditsToSource`, listed in
source-callout order: one operation per callout whose identifier some entry
carries, replacing the body span with the entry's quoted body.  When the
entry identifiers are pairwise distinct this is the operation set the code
computes (in entry order) before sorting. -/
def sourceBodyOps (cs : List Callout) (entries : List MasterEntry) :
    List LineOp :=
  cs.filterMap (fun c =>
    match c.blockId with
    | none => none
    | some b =>
      match entries.find? (fun e => e.blockId = b) with
      | some e =>
        some ⟨c.startLine + 1, c.quoteEndLine, quoteBodyLines e.bodyLines⟩
      | none => none)

/-- A master document block: a header line and the non-header lines
following it. -/
structure MBlock where
  head : Line
  body : Doc
deriving DecidableEq, Repr

/-- Rendering a block list back to lines. -/
def flattenB (bs : List MBlock) : Doc := bs.flatMap (fun b => b.head :: b.body)

/-- The preamble of a document: its lines before the first chunk header. -/
def preOf (d : Doc) : Doc := d.takeWhile (fun l => !(isMasterHead l))

/-- Decomposition of a document into blocks, one per chunk header (fuel as
in `chunksGo`). -/
def blocksGo : Nat → Doc → List MBlock
  | 0, _ => []
  | _ + 1, [] => []
  | fuel + 1, l :: rest =>
    if isMasterHead l then
      let body := rest.takeWhile (fun x => !(isMasterHead x))
      ⟨l, body⟩ :: blocksGo fuel (rest.drop body.length)
    else blocksGo fuel rest

/-- The block decomposition of a document. -/
def blocksOf (d : Doc) : List MBlock := blocksGo d.length d

/-- Well-formed block shape: the head is a chunk header and no body line is. -/
def BlockWF (b : MBlock) : Prop :=
  isMasterHead b.head = true ∧ ∀ l ∈ b.body, isMasterHead l = false

/-- The effect of one Source-to-Master pass on a single block of the master
(main.js lines 522-541 at block granularity): blocks of other source files
are kept, a block of this source file is deleted when its identifier has no
current callout and otherwise replaced by the freshly built chunk. -/
def blockRepl (path basename : Line) (es : List MasterEntry) (b : MBlock) :
    List MBlock :=
  match parseMasterLinkLine b.head with
  | none => [b]
  | some h =>
    if h.path = path then
      match lookupDesired es h.blockId with
      | none => []
      | some d =>
        [⟨buildLinkLine basename path d.blockId, d.bodyLines ++ [[]]⟩]
    else [b]

/-- The chunk list the master parser recovers from a run of freshly built
chunks starting at line `i`: one chunk per entry, in order, each spanning
its built block. -/
def builtChunks (path basename : Line) : Nat → List MasterEntry →
    List MasterChunk
  | _, [] => []
  | i, e :: es =>
    ⟨i, i + 1 + (e.bodyLines.length + 1), basename, path, e.blockId,
      trimTrailingBlankLines (e.bodyLines ++ [[]])⟩ ::
      builtChunks path basename (i + 1 + (e.bodyLines.length + 1)) es

end CalloutExporter

namespace CalloutExporter

/-! ## Splitting and joining lines -/

theorem splitLines_ne_nil (s : List Char) : splitLines s ≠ [] := by
  induction s using splitLines.induct with
  | case1 => simp [splitLines]
  | case2 r ih => simp [splitLines]
  | case3 r ih => simp [splitLines]
  | case4 c r h1 h2 heq ih => simp [splitLines, heq]
  | case5 c r h1 h2 l ls heq ih => simp [splitLines, heq]

theorem joinLines_cons_of_ne (l : Line) (d : Doc) (h : d ≠ []) :
    joinLines (l :: d) = l ++ '\n' :: joinLines d := by
  cases d with
  | nil => exact absurd rfl h
  | cons x xs => rfl

theorem joinLines_consCons (c : Char) (l : Line) (ls : Doc) :
    joinLines ((c :: l) :: ls) = c :: joinLines (l :: ls) := by
  cases ls with
  | nil => rfl
  | cons x xs => rfl

theorem splitLines_cons_generic (c : Char) (r l : List Char) (ls : Doc)
    (h1 : c ≠ '\n') (h2 : c ≠ '\r') (heq : splitLines r = l :: ls) :
    splitLines (c :: r) = (c :: l) :: ls := by
  rw [splitLines.eq_def]
  split
  · simp_all
  · simp_all
  · simp_all
  · rename_i heq2
    rw [List.cons_eq_cons] at heq2
    obtain ⟨hc', hr'⟩ := heq2
    subst hc'
    subst hr'
    rw [heq]

theorem joinLines_splitLines (s : List Char) (h : '\r' ∉ s) :
    joinLines (splitLines s) = s := by
  induction s using splitLines.induct with
  | case1 => rfl
  | case2 r ih => simp at h
  | case3 r ih =>
    rw [splitLines, joinLines_cons_of_ne _ _ (splitLines_ne_nil r)]
    simp only [List.nil_append]
    have := ih (fun hr => h (List.mem_cons_of_mem _ hr))
    rw [this]
  | case4 c r h1 h2 heq ih => exact absurd heq (splitLines_ne_nil r)
  | case5 c r h1 h2 l ls heq ih =>
    have hc : c ≠ '\n' := fun hh => h2 hh
    have hc2 : c ≠ '\r' := fun hh => h (by simp [hh])
    rw [splitLines_cons_generic c r l ls hc hc2 heq]
    have hr : '\r' ∉ r := fun hx => h (List.mem_cons_of_mem _ hx)
    have h3 := ih hr
    rw [heq] at h3
    rw [joinLines_consCons, h3]

theorem splitLines_clean (s : List Char) (h : '\r' ∉ s) :
    ∀ l ∈ splitLines s, cleanLine l := by
  induction s using splitLines.induct with
  | case1 => intro l hl; simp [splitLines] at hl; simp [hl, cleanLine]
  | case2 r ih => simp at h
  | case3 r ih =>
    intro l hl
    rw [splitLines] at hl
    rcases List.mem_cons.1 hl with h' | h'
    · simp [h', cleanLine]
    · exact ih (fun hr => h (List.mem_cons_of_mem _ hr)) l h'
  | case4 c r h1 h2 heq ih => exact absurd heq (splitLines_ne_nil r)
  | case5 c r h1 h2 l ls heq ih =>
    intro x hx
    have hc : c ≠ '\n' := fun hh => h2 hh
    have hc2 : c ≠ '\r' := fun hh => h (by simp [hh])
    rw [splitLines_cons_generic c r l ls hc hc2 heq] at hx
    have hr : '\r' ∉ r := fun hy => h (List.mem_cons_of_mem _ hy)
    rcases List.mem_cons.1 hx with h' | h'
    · subst h'
      have hcl : cleanLine l :=
        ih hr l (by rw [heq]; exact List.mem_cons_self l ls)
      refine ⟨?_, ?_⟩
      · intro hmem
        rcases List.mem_cons.1 hmem with hm | hm
        · exact hc hm.symm
        · exact hcl.1 hm
      · intro hmem
        rcases List.mem_cons.1 hmem with hm | hm
        · exact hc2 hm.symm
        · exact hcl.2 hm
    · exact ih hr x (by rw [heq]; exact List.mem_cons_of_mem l h')

theorem splitLines_single (l : Line) (h : cleanLine l) : splitLines l = [l] := by
  induction l with
  | nil => rfl
  | cons c r ih =>
    have hc : c ≠ '\n' := fun hc => h.1 (by simp [hc])
    have hc2 : c ≠ '\r' := fun hc => h.2 (by simp [hc])
    have hr : cleanLine r :=
      ⟨fun hx => h.1 (List.mem_cons_of_mem _ hx),
        fun hx => h.2 (List.mem_cons_of_mem _ hx)⟩
    exact splitLines_cons_generic c r r [] hc hc2 (ih hr)

theorem splitLines_append_newline (l : Line) (s : List Char)
    (h : cleanLine l) :
    splitLines (l ++ '\n' :: s) = l :: splitLines s := by
  induction l with
  | nil => simp [splitLines]
  | cons c r ih =>
    have hc : c ≠ '\n' := fun hc => h.1 (by simp [hc])
    have hc2 : c ≠ '\r' := fun hc => h.2 (by simp [hc])
    have hr : cleanLine r :=
      ⟨fun hx => h.1 (List.mem_cons_of_mem _ hx),
        fun hx => h.2 (List.mem_cons_of_mem _ hx)⟩
    have := ih hr
    exact splitLines_cons_generic c (r ++ '\n' :: s) r (splitLines s) hc hc2 this

theorem splitLines_joinLines (d : Doc) (hne : d ≠ [])
    (hcl : ∀ l ∈ d, cleanLine l) : splitLines (joinLines d) = d := by
  induction d with
  | nil => exact absurd rfl hne
  | cons l rest ih =>
    cases rest with
    | nil =>
      rw [joinLines]
      exact splitLines_single l (hcl l (List.mem_cons_self _ _))
    | cons x xs =>
      rw [joinLines_cons_of_ne _ _ (by simp)]
      rw [splitLines_append_newline l _ (hcl l (List.mem_cons_self _ _))]
      rw [ih (by simp) (fun y hy => hcl y (List.mem_cons_of_mem _ hy))]

end CalloutExporter

namespace CalloutExporter

/-! ## Sorting and applying line-range operations -/

theorem insertB_perm (le : α → α → Bool) (a : α) (l : List α) :
    List.Perm (insertB le a l) (a :: l) := by
  induction l with
  | nil => rfl
  | cons b r ih =>
    rw [insertB]
    split
    · rfl
    · exact (List.Perm.cons b ih).trans (List.Perm.swap a b r)

theorem insertionSortB_perm (le : α → α → Bool) (l : List α) :
    List.Perm (insertionSortB le l) l := by
  induction l with
  | nil => rfl
  | cons a r ih =>
    rw [insertionSortB]
    exact (insertB_perm le a (insertionSortB le r)).trans (ih.cons a)

theorem insertB_sorted_ops (a : LineOp) (l : List LineOp)
    (h : l.Pairwise (fun x y => y.start ≤ x.start)) :
    (insertB opDescLe a l).Pairwise (fun x y => y.start ≤ x.start) := by
  induction l with
  | nil => simp [insertB]
  | cons b r ih =>
    rw [insertB]
    split
    · rename_i hab
      have hb : b.start ≤ a.start := by simpa [opDescLe] using hab
      refine List.Pairwise.cons ?_ h
      intro x hx
      rcases List.mem_cons.1 hx with hx | hx
      · exact hx ▸ hb
      · exact le_trans (List.rel_of_pairwise_cons h hx) hb
    · rename_i hab
      have hb : a.start ≤ b.start :=
        le_of_not_le (by simpa [opDescLe] using hab)
      have hpr : r.Pairwise (fun x y => y.start ≤ x.start) :=
        (List.pairwise_cons.1 h).2
      refine List.Pairwise.cons ?_ (ih hpr)
      intro x hx
      have hx2 : x ∈ a :: r := (insertB_perm opDescLe a r).mem_iff.1 hx
      rcases List.mem_cons.1 hx2 with hx2 | hx2
      · exact hx2 ▸ hb
      · exact (List.pairwise_cons.1 h).1 x hx2

theorem insertionSortB_sorted_ops (l : List LineOp) :
    (insertionSortB opDescLe l).Pairwise (fun x y => y.start ≤ x.start) := by
  induction l with
  | nil => simp [insertionSortB]
  | cons a r ih => exact insertB_sorted_ops a _ ih

theorem sorted_desc_unique (l asc : List LineOp) (hperm : List.Perm l asc)
    (hasc : asc.Pairwise (fun a b => a.start < b.start))
    (hdesc : l.Pairwise (fun a b : LineOp => b.start ≤ a.start)) :
    l = asc.reverse := by
  induction l generalizing asc with
  | nil =>
    have := hperm.symm.eq_nil
    simp [this]
  | cons x l2 ih =>
    rcases asc.eq_nil_or_concat with hn | ⟨as2, a, hcat⟩
    · subst hn; exact absurd hperm.eq_nil (by simp)
    · rw [List.concat_eq_append] at hcat
      subst hcat
      have hxa : x = a := by
        have hx : x ∈ as2 ++ [a] := hperm.subset (List.mem_cons_self x l2)
        rcases List.mem_append.1 hx with hx | hx
        · exfalso
          have hlt : x.start < a.start := by
            have := List.pairwise_append.1 hasc
            exact this.2.2 x hx a (List.mem_singleton_self a)
          have ha2 : a ∈ x :: l2 :=
            hperm.symm.subset (by simp)
          rcases List.mem_cons.1 ha2 with ha2 | ha2
          · rw [ha2] at hlt; exact lt_irrefl _ hlt
          · have := List.rel_of_pairwise_cons hdesc ha2
            omega
        · simpa using hx
      subst hxa
      have hperm2 : List.Perm l2 as2 := by
        have h1 : List.Perm (x :: l2) (x :: as2) :=
          hperm.trans (List.perm_append_singleton x as2)
        exact h1.cons_inv
      have hasc2 : as2.Pairwise (fun a b => a.start < b.start) :=
        (List.pairwise_append.1 hasc).1
      have := ih as2 hperm2 hasc2 (List.pairwise_cons.1 hdesc).2
      rw [this]
      simp

theorem simApplyFrom_take (lines : Doc) (ops : List LineOp) (i m : Nat)
    (him : i ≤ m) (hops : ∀ op ∈ ops, m ≤ op.start) (hm : m ≤ lines.length) :
    (simApplyFrom lines i ops).take (m - i) = (lines.drop i).take (m - i) := by
  cases ops with
  | nil => rfl
  | cons op rest =>
    rw [simApplyFrom, List.append_assoc]
    have hs : m ≤ op.start := hops op (List.mem_cons_self _ _)
    have hlen : m - i ≤ ((lines.drop i).take (op.start - i)).length := by
      simp only [List.length_take, List.length_drop]
      omega
    rw [List.take_append_of_le_length hlen, List.take_take]
    congr 1
    omega

theorem simApplyFrom_drop (lines : Doc) (ops : List LineOp) (i m : Nat)
    (him : i ≤ m) (hops : ∀ op ∈ ops, m ≤ op.start)
    (hstart : ∀ op ∈ ops, op.start ≤ lines.length) (hm : m ≤ lines.length) :
    (simApplyFrom lines i ops).drop (m - i) = simApplyFrom lines m ops := by
  cases ops with
  | nil =>
    simp only [simApplyFrom, List.drop_drop]
    congr 1
    omega
  | cons op rest =>
    rw [simApplyFrom, simApplyFrom, List.append_assoc, List.append_assoc]
    have hs : m ≤ op.start := hops op (List.mem_cons_self _ _)
    have hsl : op.start ≤ lines.length := hstart op (List.mem_cons_self _ _)
    have hlen : ((lines.drop i).take (op.start - i)).length = op.start - i := by
      simp only [List.length_take, List.length_drop]
      omega
    rw [List.drop_append_of_le_length (by rw [hlen]; omega)]
    have hseg : ((lines.drop i).take (op.start - i)).drop (m - i) =
        (lines.drop m).take (op.start - m) := by
      rw [List.drop_take, List.drop_drop]
      have h1 : op.start - i - (m - i) = op.start - m := by omega
      have h2 : i + (m - i) = m := by omega
      rw [h1, h2]
    rw [hseg]

/-- Applying the operations in descending-start order (last operation of the
ascending list first) coincides with simultaneous application. -/
theorem foldr_splice_eq_simApply (asc : List LineOp) (lines : Doc)
    (hord : OpsOrdered asc) (hb : OpsBounded lines asc) :
    asc.foldr (fun op acc => spliceOp acc op) lines = simApply lines asc := by
  induction asc with
  | nil => rfl
  | cons op rest ih =>
    have hord2 : OpsOrdered rest := (List.pairwise_cons.1 hord).2
    have hb2 : OpsBounded lines rest :=
      fun x hx => hb x (List.mem_cons_of_mem _ hx)
    have hrest : ∀ x ∈ rest, op.stop ≤ x.start :=
      fun x hx => (List.rel_of_pairwise_cons hord hx).1
    have hse : op.start ≤ op.stop := (hb op (List.mem_cons_self _ _)).1
    have hsl : op.stop ≤ lines.length := (hb op (List.mem_cons_self _ _)).2
    rw [List.foldr_cons, ih hord2 hb2]
    unfold spliceOp simApply
    rw [simApplyFrom]
    have h1 : (simApplyFrom lines 0 rest).take op.start =
        lines.take op.start := by
      have := simApplyFrom_take lines rest 0 op.start (Nat.zero_le _)
        (fun x hx => le_trans hse (hrest x hx)) (le_trans hse hsl)
      simpa using this
    have h2 : (simApplyFrom lines 0 rest).drop op.stop =
        simApplyFrom lines op.stop rest := by
      have := simApplyFrom_drop lines rest 0 op.stop (Nat.zero_le _)
        (fun x hx => hrest x hx)
        (fun x hx => le_trans (hb2 x hx).1 (hb2 x hx).2) hsl
      simpa using this
    rw [h1, h2]
    simp

/-- The code's sort-then-splice application of any permutation of an
ascending non-overlapping operation set equals simultaneous application. -/
theorem applyOps_eq_simApply (ops asc : List LineOp) (lines : Doc)
    (hperm : List.Perm ops asc) (hord : OpsOrdered asc)
    (hb : OpsBounded lines asc) :
    applyOps lines ops = simApply lines asc := by
  unfold applyOps
  have hsorted : insertionSortB opDescLe ops = asc.reverse :=
    sorted_desc_unique _ _ ((insertionSortB_perm opDescLe ops).trans hperm)
      (hord.imp (fun h => h.2)) (insertionSortB_sorted_ops ops)
  rw [hsorted, List.foldl_reverse]
  exact foldr_splice_eq_simApply asc lines hord hb

/-! ## The extraction scan: unfolding equations -/

theorem drop_takeWhile_length (p : α → Bool) (l : List α) :
    l.drop (l.takeWhile p).length = l.dropWhile p := by
  induction l with
  | nil => rfl
  | cons a r ih =>
    by_cases h : p a
    · simp [List.takeWhile_cons, List.dropWhile_cons, h, ih]
    · simp [List.takeWhile_cons, List.dropWhile_cons, h]

theorem scanBody_append (rest : Doc) :
    scanBody rest ++ scanRest2 rest = rest := by
  simp only [scanRest2, scanBody, drop_takeWhile_length]
  exact List.takeWhile_append_dropWhile _ _

theorem scanBlanks_append (rest : Doc) :
    scanBlanks rest ++ scanRest3 rest = scanRest2 rest := by
  simp only [scanRest3, scanBlanks, drop_takeWhile_length]
  exact List.takeWhile_append_dropWhile _ _

theorem scanRest2_length (rest : Doc) :
    (scanRest2 rest).length ≤ rest.length := by
  unfold scanRest2
  simp

theorem scanRest3_length (rest : Doc) :
    (scanRest3 rest).length ≤ (scanRest2 rest).length := by
  unfold scanRest3
  simp

theorem extractGo_zero (tracked : List Line) (ai : Bool) (gen : Nat → Line)
    (gi off : Nat) (rem : Doc) :
    extractGo tracked ai gen 0 gi off rem = ([], []) := rfl

theorem extractGo_nil (tracked : List Line) (ai : Bool) (gen : Nat → Line)
    (fuel gi off : Nat) :
    extractGo tracked ai gen (fuel + 1) gi off [] = ([], []) := rfl

theorem extractGo_skip {tracked : List Line} (ai : Bool) (gen : Nat → Line)
    (fuel gi off : Nat) {line : Line} {rest : Doc}
    (h : calloutStartTracked tracked line = none) :
    extractGo tracked ai gen (fuel + 1) gi off (line :: rest) =
      (line :: (extractGo tracked ai gen fuel gi (off + 1) rest).1,
        (extractGo tracked ai gen fuel gi (off + 1) rest).2) := by
  rw [extractGo, h]

theorem extractGo_found {tracked : List Line} (ai : Bool) (gen : Nat → Line)
    (fuel gi off : Nat) {line : Line} {rest : Doc} {ty bid : Line}
    (h : calloutStartTracked tracked line = some ty)
    (hf : scanFound rest = some bid) :
    extractGo tracked ai gen (fuel + 1) gi off (line :: rest) =
      (line :: scanBody rest ++ scanBlanks rest ++ (scanRest3 rest).take 1 ++
        (extractGo tracked ai gen fuel gi
          (off + 1 + (scanBody rest).length + (scanBlanks rest).length + 1)
          ((scanRest3 rest).drop 1)).1,
       ⟨ty, some bid, trimTrailingBlankLines ((scanBody rest).map unquoteLine),
         off, off + 1 + (scanBody rest).length,
         some (off + 1 + (scanBody rest).length + (scanBlanks rest).length)⟩ ::
        (extractGo tracked ai gen fuel gi
          (off + 1 + (scanBody rest).length + (scanBlanks rest).length + 1)
          ((scanRest3 rest).drop 1)).2) := by
  rw [extractGo, h, hf]

theorem extractGo_insertPre {tracked : List Line} (gen : Nat → Line)
    (fuel gi off : Nat) {line : Line} {rest : Doc} {ty b0 : Line}
    (h : calloutStartTracked tracked line = some ty)
    (hf : scanFound rest = none)
    (hh : (scanRest2 rest).head? = some b0) (hb : trimJS b0 = []) :
    extractGo tracked true gen (fuel + 1) gi off (line :: rest) =
      (line :: scanBody rest ++ ('^' :: gen gi) ::
        (extractGo tracked true gen fuel (gi + 1)
          (off + 1 + (scanBody rest).length + 1) (scanRest2 rest)).1,
       ⟨ty, some (gen gi),
         trimTrailingBlankLines ((scanBody rest).map unquoteLine),
         off, off + 1 + (scanBody rest).length,
         some (off + 1 + (scanBody rest).length)⟩ ::
        (extractGo tracked true gen fuel (gi + 1)
          (off + 1 + (scanBody rest).length + 1) (scanRest2 rest)).2) := by
  rw [extractGo, h, hf]
  simp [hh, hb]

theorem extractGo_insertMid {tracked : List Line} (gen : Nat → Line)
    (fuel gi off : Nat) {line : Line} {rest : Doc} {ty b0 : Line}
    (h : calloutStartTracked tracked line = some ty)
    (hf : scanFound rest = none)
    (hh : (scanRest2 rest).head? = some b0) (hb : ¬ trimJS b0 = []) :
    extractGo tracked true gen (fuel + 1) gi off (line :: rest) =
      (line :: scanBody rest ++ [] :: ('^' :: gen gi) :: [] ::
        (extractGo tracked true gen fuel (gi + 1)
          (off + 1 + (scanBody rest).length + 3) (scanRest2 rest)).1,
       ⟨ty, some (gen gi),
         trimTrailingBlankLines ((scanBody rest).map unquoteLine),
         off, off + 1 + (scanBody rest).length,
         some (off + 1 + (scanBody rest).length + 1)⟩ ::
        (extractGo tracked true gen fuel (gi + 1)
          (off + 1 + (scanBody rest).length + 3) (scanRest2 rest)).2) := by
  rw [extractGo, h, hf]
  simp [hh, hb]

theorem extractGo_insertEnd {tracked : List Line} (gen : Nat → Line)
    (fuel gi off : Nat) {line : Line} {rest : Doc} {ty : Line}
    (h : calloutStartTracked tracked line = some ty)
    (hf : scanFound rest = none)
    (hh : (scanRest2 rest).head? = none) :
    extractGo tracked true gen (fuel + 1) gi off (line :: rest) =
      (line :: scanBody rest ++ [[], '^' :: gen gi, []],
       [⟨ty, some (gen gi),
         trimTrailingBlankLines ((scanBody rest).map unquoteLine),
         off, off + 1 + (scanBody rest).length,
         some (off + 1 + (scanBody rest).length + 1)⟩]) := by
  rw [extractGo, h, hf]
  simp [hh]

theorem extractGo_noId {tracked : List Line} (gen : Nat → Line)
    (fuel gi off : Nat) {line : Line} {rest : Doc} {ty : Line}
    (h : calloutStartTracked tracked line = some ty)
    (hf : scanFound rest = none) :
    extractGo tracked false gen (fuel + 1) gi off (line :: rest) =
      (line :: scanBody rest ++
        (extractGo tracked false gen fuel gi
          (off + 1 + (scanBody rest).length) (scanRest2 rest)).1,
       ⟨ty, none, trimTrailingBlankLines ((scanBody rest).map unquoteLine),
         off, off + 1 + (scanBody rest).length, none⟩ ::
        (extractGo tracked false gen fuel gi
          (off + 1 + (scanBody rest).length) (scanRest2 rest)).2) := by
  rw [extractGo, h, hf]
  simp

/-! ## The extraction scan: structural facts -/

theorem scanRest3_drop_length (rest : Doc) :
    ((scanRest3 rest).drop 1).length ≤ rest.length := by
  have h1 := scanRest3_length rest
  have h2 := scanRest2_length rest
  simp only [List.length_drop]
  omega

/-- With auto-insertion off, the scan never modifies the lines. -/
theorem extractGo_false_fst (tracked : List Line) (gen : Nat → Line) :
    ∀ fuel gi off rem, rem.length ≤ fuel →
      (extractGo tracked false gen fuel gi off rem).1 = rem := by
  intro fuel
  induction fuel with
  | zero =>
    intro gi off rem h
    have : rem = [] := List.eq_nil_of_length_eq_zero (Nat.le_zero.1 h)
    subst this
    rfl
  | succ fuel ih =>
    intro gi off rem h
    cases rem with
    | nil => rfl
    | cons line rest =>
      have hlen : rest.length ≤ fuel := by
        simp only [List.length_nil, List.length_cons] at h; omega
      cases hc : calloutStartTracked tracked line with
      | none =>
        rw [extractGo_skip false gen fuel gi off hc]
        simp only
        rw [ih gi (off + 1) rest hlen]
      | some ty =>
        cases hf : scanFound rest with
        | some bid =>
          rw [extractGo_found false gen fuel gi off hc hf]
          simp only
          rw [ih _ _ _ (le_trans (scanRest3_drop_length rest) hlen)]
          simp only [List.append_assoc, List.take_append_drop,
            scanBlanks_append]
          exact congrArg (fun x => line :: x) (scanBody_append rest)
        | none =>
          rw [extractGo_noId gen fuel gi off hc hf]
          simp only
          rw [ih _ _ _ (le_trans (le_trans (scanRest2_length rest)
            (le_refl _)) hlen)]
          exact congrArg (fun x => line :: x) (scanBody_append rest)

theorem scanFound_ne_nil {rest : Doc} {bid : Line}
    (hf : scanFound rest = some bid) :
    ∃ idl rest4, scanRest3 rest = idl :: rest4 ∧ parseBlockId idl = some bid := by
  unfold scanFound at hf
  cases hr : scanRest3 rest with
  | nil => rw [hr] at hf; exact absurd hf (by simp)
  | cons idl rest4 =>
    rw [hr] at hf
    exact ⟨idl, rest4, rfl, hf⟩

theorem calloutEnd_mk_some (t : Line) (b : Option Line) (bl : Doc)
    (s q k : Nat) :
    calloutEnd ⟨t, b, bl, s, q, some k⟩ = k + 1 := rfl

theorem calloutEnd_mk_none (t : Line) (b : Option Line) (bl : Doc)
    (s q : Nat) :
    calloutEnd ⟨t, b, bl, s, q, none⟩ = q := rfl

/-- The structural facts of the scan: every callout starts at or after the
current offset, its header precedes its body end, its identifier line (when
present) lies at or after its body end, everything it spans lies inside the
output, and distinct callouts span disjoint, ordered line ranges. -/
theorem extractGo_order (tracked : List Line) (ai : Bool) (gen : Nat → Line) :
    ∀ fuel gi off rem,
      (∀ c ∈ (extractGo tracked ai gen fuel gi off rem).2,
        off ≤ c.startLine ∧ c.startLine < c.quoteEndLine ∧
        c.quoteEndLine ≤ calloutEnd c ∧
        (∀ k, c.idLine = some k → c.quoteEndLine ≤ k) ∧
        calloutEnd c ≤ off + (extractGo tracked ai gen fuel gi off rem).1.length) ∧
      (extractGo tracked ai gen fuel gi off rem).2.Pairwise
        (fun a b => calloutEnd a ≤ b.startLine) := by
  intro fuel
  induction fuel with
  | zero =>
    intro gi off rem
    rw [extractGo_zero]
    exact ⟨by simp, by simp⟩
  | succ fuel ih =>
    intro gi off rem
    cases rem with
    | nil => rw [extractGo_nil]; exact ⟨by simp, by simp⟩
    | cons line rest =>
      cases hc : calloutStartTracked tracked line with
      | none =>
        rw [extractGo_skip ai gen fuel gi off hc]
        obtain ⟨hall, hpw⟩ := ih gi (off + 1) rest
        refine ⟨?_, hpw⟩
        intro c hcm
        obtain ⟨h1, h2, h3, h4, h5⟩ := hall c hcm
        refine ⟨by omega, h2, h3, h4, ?_⟩
        simp only [List.length_nil, List.length_cons]
        omega
      | some ty =>
        cases hf : scanFound rest with
        | some bid =>
          rw [extractGo_found ai gen fuel gi off hc hf]
          obtain ⟨idl, rest4, hr3, hpb⟩ := scanFound_ne_nil hf
          have htake : ((scanRest3 rest).take 1).length = 1 := by
            rw [hr3]; rfl
          obtain ⟨hall, hpw⟩ := ih gi
            (off + 1 + (scanBody rest).length + (scanBlanks rest).length + 1)
            ((scanRest3 rest).drop 1)
          constructor
          · intro c hcm
            rcases List.mem_cons.1 hcm with hcm | hcm
            · subst hcm
              simp only [calloutEnd_mk_some, List.length_cons,
                List.length_append, htake]
              refine ⟨le_refl _, by omega, by omega, ?_, by omega⟩
              intro k hk
              have := Option.some.inj hk
              omega
            · obtain ⟨h1, h2, h3, h4, h5⟩ := hall c hcm
              refine ⟨by omega, h2, h3, h4, ?_⟩
              simp only [List.length_nil, List.length_cons, List.length_append, htake]
              omega
          · refine List.Pairwise.cons ?_ hpw
            intro c hcm
            have h1 := (hall c hcm).1
            simp only [calloutEnd_mk_some]
            omega
        | none =>
          cases ai with
          | false =>
            rw [extractGo_noId gen fuel gi off hc hf]
            obtain ⟨hall, hpw⟩ := ih gi
              (off + 1 + (scanBody rest).length) (scanRest2 rest)
            constructor
            · intro c hcm
              rcases List.mem_cons.1 hcm with hcm | hcm
              · subst hcm
                simp only [calloutEnd_mk_none, List.length_cons,
                  List.length_append]
                refine ⟨le_refl _, by omega, by omega, ?_, by omega⟩
                intro k hk
                exact absurd hk (by simp)
              · obtain ⟨h1, h2, h3, h4, h5⟩ := hall c hcm
                refine ⟨by omega, h2, h3, h4, ?_⟩
                simp only [List.length_nil, List.length_cons, List.length_append]
                omega
            · refine List.Pairwise.cons ?_ hpw
              intro c hcm
              have h1 := (hall c hcm).1
              simp only [calloutEnd_mk_none]
              omega
          | true =>
            cases hh : (scanRest2 rest).head? with
            | some b0 =>
              by_cases hb : trimJS b0 = []
              · rw [extractGo_insertPre gen fuel gi off hc hf hh hb]
                obtain ⟨hall, hpw⟩ := ih (gi + 1)
                  (off + 1 + (scanBody rest).length + 1) (scanRest2 rest)
                constructor
                · intro c hcm
                  rcases List.mem_cons.1 hcm with hcm | hcm
                  · subst hcm
                    simp only [calloutEnd_mk_some, List.length_cons,
                      List.length_append]
                    refine ⟨le_refl _, by omega, by omega, ?_, by omega⟩
                    intro k hk
                    have := Option.some.inj hk
                    omega
                  · obtain ⟨h1, h2, h3, h4, h5⟩ := hall c hcm
                    refine ⟨by omega, h2, h3, h4, ?_⟩
                    simp only [List.length_nil, List.length_cons, List.length_append]
                    omega
                · refine List.Pairwise.cons ?_ hpw
                  intro c hcm
                  have h1 := (hall c hcm).1
                  simp only [calloutEnd_mk_some]
                  omega
              · rw [extractGo_insertMid gen fuel gi off hc hf hh hb]
                obtain ⟨hall, hpw⟩ := ih (gi + 1)
                  (off + 1 + (scanBody rest).length + 3) (scanRest2 rest)
                constructor
                · intro c hcm
                  rcases List.mem_cons.1 hcm with hcm | hcm
                  · subst hcm
                    simp only [calloutEnd_mk_some, List.length_cons,
                      List.length_append]
                    refine ⟨le_refl _, by omega, by omega, ?_, by omega⟩
                    intro k hk
                    have := Option.some.inj hk
                    omega
                  · obtain ⟨h1, h2, h3, h4, h5⟩ := hall c hcm
                    refine ⟨by omega, h2, h3, h4, ?_⟩
                    simp only [List.length_nil, List.length_cons, List.length_append]
                    omega
                · refine List.Pairwise.cons ?_ hpw
                  intro c hcm
                  have h1 := (hall c hcm).1
                  simp only [calloutEnd_mk_some]
                  omega
            | none =>
              rw [extractGo_insertEnd gen fuel gi off hc hf hh]
              constructor
              · intro c hcm
                rcases List.mem_cons.1 hcm with hcm | hcm
                · subst hcm
                  simp only [calloutEnd_mk_some, List.length_cons,
                    List.length_append]
                  refine ⟨le_refl _, by omega, by omega, ?_, by omega⟩
                  intro k hk
                  have := Option.some.inj hk
                  omega
                · exact absurd hcm (by simp)
              · simp

theorem extractGo_nil_any (tracked : List Line) (ai : Bool)
    (gen : Nat → Line) (fuel gi off : Nat) :
    extractGo tracked ai gen fuel gi off [] = ([], []) := by
  cases fuel with
  | zero => rfl
  | succ f => rfl

/-- The two scan modes report the same callout sequence up to identifiers
and line numbers: the (type, body) projection of the callout list does not
depend on the mode, the generator counter, the offset, or the (sufficient)
fuel. -/
theorem extractGo_proj (tracked : List Line) (gen : Nat → Line) :
    ∀ fuel fuel2 (ai ai2 : Bool) gi gi2 off off2 rem,
      rem.length ≤ fuel → rem.length ≤ fuel2 →
      ((extractGo tracked ai gen fuel gi off rem).2.map
        (fun c => (c.ctype, c.bodyLines))) =
      ((extractGo tracked ai2 gen fuel2 gi2 off2 rem).2.map
        (fun c => (c.ctype, c.bodyLines))) := by
  intro fuel
  induction fuel with
  | zero =>
    intro fuel2 ai ai2 gi gi2 off off2 rem h h2
    have : rem = [] := List.eq_nil_of_length_eq_zero (Nat.le_zero.1 h)
    subst this
    rw [extractGo_zero, extractGo_nil_any]
  | succ fuel ih =>
    intro fuel2 ai ai2 gi gi2 off off2 rem h h2
    cases rem with
    | nil => rw [extractGo_nil_any, extractGo_nil_any]
    | cons line rest =>
      cases fuel2 with
      | zero => simp at h2
      | succ fs =>
        have hr1 : rest.length ≤ fuel := by
          simp only [List.length_nil, List.length_cons] at h; omega
        have hr2 : rest.length ≤ fs := by
          simp only [List.length_nil, List.length_cons] at h2; omega
        cases hc : calloutStartTracked tracked line with
        | none =>
          rw [extractGo_skip ai gen fuel gi off hc,
            extractGo_skip ai2 gen fs gi2 off2 hc]
          exact ih fs ai ai2 gi gi2 (off + 1) (off2 + 1) rest hr1 hr2
        | some ty =>
          cases hf : scanFound rest with
          | some bid =>
            rw [extractGo_found ai gen fuel gi off hc hf,
              extractGo_found ai2 gen fs gi2 off2 hc hf]
            simp only [List.map_cons]
            refine congrArg _ ?_
            exact ih fs ai ai2 gi gi2 _ _ ((scanRest3 rest).drop 1)
              (le_trans (scanRest3_drop_length rest) hr1)
              (le_trans (scanRest3_drop_length rest) hr2)
          | none =>
            have hb2 : (scanRest2 rest).length ≤ rest.length :=
              scanRest2_length rest
            have key : ∀ (b : Bool) f2 g2 o2, ∃ g3 o3,
                ((extractGo tracked b gen (f2 + 1) g2 o2 (line :: rest)).2.map
                  (fun c => (c.ctype, c.bodyLines))) =
                (ty, trimTrailingBlankLines
                    ((scanBody rest).map unquoteLine)) ::
                  ((extractGo tracked b gen f2 g3 o3 (scanRest2 rest)).2.map
                    (fun c => (c.ctype, c.bodyLines))) := by
              intro b f2 g2 o2
              cases b with
              | false =>
                refine ⟨g2, o2 + 1 + (scanBody rest).length, ?_⟩
                rw [extractGo_noId gen f2 g2 o2 hc hf]
                simp
              | true =>
                cases hh : (scanRest2 rest).head? with
                | some b0 =>
                  by_cases hb : trimJS b0 = []
                  · refine ⟨g2 + 1, o2 + 1 + (scanBody rest).length + 1, ?_⟩
                    rw [extractGo_insertPre gen f2 g2 o2 hc hf hh hb]
                    simp
                  · refine ⟨g2 + 1, o2 + 1 + (scanBody rest).length + 3, ?_⟩
                    rw [extractGo_insertMid gen f2 g2 o2 hc hf hh hb]
                    simp
                | none =>
                  have hnil : scanRest2 rest = [] := by
                    cases hsr : scanRest2 rest with
                    | nil => rfl
                    | cons x xs => rw [hsr] at hh; simp at hh
                  refine ⟨g2, o2, ?_⟩
                  rw [extractGo_insertEnd gen f2 g2 o2 hc hf hh, hnil,
                    extractGo_nil_any]
                  simp
            obtain ⟨g3, o3, hL⟩ := key ai fuel gi off
            obtain ⟨g4, o4, hR⟩ := key ai2 fs gi2 off2
            rw [hL, hR]
            refine congrArg _ ?_
            exact ih fs ai ai2 g3 g4 o3 o4 (scanRest2 rest)
              (le_trans hb2 hr1) (le_trans hb2 hr2)

/-- When the id-free scan reports an identifier for every callout, the
auto-assigning scan is the identity run: both modes produce identical
output. -/
theorem extractGo_true_eq_false (tracked : List Line) (gen : Nat → Line) :
    ∀ fuel gi off rem, rem.length ≤ fuel →
      (∀ c ∈ (extractGo tracked false gen fuel gi off rem).2,
        c.blockId.isSome = true) →
      extractGo tracked true gen fuel gi off rem =
        extractGo tracked false gen fuel gi off rem := by
  intro fuel
  induction fuel with
  | zero => intro gi off rem h hall; rfl
  | succ fuel ih =>
    intro gi off rem h hall
    cases rem with
    | nil => rfl
    | cons line rest =>
      have hr1 : rest.length ≤ fuel := by
        simp only [List.length_nil, List.length_cons] at h; omega
      cases hc : calloutStartTracked tracked line with
      | none =>
        rw [extractGo_skip true gen fuel gi off hc,
          extractGo_skip false gen fuel gi off hc]
        rw [extractGo_skip false gen fuel gi off hc] at hall
        rw [ih gi (off + 1) rest hr1 hall]
      | some ty =>
        cases hf : scanFound rest with
        | some bid =>
          rw [extractGo_found true gen fuel gi off hc hf,
            extractGo_found false gen fuel gi off hc hf]
          rw [extractGo_found false gen fuel gi off hc hf] at hall
          rw [ih gi _ ((scanRest3 rest).drop 1)
            (le_trans (scanRest3_drop_length rest) hr1)
            (fun c hcm => hall c (List.mem_cons_of_mem _ hcm))]
        | none =>
          exfalso
          rw [extractGo_noId gen fuel gi off hc hf] at hall
          have := hall _ (List.mem_cons_self _ _)
          simp at this

/-- Inversion of `parseBlockId`. -/
theorem parseBlockId_idOK {l bid : Line} (h : parseBlockId l = some bid) :
    idOK bid := by
  unfold parseBlockId at h
  cases ht : trimJS l with
  | nil => rw [ht] at h; exact absurd h (by simp)
  | cons c r =>
    rw [ht] at h
    by_cases hc : c = '^'
    · subst hc
      simp only at h
      by_cases hcond : !r.isEmpty && r.all isIdChar
      · rw [if_pos hcond] at h
        have := Option.some.inj h
        subst this
        simp only [Bool.and_eq_true, Bool.not_eq_true'] at hcond
        exact ⟨by simpa [List.isEmpty_iff] using hcond.1, hcond.2⟩
      · rw [if_neg hcond] at h
        exact absurd h (by simp)
    · exfalso
      revert h
      cases c
      simp_all [parseBlockId]

theorem dropWhile_idem (p : α → Bool) (l : List α) :
    (l.dropWhile p).dropWhile p = l.dropWhile p := by
  induction l with
  | nil => rfl
  | cons a r ih =>
    by_cases h : p a
    · simp [List.dropWhile_cons, h, ih]
    · simp [List.dropWhile_cons, h]

theorem trimTrailingBlankLines_idem (d : Doc) :
    trimTrailingBlankLines (trimTrailingBlankLines d) =
      trimTrailingBlankLines d := by
  unfold trimTrailingBlankLines
  rw [List.reverse_reverse, dropWhile_idem]

theorem mem_takeWhile_mem {p : α → Bool} {l : List α} {a : α}
    (h : a ∈ l.takeWhile p) : a ∈ l := by
  induction l with
  | nil => simp [List.takeWhile] at h
  | cons b r ih =>
    rw [List.takeWhile_cons] at h
    by_cases hb : p b
    · rw [if_pos hb] at h
      rcases List.mem_cons.1 h with h | h
      · exact h ▸ List.mem_cons_self _ _
      · exact List.mem_cons_of_mem _ (ih h)
    · rw [if_neg hb] at h
      exact absurd h (by simp)

theorem mem_dropWhile_mem {p : α → Bool} {l : List α} {a : α}
    (h : a ∈ l.dropWhile p) : a ∈ l := by
  induction l with
  | nil => simp [List.dropWhile] at h
  | cons b r ih =>
    rw [List.dropWhile_cons] at h
    by_cases hb : p b
    · rw [if_pos hb] at h
      exact List.mem_cons_of_mem _ (ih h)
    · rw [if_neg hb] at h
      exact h

theorem mem_trimTrailing_mem {d : Doc} {a : Line}
    (h : a ∈ trimTrailingBlankLines d) : a ∈ d := by
  unfold trimTrailingBlankLines at h
  rw [List.mem_reverse] at h
  exact List.mem_reverse.1 (mem_dropWhile_mem h)

theorem mem_unquoteLine_mem {l : Line} {x : Char} (h : x ∈ unquoteLine l) :
    x ∈ l := by
  unfold unquoteLine at h
  split at h
  · rename_i c r
    split at h
    · exact List.mem_cons_of_mem _ (List.mem_cons_of_mem _ h)
    · exact List.mem_cons_of_mem _ h
  · simp at h
  · exact h

theorem unquoteLine_clean {l : Line} (h : cleanLine l) :
    cleanLine (unquoteLine l) :=
  ⟨fun hm => h.1 (mem_unquoteLine_mem hm),
    fun hm => h.2 (mem_unquoteLine_mem hm)⟩

/-- Facts about every callout the scan reports: the identifier and its line
index are null together; every reported identifier is a well-formed token;
body lines are trailing-blank-trimmed; and body lines are clean whenever the
scanned lines are. -/
theorem extractGo_facts (tracked : List Line) (ai : Bool) (gen : Nat → Line)
    (hgen : genOK gen) :
    ∀ fuel gi off rem, ∀ c ∈ (extractGo tracked ai gen fuel gi off rem).2,
      (c.blockId = none ↔ c.idLine = none) ∧
      (∀ bid, c.blockId = some bid → idOK bid) ∧
      trimTrailingBlankLines c.bodyLines = c.bodyLines ∧
      ((∀ l ∈ rem, cleanLine l) → ∀ l ∈ c.bodyLines, cleanLine l) := by
  intro fuel
  induction fuel with
  | zero => intro gi off rem c hcm; rw [extractGo_zero] at hcm; simp at hcm
  | succ fuel ih =>
    intro gi off rem c hcm
    cases rem with
    | nil => rw [extractGo_nil] at hcm; simp at hcm
    | cons line rest =>
      have hbody : ∀ h : (∀ l ∈ line :: rest, cleanLine l),
          ∀ l ∈ trimTrailingBlankLines ((scanBody rest).map unquoteLine),
            cleanLine l := by
        intro h l hl
        have hl2 := mem_trimTrailing_mem hl
        obtain ⟨x, hx, hxe⟩ := List.mem_map.1 hl2
        have hx2 : x ∈ rest := mem_takeWhile_mem hx
        exact hxe ▸ unquoteLine_clean (h x (List.mem_cons_of_mem _ hx2))
      have hrest : ∀ (h : ∀ l ∈ line :: rest, cleanLine l) {d : Doc},
          (∀ l ∈ d, l ∈ rest) → ∀ l ∈ d, cleanLine l := by
        intro h d hd l hl
        exact h l (List.mem_cons_of_mem _ (hd l hl))
      have hsub2 : ∀ l ∈ scanRest2 rest, l ∈ rest := by
        intro l hl
        unfold scanRest2 at hl
        exact List.mem_of_mem_drop hl
      have hsub3 : ∀ l ∈ (scanRest3 rest).drop 1, l ∈ rest := by
        intro l hl
        have h1 := List.mem_of_mem_drop hl
        unfold scanRest3 at h1
        exact hsub2 _ (List.mem_of_mem_drop h1)
      cases hc : calloutStartTracked tracked line with
      | none =>
        rw [extractGo_skip ai gen fuel gi off hc] at hcm
        obtain ⟨h1, h2, h3, h4⟩ := ih gi (off + 1) rest c hcm
        exact ⟨h1, h2, h3, fun h =>
          h4 (fun l hl => h l (List.mem_cons_of_mem _ hl))⟩
      | some ty =>
        cases hf : scanFound rest with
        | some bid =>
          rw [extractGo_found ai gen fuel gi off hc hf] at hcm
          rcases List.mem_cons.1 hcm with hcm | hcm
          · subst hcm
            obtain ⟨idl, rest4, hr3, hpb⟩ := scanFound_ne_nil hf
            refine ⟨by simp, ?_, trimTrailingBlankLines_idem _, ?_⟩
            · intro b hb
              have := Option.some.inj hb
              exact this ▸ parseBlockId_idOK hpb
            · intro h
              exact hbody h
          · obtain ⟨h1, h2, h3, h4⟩ := ih gi _ ((scanRest3 rest).drop 1) c hcm
            exact ⟨h1, h2, h3, fun h => h4 (hrest h hsub3)⟩
        | none =>
          cases ai with
          | false =>
            rw [extractGo_noId gen fuel gi off hc hf] at hcm
            rcases List.mem_cons.1 hcm with hcm | hcm
            · subst hcm
              refine ⟨by simp, ?_, trimTrailingBlankLines_idem _, ?_⟩
              · intro b hb; exact absurd hb (by simp)
              · intro h; exact hbody h
            · obtain ⟨h1, h2, h3, h4⟩ := ih gi _ (scanRest2 rest) c hcm
              exact ⟨h1, h2, h3, fun h => h4 (hrest h hsub2)⟩
          | true =>
            cases hh : (scanRest2 rest).head? with
            | some b0 =>
              by_cases hb : trimJS b0 = []
              · rw [extractGo_insertPre gen fuel gi off hc hf hh hb] at hcm
                rcases List.mem_cons.1 hcm with hcm | hcm
                · subst hcm
                  refine ⟨by simp, ?_, trimTrailingBlankLines_idem _, ?_⟩
                  · intro b hbb
                    have := Option.some.inj hbb
                    exact this ▸ hgen gi
                  · intro h; exact hbody h
                · obtain ⟨h1, h2, h3, h4⟩ := ih (gi + 1) _ (scanRest2 rest) c hcm
                  exact ⟨h1, h2, h3, fun h => h4 (hrest h hsub2)⟩
              · rw [extractGo_insertMid gen fuel gi off hc hf hh hb] at hcm
                rcases List.mem_cons.1 hcm with hcm | hcm
                · subst hcm
                  refine ⟨by simp, ?_, trimTrailingBlankLines_idem _, ?_⟩
                  · intro b hbb
                    have := Option.some.inj hbb
                    exact this ▸ hgen gi
                  · intro h; exact hbody h
                · obtain ⟨h1, h2, h3, h4⟩ := ih (gi + 1) _ (scanRest2 rest) c hcm
                  exact ⟨h1, h2, h3, fun h => h4 (hrest h hsub2)⟩
            | none =>
              rw [extractGo_insertEnd gen fuel gi off hc hf hh] at hcm
              rcases List.mem_cons.1 hcm with hcm | hcm
              · subst hcm
                refine ⟨by simp, ?_, trimTrailingBlankLines_idem _, ?_⟩
                · intro b hbb
                  have := Option.some.inj hbb
                  exact this ▸ hgen gi
                · intro h; exact hbody h
              · exact absurd hcm (by simp)

/-- The scan only ever inserts lines: the input lines are a sublist of the
output lines, in order. -/
theorem extractGo_sublist (tracked : List Line) (ai : Bool)
    (gen : Nat → Line) :
    ∀ fuel gi off rem, rem.length ≤ fuel →
      List.Sublist rem (extractGo tracked ai gen fuel gi off rem).1 := by
  intro fuel
  induction fuel with
  | zero =>
    intro gi off rem h
    have : rem = [] := List.eq_nil_of_length_eq_zero (Nat.le_zero.1 h)
    subst this
    simp
  | succ fuel ih =>
    intro gi off rem h
    cases rem with
    | nil => simp
    | cons line rest =>
      have hr1 : rest.length ≤ fuel := by
        simp only [List.length_nil, List.length_cons] at h; omega
      have hb2 : (scanRest2 rest).length ≤ fuel :=
        le_trans (scanRest2_length rest) hr1
      cases hc : calloutStartTracked tracked line with
      | none =>
        rw [extractGo_skip ai gen fuel gi off hc]
        exact List.Sublist.cons₂ line (ih gi (off + 1) rest hr1)
      | some ty =>
        cases hf : scanFound rest with
        | some bid =>
          rw [extractGo_found ai gen fuel gi off hc hf]
          have hdec : line :: rest =
              line :: (scanBody rest ++ (scanBlanks rest ++
                ((scanRest3 rest).take 1 ++ (scanRest3 rest).drop 1))) := by
            rw [List.take_append_drop, scanBlanks_append, scanBody_append]
          rw [hdec]
          simp only [List.append_assoc]
          refine List.Sublist.cons₂ line ?_
          refine List.Sublist.append_left ?_ _
          refine List.Sublist.append_left ?_ _
          refine List.Sublist.append_left ?_ _
          exact ih gi _ ((scanRest3 rest).drop 1)
            (le_trans (scanRest3_drop_length rest) hr1)
        | none =>
          cases ai with
          | false =>
            rw [extractGo_noId gen fuel gi off hc hf]
            have hdec : line :: rest =
                line :: (scanBody rest ++ scanRest2 rest) := by
              rw [scanBody_append]
            rw [hdec]
            exact List.Sublist.cons₂ line
              (List.Sublist.append_left (ih gi _ (scanRest2 rest) hb2) _)
          | true =>
            cases hh : (scanRest2 rest).head? with
            | some b0 =>
              by_cases hb : trimJS b0 = []
              · rw [extractGo_insertPre gen fuel gi off hc hf hh hb]
                have hdec : line :: rest =
                    line :: (scanBody rest ++ scanRest2 rest) := by
                  rw [scanBody_append]
                rw [hdec]
                refine List.Sublist.cons₂ line ?_
                refine List.Sublist.append_left ?_ _
                exact List.Sublist.cons _ (ih (gi + 1) _ (scanRest2 rest) hb2)
              · rw [extractGo_insertMid gen fuel gi off hc hf hh hb]
                have hdec : line :: rest =
                    line :: (scanBody rest ++ scanRest2 rest) := by
                  rw [scanBody_append]
                rw [hdec]
                refine List.Sublist.cons₂ line ?_
                refine List.Sublist.append_left ?_ _
                refine List.Sublist.cons _ ?_
                refine List.Sublist.cons _ ?_
                exact List.Sublist.cons _ (ih (gi + 1) _ (scanRest2 rest) hb2)
            | none =>
              rw [extractGo_insertEnd gen fuel gi off hc hf hh]
              have hnil : scanRest2 rest = [] := by
                cases hsr : scanRest2 rest with
                | nil => rfl
                | cons x xs => rw [hsr] at hh; simp at hh
              have hdec : line :: rest =
                  line :: (scanBody rest ++ scanRest2 rest) := by
                rw [scanBody_append]
              rw [hdec, hnil, List.append_nil]
              exact List.Sublist.cons₂ line (List.sublist_append_left _ _)

theorem dropWhile_eq_self_of {p : α → Bool} {l : List α}
    (h : ∀ x ∈ l, p x = false) : l.dropWhile p = l := by
  cases l with
  | nil => rfl
  | cons a r =>
    rw [List.dropWhile_cons, if_neg]
    simp [h a (List.mem_cons_self a r)]

theorem trimJS_eq_self {l : Line} (h : ∀ x ∈ l, isSpaceJS x = false) :
    trimJS l = l := by
  unfold trimJS
  rw [dropWhile_eq_self_of h,
    dropWhile_eq_self_of (fun x hx => h x (List.mem_reverse.1 hx)),
    List.reverse_reverse]

theorem isIdChar_not_space {c : Char} (h : isIdChar c = true) :
    isSpaceJS c = false := by
  by_contra hcon
  rw [Bool.not_eq_false] at hcon
  unfold isSpaceJS at hcon
  simp only [Bool.or_eq_true, decide_eq_true_eq, or_assoc] at hcon
  rcases hcon with h1|h1|h1|h1|h1|h1|h1|h1 <;>
    subst h1 <;> revert h <;> decide

theorem parseBlockId_hat {bid : Line} (h : idOK bid) :
    parseBlockId ('^' :: bid) = some bid := by
  have hns : ∀ x ∈ '^' :: bid, isSpaceJS x = false := by
    intro x hx
    rcases List.mem_cons.1 hx with hx | hx
    · subst hx; rfl
    · exact isIdChar_not_space (List.all_eq_true.1 h.2 x hx)
  unfold parseBlockId
  rw [trimJS_eq_self hns]
  have hcond : (!bid.isEmpty && bid.all isIdChar) = true := by
    rw [Bool.and_eq_true, Bool.not_eq_true']
    refine ⟨?_, h.2⟩
    cases bid with
    | nil => exact absurd rfl h.1
    | cons x xs => rfl
  simp only [hcond, if_true]

/-- Every reported identifier line index points, in the output lines, at a
line whose parsed block id is exactly the callout's reported id. -/
theorem extractGo_idLine (tracked : List Line) (ai : Bool) (gen : Nat → Line)
    (hgen : genOK gen) :
    ∀ fuel gi off rem, ∀ c ∈ (extractGo tracked ai gen fuel gi off rem).2,
      ∀ k, c.idLine = some k →
        off ≤ k ∧
        ∃ l, (extractGo tracked ai gen fuel gi off rem).1[k - off]? = some l ∧
          parseBlockId l = c.blockId := by
  intro fuel
  induction fuel with
  | zero => intro gi off rem c hcm; rw [extractGo_zero] at hcm; simp at hcm
  | succ fuel ih =>
    intro gi off rem c hcm k hk
    cases rem with
    | nil => rw [extractGo_nil] at hcm; simp at hcm
    | cons line rest =>
      cases hc : calloutStartTracked tracked line with
      | none =>
        rw [extractGo_skip ai gen fuel gi off hc] at hcm ⊢
        simp only at hcm ⊢
        obtain ⟨h1, l, hl, hpb⟩ := ih gi (off + 1) rest c hcm k hk
        refine ⟨by omega, l, ?_, hpb⟩
        rw [show k - off = (k - (off + 1)) + 1 by omega,
          List.getElem?_cons_succ]
        exact hl
      | some ty =>
        cases hf : scanFound rest with
        | some bid =>
          obtain ⟨idl, rest4, hr3, hpb⟩ := scanFound_ne_nil hf
          have htake1 : (scanRest3 rest).take 1 = [idl] := by rw [hr3]; rfl
          rw [extractGo_found ai gen fuel gi off hc hf] at hcm ⊢
          simp only at hcm ⊢
          rcases List.mem_cons.1 hcm with hcm | hcm
          · subst hcm
            have hkv := Option.some.inj hk
            refine ⟨by omega, idl, ?_, hpb⟩
            have hregroup :
                line :: scanBody rest ++ scanBlanks rest ++
                    (scanRest3 rest).take 1 ++
                    (extractGo tracked ai gen fuel gi
                      (off + 1 + (scanBody rest).length +
                        (scanBlanks rest).length + 1)
                      ((scanRest3 rest).drop 1)).1 =
                  (line :: (scanBody rest ++ scanBlanks rest)) ++
                    (idl :: (extractGo tracked ai gen fuel gi
                      (off + 1 + (scanBody rest).length +
                        (scanBlanks rest).length + 1)
                      ((scanRest3 rest).drop 1)).1) := by
              rw [htake1]
              simp [List.append_assoc]
            rw [hregroup, List.getElem?_append_right
              (by simp only [List.length_nil, List.length_cons, List.length_append]; omega)]
            rw [show k - off - (line :: (scanBody rest ++
                scanBlanks rest)).length = 0 from by
              simp only [List.length_nil, List.length_cons, List.length_append]; omega]
            simp
          · obtain ⟨h1, l, hl, hpb2⟩ := ih gi _ ((scanRest3 rest).drop 1)
              c hcm k hk
            refine ⟨by omega, l, ?_, hpb2⟩
            have hregroup :
                line :: scanBody rest ++ scanBlanks rest ++
                    (scanRest3 rest).take 1 ++
                    (extractGo tracked ai gen fuel gi
                      (off + 1 + (scanBody rest).length +
                        (scanBlanks rest).length + 1)
                      ((scanRest3 rest).drop 1)).1 =
                  (line :: (scanBody rest ++ scanBlanks rest ++
                      (scanRest3 rest).take 1)) ++
                    (extractGo tracked ai gen fuel gi
                      (off + 1 + (scanBody rest).length +
                        (scanBlanks rest).length + 1)
                      ((scanRest3 rest).drop 1)).1 := by
              simp [List.append_assoc]
            rw [hregroup, List.getElem?_append_right
              (by
                simp only [List.length_nil, List.length_cons, List.length_append, htake1,
                  List.length_singleton]
                omega)]
            rw [show k - off - (line :: (scanBody rest ++ scanBlanks rest ++
                (scanRest3 rest).take 1)).length =
                k - (off + 1 + (scanBody rest).length +
                  (scanBlanks rest).length + 1) from by
              simp only [List.length_nil, List.length_cons, List.length_append, htake1,
                List.length_singleton]
              omega]
            exact hl
        | none =>
          cases ai with
          | false =>
            rw [extractGo_noId gen fuel gi off hc hf] at hcm ⊢
            simp only at hcm ⊢
            rcases List.mem_cons.1 hcm with hcm | hcm
            · subst hcm
              exact absurd hk (by simp)
            · obtain ⟨h1, l, hl, hpb⟩ := ih gi _ (scanRest2 rest) c hcm k hk
              refine ⟨by omega, l, ?_, hpb⟩
              have hregroup :
                  line :: scanBody rest ++
                      (extractGo tracked false gen fuel gi
                        (off + 1 + (scanBody rest).length)
                        (scanRest2 rest)).1 =
                    (line :: scanBody rest) ++
                      (extractGo tracked false gen fuel gi
                        (off + 1 + (scanBody rest).length)
                        (scanRest2 rest)).1 := by
                simp
              rw [hregroup, List.getElem?_append_right
                (by simp only [List.length_nil, List.length_cons]; omega)]
              rw [show k - off - (line :: scanBody rest).length =
                  k - (off + 1 + (scanBody rest).length) from by
                simp only [List.length_nil, List.length_cons]; omega]
              exact hl
          | true =>
            cases hh : (scanRest2 rest).head? with
            | some b0 =>
              by_cases hb : trimJS b0 = []
              · rw [extractGo_insertPre gen fuel gi off hc hf hh hb]
                  at hcm ⊢
                simp only at hcm ⊢
                rcases List.mem_cons.1 hcm with hcm | hcm
                · subst hcm
                  have hkv := Option.some.inj hk
                  refine ⟨by omega, '^' :: gen gi, ?_,
                    parseBlockId_hat (hgen gi)⟩
                  have hregroup :
                      line :: scanBody rest ++ ('^' :: gen gi) ::
                          (extractGo tracked true gen fuel (gi + 1)
                            (off + 1 + (scanBody rest).length + 1)
                            (scanRest2 rest)).1 =
                        (line :: scanBody rest) ++ (('^' :: gen gi) ::
                          (extractGo tracked true gen fuel (gi + 1)
                            (off + 1 + (scanBody rest).length + 1)
                            (scanRest2 rest)).1) := by
                    simp
                  rw [hregroup, List.getElem?_append_right
                    (by simp only [List.length_nil, List.length_cons]; omega)]
                  rw [show k - off - (line :: scanBody rest).length = 0
                    from by simp only [List.length_nil, List.length_cons]; omega]
                  simp
                · obtain ⟨h1, l, hl, hpb⟩ := ih (gi + 1) _ (scanRest2 rest)
                    c hcm k hk
                  refine ⟨by omega, l, ?_, hpb⟩
                  have hregroup :
                      line :: scanBody rest ++ ('^' :: gen gi) ::
                          (extractGo tracked true gen fuel (gi + 1)
                            (off + 1 + (scanBody rest).length + 1)
                            (scanRest2 rest)).1 =
                        (line :: (scanBody rest ++ [('^' :: gen gi)])) ++
                          (extractGo tracked true gen fuel (gi + 1)
                            (off + 1 + (scanBody rest).length + 1)
                            (scanRest2 rest)).1 := by
                    simp
                  rw [hregroup, List.getElem?_append_right
                    (by
                      simp only [List.length_nil, List.length_cons, List.length_append,
                        List.length_singleton]
                      omega)]
                  rw [show k - off - (line :: (scanBody rest ++
                      [('^' :: gen gi)])).length =
                      k - (off + 1 + (scanBody rest).length + 1) from by
                    simp only [List.length_nil, List.length_cons, List.length_append,
                      List.length_singleton]
                    omega]
                  exact hl
              · rw [extractGo_insertMid gen fuel gi off hc hf hh hb]
                  at hcm ⊢
                simp only at hcm ⊢
                rcases List.mem_cons.1 hcm with hcm | hcm
                · subst hcm
                  have hkv := Option.some.inj hk
                  refine ⟨by omega, '^' :: gen gi, ?_,
                    parseBlockId_hat (hgen gi)⟩
                  have hregroup :
                      line :: scanBody rest ++ [] :: ('^' :: gen gi) ::
                          [] :: (extractGo tracked true gen fuel (gi + 1)
                            (off + 1 + (scanBody rest).length + 3)
                            (scanRest2 rest)).1 =
                        (line :: (scanBody rest ++ [([] : Line)])) ++
                          (('^' :: gen gi) :: ([] : Line) ::
                            (extractGo tracked true gen fuel (gi + 1)
                              (off + 1 + (scanBody rest).length + 3)
                              (scanRest2 rest)).1) := by
                    simp
                  rw [hregroup, List.getElem?_append_right
                    (by
                      simp only [List.length_nil, List.length_cons, List.length_append,
                        List.length_singleton]
                      omega)]
                  rw [show k - off - (line :: (scanBody rest ++
                      [([] : Line)])).length = 0 from by
                    simp only [List.length_nil, List.length_cons, List.length_append,
                      List.length_singleton]
                    omega]
                  simp
                · obtain ⟨h1, l, hl, hpb⟩ := ih (gi + 1) _ (scanRest2 rest)
                    c hcm k hk
                  refine ⟨by omega, l, ?_, hpb⟩
                  have hregroup :
                      line :: scanBody rest ++ [] :: ('^' :: gen gi) ::
                          [] :: (extractGo tracked true gen fuel (gi + 1)
                            (off + 1 + (scanBody rest).length + 3)
                            (scanRest2 rest)).1 =
                        (line :: (scanBody rest ++
                            [([] : Line), '^' :: gen gi, []])) ++
                          (extractGo tracked true gen fuel (gi + 1)
                            (off + 1 + (scanBody rest).length + 3)
                            (scanRest2 rest)).1 := by
                    simp
                  rw [hregroup, List.getElem?_append_right
                    (by
                      simp only [List.length_nil, List.length_cons, List.length_append]
                      omega)]
                  rw [show k - off - (line :: (scanBody rest ++
                      [([] : Line), '^' :: gen gi, []])).length =
                      k - (off + 1 + (scanBody rest).length + 3) from by
                    simp only [List.length_nil, List.length_cons, List.length_append]
                    omega]
                  exact hl
            | none =>
              rw [extractGo_insertEnd gen fuel gi off hc hf hh] at hcm ⊢
              simp only at hcm ⊢
              rcases List.mem_cons.1 hcm with hcm | hcm
              · subst hcm
                have hkv := Option.some.inj hk
                refine ⟨by omega, '^' :: gen gi, ?_,
                  parseBlockId_hat (hgen gi)⟩
                have hregroup :
                    line :: scanBody rest ++ [([] : Line), '^' :: gen gi, []] =
                      (line :: (scanBody rest ++ [([] : Line)])) ++
                        [('^' :: gen gi), ([] : Line)] := by
                  simp
                rw [hregroup, List.getElem?_append_right
                  (by
                    simp only [List.length_nil, List.length_cons, List.length_append,
                      List.length_singleton]
                    omega)]
                rw [show k - off - (line :: (scanBody rest ++
                    [([] : Line)])).length = 0 from by
                  simp only [List.length_nil, List.length_cons, List.length_append,
                    List.length_singleton]
                  omega]
                simp
              · exact absurd hcm (by simp)

/-! ## Lookup characterizations under distinct identifiers -/

theorem lookupCallout_mem {cs : List Callout} {b : Line} {c : Callout}
    (h : lookupCallout cs b = some c) : c ∈ cs ∧ c.blockId = some b := by
  unfold lookupCallout at h
  have hm := List.mem_of_getLast?_eq_some h
  rw [List.mem_filter] at hm
  exact ⟨hm.1, by simpa using hm.2⟩

theorem filter_blockId_singleton {cs : List Callout} {b : Line} {c : Callout}
    (hnd : (cs.filterMap Callout.blockId).Nodup)
    (hc : c ∈ cs) (hb : c.blockId = some b) :
    cs.filter (fun x => decide (x.blockId = some b)) = [c] := by
  induction cs with
  | nil => simp at hc
  | cons a r ih =>
    by_cases ha : a.blockId = some b
    · have hfm : List.filterMap Callout.blockId (a :: r) =
          b :: List.filterMap Callout.blockId r := by
        rw [List.filterMap_cons, ha]
      rw [hfm, List.nodup_cons] at hnd
      have hnr : ∀ x ∈ r, ¬(x.blockId = some b) := by
        intro x hx hxb
        exact hnd.1 (List.mem_filterMap.2 ⟨x, hx, by simpa using hxb⟩)
      have hca : c = a := by
        rcases List.mem_cons.1 hc with h | h
        · exact h
        · exact absurd hb (hnr c h)
      subst hca
      rw [List.filter_cons_of_pos (by simpa using ha)]
      rw [List.filter_eq_nil_iff.2 (by
        intro x hx
        simpa using hnr x hx)]
    · have hcr : c ∈ r := by
        rcases List.mem_cons.1 hc with h | h
        · exact absurd (h ▸ hb) ha
        · exact h
      have hnd2 : (r.filterMap Callout.blockId).Nodup := by
        rcases hab : a.blockId with _ | b2
        · rwa [List.filterMap_cons, hab] at hnd
        · rw [List.filterMap_cons, hab] at hnd
          exact (List.nodup_cons.1 hnd).2
      rw [List.filter_cons_of_neg (by simpa using ha)]
      exact ih hnd2 hcr

theorem lookupCallout_eq_some {cs : List Callout} {b : Line} {c : Callout}
    (hnd : (cs.filterMap Callout.blockId).Nodup)
    (hc : c ∈ cs) (hb : c.blockId = some b) :
    lookupCallout cs b = some c := by
  unfold lookupCallout
  rw [filter_blockId_singleton hnd hc hb]
  rfl

theorem find?_entry_mem {es : List MasterEntry} {b : Line} {e : MasterEntry}
    (h : es.find? (fun x => decide (x.blockId = b)) = some e) :
    e ∈ es ∧ e.blockId = b := by
  refine ⟨List.mem_of_find?_eq_some h, ?_⟩
  have := List.find?_some h
  simpa using this

theorem find?_entry_eq_some {es : List MasterEntry} {b : Line}
    {e : MasterEntry}
    (hnd : (es.map MasterEntry.blockId).Nodup)
    (he : e ∈ es) (hb : e.blockId = b) :
    es.find? (fun x => decide (x.blockId = b)) = some e := by
  induction es with
  | nil => simp at he
  | cons a r ih =>
    rw [List.map_cons, List.nodup_cons] at hnd
    by_cases ha : a.blockId = b
    · have hea : e = a := by
        rcases List.mem_cons.1 he with h | h
        · exact h
        · exfalso
          refine hnd.1 ?_
          rw [ha, ← hb]
          exact List.mem_map.2 ⟨e, h, rfl⟩
      subst hea
      rw [List.find?_cons_of_pos _ (by simpa using ha)]
    · have her : e ∈ r := by
        rcases List.mem_cons.1 he with h | h
        · exact absurd (h ▸ hb) ha
        · exact h
      rw [List.find?_cons_of_neg _ (by simpa using ha)]
      exact ih hnd.2 her

/-- Characterization of `applyMasterEditsToSource`: for a CR-free source
whose callouts carry pairwise-distinct identifiers, and entries with
pairwise-distinct identifiers, the pass is exactly the simultaneous
replacement of the matched callouts' body spans by the entries' quoted
bodies, in source order. -/
theorem applyMaster_char (src : List Char) (ctype : Line)
    (entries : List MasterEntry) (hcr : '\r' ∉ src)
    (hnde : (entries.map MasterEntry.blockId).Nodup)
    (hndc : ((extractLines src [ctype] false (fun _ => [])).2.filterMap
      Callout.blockId).Nodup) :
    applyMasterEditsToSource src ctype entries =
      joinLines (simApply (splitLines src)
        (sourceBodyOps (extractLines src [ctype] false (fun _ => [])).2
          entries)) := by
  have hL1 : (extractLines src [ctype] false (fun _ => [])).1 =
      splitLines src := by
    unfold extractLines
    exact extractGo_false_fst _ _ _ 0 0 _ (le_refl _)
  have hclean : ∀ l ∈ splitLines src, cleanLine l := splitLines_clean src hcr
  have hsj : splitLines (joinLines (splitLines src)) = splitLines src :=
    splitLines_joinLines _ (splitLines_ne_nil src) hclean
  obtain ⟨hallE, hpwE⟩ := extractGo_order (uniqLower [ctype]) false
    (fun _ => []) (splitLines src).length 0 0 (splitLines src)
  have hall : ∀ c ∈ (extractLines src [ctype] false (fun _ => [])).2,
      0 ≤ c.startLine ∧ c.startLine < c.quoteEndLine ∧
      c.quoteEndLine ≤ calloutEnd c ∧
      (∀ k, c.idLine = some k → c.quoteEndLine ≤ k) ∧
      calloutEnd c ≤ (splitLines src).length := by
    intro c hc
    obtain ⟨h1, h2, h3, h4, h5⟩ := hallE c hc
    refine ⟨h1, h2, h3, h4, ?_⟩
    have : (extractGo (uniqLower [ctype]) false (fun _ => [])
        (splitLines src).length 0 0 (splitLines src)).1 = splitLines src :=
      hL1
    rw [this] at h5
    omega
  have hpw : (extractLines src [ctype] false (fun _ => [])).2.Pairwise
      (fun a b => calloutEnd a ≤ b.startLine) := hpwE
  have hstart_lt : (extractLines src [ctype] false (fun _ => [])).2.Pairwise
      (fun a b => a.startLine < b.startLine) := by
    refine hpw.imp_of_mem ?_
    intro a b ha hb hr
    have h2 := (hall a ha).2.1
    have h3 := (hall a ha).2.2.1
    omega
  have hstart_inj : ∀ a ∈ (extractLines src [ctype] false (fun _ => [])).2,
      ∀ b ∈ (extractLines src [ctype] false (fun _ => [])).2,
      a.startLine = b.startLine → a = b := by
    intro a ha b hb heq
    by_contra hne
    have hne2 : (extractLines src [ctype] false
        (fun _ => [])).2.Pairwise
        (fun a b => a.startLine ≠ b.startLine) :=
      hstart_lt.imp (fun h => Nat.ne_of_lt h)
    have hsymm : Symmetric (fun a b : Callout =>
        a.startLine ≠ b.startLine) := by
      intro x y h hxy
      exact h hxy.symm
    exact List.Pairwise.forall hsymm hne2 ha hb hne heq
  have hmem_src : ∀ {op : LineOp},
      op ∈ sourceBodyOps (extractLines src [ctype] false (fun _ => [])).2
        entries ↔
      ∃ c ∈ (extractLines src [ctype] false (fun _ => [])).2,
        ∃ e ∈ entries, c.blockId = some e.blockId ∧
        op = ⟨c.startLine + 1, c.quoteEndLine, quoteBodyLines e.bodyLines⟩ := by
    intro op
    unfold sourceBodyOps
    rw [List.mem_filterMap]
    constructor
    · rintro ⟨c, hc, hfc⟩
      cases hcb : c.blockId with
      | none => rw [hcb] at hfc; simp at hfc
      | some b =>
        rw [hcb] at hfc
        simp only at hfc
        cases hfind : entries.find? (fun e => decide (e.blockId = b)) with
        | none => rw [hfind] at hfc; simp at hfc
        | some e =>
          rw [hfind] at hfc
          obtain ⟨he, heb⟩ := find?_entry_mem hfind
          exact ⟨c, hc, e, he, by rw [hcb, heb],
            (Option.some.inj hfc).symm⟩
    · rintro ⟨c, hc, e, he, hcb, hop⟩
      refine ⟨c, hc, ?_⟩
      rw [hcb]
      simp only
      rw [find?_entry_eq_some hnde he rfl, hop]
  have hmem_ent : ∀ {op : LineOp},
      op ∈ entries.filterMap (fun e =>
        (lookupCallout (extractLines src [ctype] false (fun _ => [])).2
          e.blockId).map (fun c =>
          (⟨c.startLine + 1, c.quoteEndLine,
            quoteBodyLines e.bodyLines⟩ : LineOp))) ↔
      ∃ c ∈ (extractLines src [ctype] false (fun _ => [])).2,
        ∃ e ∈ entries, c.blockId = some e.blockId ∧
        op = ⟨c.startLine + 1, c.quoteEndLine, quoteBodyLines e.bodyLines⟩ := by
    intro op
    rw [List.mem_filterMap]
    constructor
    · rintro ⟨e, he, hfe⟩
      cases hlk : lookupCallout (extractLines src [ctype] false
          (fun _ => [])).2 e.blockId with
      | none => rw [hlk] at hfe; simp at hfe
      | some c =>
        rw [hlk] at hfe
        obtain ⟨hc, hcb⟩ := lookupCallout_mem hlk
        refine ⟨c, hc, e, he, hcb, ?_⟩
        have := Option.some.inj (by simpa using hfe)
        exact this.symm
    · rintro ⟨c, hc, e, he, hcb, hop⟩
      refine ⟨e, he, ?_⟩
      rw [lookupCallout_eq_some hndc hc hcb]
      simp [hop]
  have hshape : ∀ (x : Callout) (op : LineOp),
      (match x.blockId with
        | none => none
        | some b =>
          match entries.find? (fun e => decide (e.blockId = b)) with
          | some e => some (⟨x.startLine + 1, x.quoteEndLine,
              quoteBodyLines e.bodyLines⟩ : LineOp)
          | none => none) = some op →
      op.start = x.startLine + 1 ∧ op.stop = x.quoteEndLine := by
    intro x op h
    cases hxb : x.blockId with
    | none => rw [hxb] at h; simp at h
    | some b =>
      rw [hxb] at h
      simp only at h
      cases hfind : entries.find? (fun e => decide (e.blockId = b)) with
      | none => rw [hfind] at h; simp at h
      | some e =>
        rw [hfind] at h
        have := Option.some.inj h
        rw [← this]
        exact ⟨rfl, rfl⟩
  have hord : OpsOrdered (sourceBodyOps
      (extractLines src [ctype] false (fun _ => [])).2 entries) := by
    unfold OpsOrdered sourceBodyOps
    rw [List.pairwise_filterMap]
    refine hpw.imp_of_mem ?_
    intro a b ha hb hr op hopa op' hopb
    obtain ⟨hs1, hs2⟩ := hshape a op hopa
    obtain ⟨hs3, hs4⟩ := hshape b op' hopb
    have h2 := (hall a ha).2.1
    have h3 := (hall a ha).2.2.1
    have h4 := (hall b hb).2.1
    omega
  have hbnd : OpsBounded (splitLines src) (sourceBodyOps
      (extractLines src [ctype] false (fun _ => [])).2 entries) := by
    intro op hop
    obtain ⟨c, hc, e, he, hcb, hopeq⟩ := hmem_src.1 hop
    subst hopeq
    have h2 := (hall c hc).2.1
    have h3 := (hall c hc).2.2.1
    have h5 := (hall c hc).2.2.2.2
    exact ⟨by simp only; omega, by simp only; omega⟩
  have hndsrc : (sourceBodyOps
      (extractLines src [ctype] false (fun _ => [])).2 entries).Nodup := by
    have h := hord
    unfold OpsOrdered at h
    exact h.imp (fun {a b} hab heq => by
      rw [heq] at hab
      exact Nat.lt_irrefl _ hab.2)
  have hndent : (entries.filterMap (fun e =>
      (lookupCallout (extractLines src [ctype] false (fun _ => [])).2
        e.blockId).map (fun c =>
        (⟨c.startLine + 1, c.quoteEndLine,
          quoteBodyLines e.bodyLines⟩ : LineOp)))).Nodup := by
    show List.Pairwise _ _
    rw [List.pairwise_filterMap]
    have hne_ids : entries.Pairwise
        (fun e e2 => e.blockId ≠ e2.blockId) := by
      have := hnde
      rw [List.Nodup, List.pairwise_map] at this
      exact this
    refine hne_ids.imp_of_mem ?_
    intro e e2 he he2 hne op hop op' hop'
    rw [Option.mem_def] at hop hop'
    cases hlk : lookupCallout (extractLines src [ctype] false
        (fun _ => [])).2 e.blockId with
    | none => rw [hlk] at hop; simp at hop
    | some c =>
      rw [hlk] at hop
      cases hlk2 : lookupCallout (extractLines src [ctype] false
          (fun _ => [])).2 e2.blockId with
      | none => rw [hlk2] at hop'; simp at hop'
      | some c2 =>
        rw [hlk2] at hop'
        obtain ⟨hc, hcb⟩ := lookupCallout_mem hlk
        obtain ⟨hc2, hcb2⟩ := lookupCallout_mem hlk2
        simp only [Option.map_some'] at hop hop'
        have h1 := Option.some.inj hop
        have h2 := Option.some.inj hop'
        intro heq
        have hse : c.startLine = c2.startLine := by
          have := congrArg LineOp.start
            (h1.trans (heq.trans h2.symm))
          simpa using this
        have hcc : c = c2 := hstart_inj c hc c2 hc2 hse
        rw [hcc] at hcb
        rw [hcb] at hcb2
        exact hne (Option.some.inj hcb2.symm).symm
  have hperm : List.Perm (entries.filterMap (fun e =>
      (lookupCallout (extractLines src [ctype] false (fun _ => [])).2
        e.blockId).map (fun c =>
        (⟨c.startLine + 1, c.quoteEndLine,
          quoteBodyLines e.bodyLines⟩ : LineOp))))
      (sourceBodyOps (extractLines src [ctype] false (fun _ => [])).2
        entries) :=
    (List.perm_ext_iff_of_nodup hndent hndsrc).2
      (fun op => hmem_ent.trans hmem_src.symm)
  show joinLines (applyOps
      (splitLines (extractTrackedCallouts src [ctype] false
        (fun _ => [])).1) _) = _
  have hr1 : (extractTrackedCallouts src [ctype] false (fun _ => [])).1 =
      joinLines (splitLines src) := by
    unfold extractTrackedCallouts
    simp only
    rw [hL1]
  have hr2 : (extractTrackedCallouts src [ctype] false (fun _ => [])).2 =
      (extractLines src [ctype] false (fun _ => [])).2 := rfl
  rw [hr1, hsj, hr2]
  rw [applyOps_eq_simApply _ _ _ hperm hord hbnd]

/-! ## Claim C3: index safety of descending splice application -/

/-- Claim C3: for every set of non-overlapping line-range operations
(ascending, with strictly increasing starts and ranges inside the array),
the code's application — sort by descending `start`, then splice in order —
equals replacing all ranges simultaneously; moreover applying operations
whose starts all lie at or above a position `m` leaves the prefix below `m`
(hence the range of any operation not yet applied) unshifted. -/
theorem C3_indexSafety (lines : Doc) (ops : List LineOp)
    (hord : OpsOrdered ops) (hb : OpsBounded lines ops) :
    applyOps lines ops = simApply lines ops ∧
    ∀ m, m ≤ lines.length → (∀ op ∈ ops, m ≤ op.start) →
      (applyOps lines ops).take m = lines.take m := by
  have h1 : applyOps lines ops = simApply lines ops :=
    applyOps_eq_simApply ops ops lines (List.Perm.refl ops) hord hb
  refine ⟨h1, ?_⟩
  intro m hm hops
  rw [h1]
  have := simApplyFrom_take lines ops 0 m (Nat.zero_le _) hops hm
  simpa [simApply] using this

/-- Witness for C3 at a concrete operation set. -/
theorem C3_indexSafety_witness :
    OpsOrdered [⟨1, 2, [str "x", str "y"]⟩, ⟨3, 4, []⟩] ∧
    OpsBounded [str "a", str "b", str "c", str "d", str "e"]
      [⟨1, 2, [str "x", str "y"]⟩, ⟨3, 4, []⟩] ∧
    (applyOps [str "a", str "b", str "c", str "d", str "e"]
        [⟨1, 2, [str "x", str "y"]⟩, ⟨3, 4, []⟩] =
      simApply [str "a", str "b", str "c", str "d", str "e"]
        [⟨1, 2, [str "x", str "y"]⟩, ⟨3, 4, []⟩] ∧
    ∀ m, m ≤ ([str "a", str "b", str "c", str "d", str "e"] : Doc).length →
      (∀ op ∈ [(⟨1, 2, [str "x", str "y"]⟩ : LineOp), ⟨3, 4, []⟩],
        m ≤ op.start) →
      (applyOps [str "a", str "b", str "c", str "d", str "e"]
          [⟨1, 2, [str "x", str "y"]⟩, ⟨3, 4, []⟩]).take m =
        ([str "a", str "b", str "c", str "d", str "e"] : Doc).take m) :=
  ⟨by decide, by decide, C3_indexSafety _ _ (by decide) (by decide)⟩

/-! ## Claims C5 and C7: parser result guarantees -/

/-- Claim C5 (amended): for CR-free input the callout list preserves
document order (strictly increasing start lines, any mode); with
auto-insertion off the returned text is character-for-character the input;
and when every callout of the id-free pass already carries an identifier,
the auto-assigning pass returns exactly the id-free pass's result — in
particular its text equals the input. -/
theorem C5_parserResult (text : List Char) (tts : List Line)
    (gen : Nat → Line) (ai : Bool) (hcr : '\r' ∉ text) :
    ((extractTrackedCallouts text tts ai gen).2.map
      Callout.startLine).Pairwise (· < ·) ∧
    (ai = false → (extractTrackedCallouts text tts ai gen).1 = text) ∧
    ((∀ c ∈ (extractTrackedCallouts text tts false gen).2,
        c.blockId.isSome = true) →
      extractTrackedCallouts text tts true gen =
        extractTrackedCallouts text tts false gen) := by
  refine ⟨?_, ?_, ?_⟩
  · rw [List.pairwise_map]
    obtain ⟨hall, hpw⟩ := extractGo_order (uniqLower tts) ai gen
      (splitLines text).length 0 0 (splitLines text)
    refine hpw.imp_of_mem ?_
    intro a b ha hb hr
    have h1 := (hall a ha).2.1
    have h2 := (hall a ha).2.2.1
    have h3 := (hall b hb).1
    omega
  · intro hai
    subst hai
    unfold extractTrackedCallouts extractLines
    simp only
    rw [extractGo_false_fst (uniqLower tts) gen (splitLines text).length 0 0
      (splitLines text) (le_refl _)]
    exact joinLines_splitLines text hcr
  · intro hall
    unfold extractTrackedCallouts extractLines
    rw [extractGo_true_eq_false (uniqLower tts) gen (splitLines text).length
      0 0 (splitLines text) (le_refl _) hall]

/-- Witness for C5 at a two-callout document. -/
theorem C5_parserResult_witness :
    ('\r' ∉ str "> [!todo]\n> a\n\n^ab12\n\nplain\n> [!todo]\n> b\n\n^cd34\n") ∧
    (((extractTrackedCallouts
        (str "> [!todo]\n> a\n\n^ab12\n\nplain\n> [!todo]\n> b\n\n^cd34\n")
        [str "todo"] false (fun _ => str "zzzzzzzz")).2.map
      Callout.startLine).Pairwise (· < ·) ∧
    (false = false → (extractTrackedCallouts
        (str "> [!todo]\n> a\n\n^ab12\n\nplain\n> [!todo]\n> b\n\n^cd34\n")
        [str "todo"] false (fun _ => str "zzzzzzzz")).1 =
      str "> [!todo]\n> a\n\n^ab12\n\nplain\n> [!todo]\n> b\n\n^cd34\n") ∧
    ((∀ c ∈ (extractTrackedCallouts
        (str "> [!todo]\n> a\n\n^ab12\n\nplain\n> [!todo]\n> b\n\n^cd34\n")
        [str "todo"] false (fun _ => str "zzzzzzzz")).2,
        c.blockId.isSome = true) →
      extractTrackedCallouts
        (str "> [!todo]\n> a\n\n^ab12\n\nplain\n> [!todo]\n> b\n\n^cd34\n")
        [str "todo"] true (fun _ => str "zzzzzzzz") =
      extractTrackedCallouts
        (str "> [!todo]\n> a\n\n^ab12\n\nplain\n> [!todo]\n> b\n\n^cd34\n")
        [str "todo"] false (fun _ => str "zzzzzzzz"))) :=
  ⟨by decide, C5_parserResult _ _ _ _ (by decide)⟩

/-- Claim C7 (amended): with auto-insertion off the text is never modified,
and a tracked callout without an identifier line is not dropped: it is
reported with `blockId = null` (equivalently `idLine = null`), the id-free
pass reporting exactly the same (type, body) sequence as the auto-assigning
pass. -/
theorem C7_nullIdReporting (text : List Char) (tts : List Line)
    (gen : Nat → Line) (hcr : '\r' ∉ text) (hgen : genOK gen) :
    (extractTrackedCallouts text tts false gen).1 = text ∧
    (∀ c ∈ (extractTrackedCallouts text tts false gen).2,
      (c.blockId = none ↔ c.idLine = none)) ∧
    ((extractTrackedCallouts text tts false gen).2.map
        (fun c => (c.ctype, c.bodyLines)) =
      (extractTrackedCallouts text tts true gen).2.map
        (fun c => (c.ctype, c.bodyLines))) := by
  refine ⟨?_, ?_, ?_⟩
  · unfold extractTrackedCallouts extractLines
    simp only
    rw [extractGo_false_fst (uniqLower tts) gen (splitLines text).length 0 0
      (splitLines text) (le_refl _)]
    exact joinLines_splitLines text hcr
  · intro c hcm
    exact (extractGo_facts (uniqLower tts) false gen hgen
      (splitLines text).length 0 0 (splitLines text) c hcm).1
  · exact extractGo_proj (uniqLower tts) gen (splitLines text).length
      (splitLines text).length false true 0 0 0 0 (splitLines text)
      (le_refl _) (le_refl _)

/-- Witness for C7 at a document whose only tracked callout has no
identifier. -/
theorem C7_nullIdReporting_witness :
    ('\r' ∉ str "> [!todo]\n> x\nfoo") ∧ genOK (fun _ => str "ab12cd34") ∧
    ((extractTrackedCallouts (str "> [!todo]\n> x\nfoo") [str "todo"] false
        (fun _ => str "ab12cd34")).1 = str "> [!todo]\n> x\nfoo" ∧
    (∀ c ∈ (extractTrackedCallouts (str "> [!todo]\n> x\nfoo") [str "todo"]
        false (fun _ => str "ab12cd34")).2,
      (c.blockId = none ↔ c.idLine = none)) ∧
    ((extractTrackedCallouts (str "> [!todo]\n> x\nfoo") [str "todo"] false
        (fun _ => str "ab12cd34")).2.map (fun c => (c.ctype, c.bodyLines)) =
      (extractTrackedCallouts (str "> [!todo]\n> x\nfoo") [str "todo"] true
        (fun _ => str "ab12cd34")).2.map
        (fun c => (c.ctype, c.bodyLines)))) :=
  ⟨by decide,
    by
      intro n
      refine ⟨?_, ?_⟩
      · show str "ab12cd34" ≠ []
        decide
      · show (str "ab12cd34").all isIdChar = true
        decide,
    C7_nullIdReporting _ _ _ (by decide)
      (by
        intro n
        refine ⟨?_, ?_⟩
        · show str "ab12cd34" ≠ []
          decide
        · show (str "ab12cd34").all isIdChar = true
          decide)⟩

/-! ## Concrete evaluations settling claims -/

/-- Claim C6: evaluating the code at the Scenario A input
`"> [!todo]\n> - [ ] buy milk\n"` (tracked type `todo`, auto-assign on,
generator returning `abc12345`).  The code splices in only the identifier
line, placing it immediately after the body and before the pre-existing
blank line, so the identifier is not preceded by a blank line and the text
does not gain the blank/identifier/blank triple the claim describes; the
single returned callout does have `bodyLines = ["- [ ] buy milk"]`.  The
code's own comment block (main.js lines 140-143 and 149) and its sibling
`insertCallout` snippet (line 461) both specify a blank line before the
identifier, which the implemented check fails to ensure whenever the line
at the insertion point is already blank. -/
theorem C6_idInsertion_eval :
    extractTrackedCallouts (str "> [!todo]\n> - [ ] buy milk\n")
        [str "todo"] true (fun _ => str "abc12345") =
      (str "> [!todo]\n> - [ ] buy milk\n^abc12345\n",
        [⟨str "todo", some (str "abc12345"), [str "- [ ] buy milk"],
          0, 2, some 2⟩]) ∧
    (extractTrackedCallouts (str "> [!todo]\n> - [ ] buy milk\n")
        [str "todo"] true (fun _ => str "abc12345")).1 ≠
      str "> [!todo]\n> - [ ] buy milk\n\n^abc12345\n\n" := by
  exact ⟨by decide, by decide⟩

/-- Claim C8 counterexample: the master rebuilt from the single Shopping
callout is not the claimed string (which ends in two newlines). -/
theorem C8_counterexample :
    rebuildMasterText (fun _ _ => true)
        [⟨str "Shopping", str "Shopping.md", str "abc12345",
          [str "- [ ] buy milk"]⟩] ≠
      str "[Shopping](Shopping.md#^abc12345)\n- [ ] buy milk\n\n" := by
  decide

/-- Claim C8 amended: for every sort comparator (a one-entry list is
invariant under sorting), the rebuilt master text is
`"[Shopping](Shopping.md#^abc12345)\n- [ ] buy milk\n"`: the blank line
terminating the chunk renders as a single trailing newline, not two. -/
theorem C8_amended (le : RebuildEntry → RebuildEntry → Bool) :
    rebuildMasterText le
        [⟨str "Shopping", str "Shopping.md", str "abc12345",
          [str "- [ ] buy milk"]⟩] =
      str "[Shopping](Shopping.md#^abc12345)\n- [ ] buy milk\n" := by
  rfl

/-- Claim C5 counterexample: on input `"a\r\nb"` with auto-assign off, no
identifier is inserted, yet the returned text differs from the input (the
split on `\r?\n` followed by the join on `"\n"` rewrites the CRLF line
ending). -/
theorem C5_counterexample :
    (extractTrackedCallouts (str "a\r\nb") [str "todo"] false
        (fun _ => [])).1 ≠ str "a\r\nb" := by
  decide

/-- Claim C7 counterexample: with auto-assign off, the tracked callout of
`"> [!todo]\n> x\nfoo"` has no identifier line, yet it does appear in the
returned callout list — with `blockId` and `idLine` null — rather than
being skipped. -/
theorem C7_counterexample :
    (extractTrackedCallouts (str "> [!todo]\n> x\nfoo") [str "todo"] false
        (fun _ => [])).2 =
      [⟨str "todo", none, [str "x"], 0, 2, none⟩] := by
  decide

/-- Claim C2 counterexample: a source whose single callout body is itself a
master-link-shaped line.  Its up-to-date master (produced by a first
Source-to-Master pass from the empty master) is parsed on the second pass
with the body line as a spurious chunk header, so the second pass rewrites
the master and `writeFileIfChanged` does write. -/
theorem C2_counterexample :
    (extractTrackedCallouts
        (str "> [!todo]\n> [x](y.md#^q2)\n\n^abcd1234\n") [str "todo"] true
        (fun _ => [])).2.map toMasterEntry =
      [⟨str "abcd1234", [str "[x](y.md#^q2)"]⟩] ∧
    updateMasterForSourceFile
        (updateMasterForSourceFile (str "") (str "S.md") (str "S")
          [⟨str "abcd1234", [str "[x](y.md#^q2)"]⟩])
        (str "S.md") (str "S")
        [⟨str "abcd1234", [str "[x](y.md#^q2)"]⟩] ≠
      updateMasterForSourceFile (str "") (str "S.md") (str "S")
        [⟨str "abcd1234", [str "[x](y.md#^q2)"]⟩] ∧
    (writeFileIfChanged
        (updateMasterForSourceFile (str "") (str "S.md") (str "S")
          [⟨str "abcd1234", [str "[x](y.md#^q2)"]⟩])
        (updateMasterForSourceFile
          (updateMasterForSourceFile (str "") (str "S.md") (str "S")
            [⟨str "abcd1234", [str "[x](y.md#^q2)"]⟩])
          (str "S.md") (str "S")
          [⟨str "abcd1234", [str "[x](y.md#^q2)"]⟩])).2 = true := by
  exact ⟨by decide, by decide, by decide⟩

/-- Claim C1 counterexample: for the same link-shaped-body source, running
Source-to-Master (from the empty master) and then Master-to-Source does not
restore the callout's body lines: the master parse truncates the chunk body
at the spurious header, and the body comes back empty. -/
theorem C1_counterexample :
    (let src := str "> [!todo]\n> [x](y.md#^q2)\n\n^abcd1234\n"
     let master := updateMasterForSourceFile (str "") (str "S.md") (str "S")
       ((extractTrackedCallouts src [str "todo"] true
         (fun _ => [])).2.map toMasterEntry)
     let entries := ((parseMasterChunks master).2.filter
       (fun c => c.sourcePath = str "S.md")).map
       (fun c => (⟨c.blockId, c.bodyLines⟩ : MasterEntry))
     let final := applyMasterEditsToSource src (str "todo") entries
     (extractTrackedCallouts final [str "todo"] false (fun _ => [])).2.map
         Callout.bodyLines ≠
       (extractTrackedCallouts src [str "todo"] false (fun _ => [])).2.map
         Callout.bodyLines) := by
  decide

/-- Claim C9 counterexample: a master text containing two chunks with the
same `(sourcePath, blockId)` but different bodies.  Applying its entries to
the source replaces overlapping ranges twice, and the second splice deletes
the callout's identifier line — the pass does not leave the identifier line
and the content outside the body spans unchanged. -/
theorem C9_counterexample :
    (let src := str "> [!todo]\n> a\n> b\n\n^x3w9\n"
     let entries := [(⟨str "x3w9", []⟩ : MasterEntry),
       ⟨str "x3w9", [str "bb"]⟩]
     str "^x3w9" ∈ splitLines src ∧
       str "^x3w9" ∉
         splitLines (applyMasterEditsToSource src (str "todo") entries)) := by
  exact ⟨by decide, by decide⟩

/-- Frame property of simultaneous application: a source line lying outside
every operation's range reappears, unchanged, at the computable position
`posOf ops i k` of the result. -/
theorem simApplyFrom_outside (lines : Doc) :
    ∀ (ops : List LineOp) (i k : Nat), i ≤ k → k < lines.length →
      (∀ op ∈ ops, i ≤ op.start) →
      (∀ op ∈ ops, op.start ≤ op.stop) →
      List.Pairwise (fun a b => a.stop ≤ b.start) ops →
      (∀ op ∈ ops, k < op.start ∨ op.stop ≤ k) →
      (simApplyFrom lines i ops)[posOf ops i k]? = lines[k]? := by
  intro ops
  induction ops with
  | nil =>
    intro i k hik hk _ _ _ _
    show (lines.drop i)[k - i]? = lines[k]?
    rw [List.getElem?_drop]
    congr 1
    omega
  | cons op rest ih =>
    intro i k hik hk hops hss hpw hout
    have hio : i ≤ op.start := hops op (by simp)
    have hsts : op.start ≤ op.stop := hss op (by simp)
    show ((lines.drop i).take (op.start - i) ++ op.insert ++
        simApplyFrom lines op.stop rest)[posOf (op :: rest) i k]? =
      lines[k]?
    rcases hout op (by simp) with hlt | hge
    · have hpos : posOf (op :: rest) i k = k - i := by
        show (if k < op.start then k - i else _) = k - i
        rw [if_pos hlt]
      rw [hpos]
      have hA : k - i < ((lines.drop i).take (op.start - i)).length := by
        rw [List.length_take, List.length_drop]
        omega
      rw [List.append_assoc, List.getElem?_append_left hA,
        List.getElem?_take_of_lt (by omega), List.getElem?_drop]
      congr 1
      omega
    · have hnlt : ¬ k < op.start := by omega
      have hpos : posOf (op :: rest) i k =
          op.start - i + op.insert.length + posOf rest op.stop k := by
        show (if k < op.start then k - i else _) = _
        rw [if_neg hnlt]
      rw [hpos]
      have hA : ((lines.drop i).take (op.start - i)).length =
          op.start - i := by
        rw [List.length_take, List.length_drop]
        omega
      have h1 : ((lines.drop i).take (op.start - i)).length ≤
          op.start - i + op.insert.length + posOf rest op.stop k := by
        rw [hA]
        omega
      rw [List.append_assoc, List.getElem?_append_right h1, hA,
        Nat.add_assoc, Nat.add_sub_cancel_left,
        List.getElem?_append_right (Nat.le_add_right _ _),
        Nat.add_sub_cancel_left]
      exact ih op.stop k hge hk
        (fun o ho => (List.pairwise_cons.1 hpw).1 o ho)
        (fun o ho => hss o (List.mem_cons_of_mem _ ho))
        (List.pairwise_cons.1 hpw).2
        (fun o ho => hout o (List.mem_cons_of_mem _ ho))

/-- With auto-insertion disabled the generator is never consulted: the scan
is independent of it. -/
theorem extractGo_false_gen (tracked : List Line) (gen gen2 : Nat → Line) :
    ∀ fuel gi off rem,
      extractGo tracked false gen fuel gi off rem =
        extractGo tracked false gen2 fuel gi off rem := by
  intro fuel
  induction fuel with
  | zero => intro gi off rem; rfl
  | succ fuel ih =>
    intro gi off rem
    cases rem with
    | nil => rfl
    | cons line rest =>
      cases hct : calloutStartTracked tracked line with
      | none =>
        rw [extractGo_skip false gen fuel gi off hct,
          extractGo_skip false gen2 fuel gi off hct, ih]
      | some ty =>
        cases hf : scanFound rest with
        | some bid =>
          rw [extractGo_found false gen fuel gi off hct hf,
            extractGo_found false gen2 fuel gi off hct hf, ih]
        | none =>
          rw [extractGo_noId gen fuel gi off hct hf,
            extractGo_noId gen2 fuel gi off hct hf, ih]

/-- With auto-insertion disabled the returned text is the split input. -/
theorem extractLines_false_fst (src : List Char) (tracked : List Line)
    (gen : Nat → Line) :
    (extractLines src tracked false gen).1 = splitLines src := by
  unfold extractLines
  exact extractGo_false_fst _ _ _ 0 0 _ (le_refl _)

/-- The extraction pass never deletes or rewrites a line of the input: the
split input is a sublist of the returned line array. -/
theorem extractLines_sublist (src : List Char) (tracked : List Line)
    (ai : Bool) (gen : Nat → Line) :
    List.Sublist (splitLines src) (extractLines src tracked ai gen).1 := by
  unfold extractLines
  exact extractGo_sublist _ _ _ _ 0 0 _ (le_refl _)

/-- Order facts of a full extraction run, phrased over `extractLines`. -/
theorem extractLines_order (src : List Char) (tracked : List Line)
    (ai : Bool) (gen : Nat → Line) :
    (∀ c ∈ (extractLines src tracked ai gen).2,
      c.startLine < c.quoteEndLine ∧ c.quoteEndLine ≤ calloutEnd c ∧
      (∀ k, c.idLine = some k → c.quoteEndLine ≤ k) ∧
      calloutEnd c ≤ (extractLines src tracked ai gen).1.length) ∧
    (extractLines src tracked ai gen).2.Pairwise
      (fun a b => calloutEnd a ≤ b.startLine) := by
  obtain ⟨h1, h2⟩ := extractGo_order (uniqLower tracked) ai gen
    (splitLines src).length 0 0 (splitLines src)
  refine ⟨?_, h2⟩
  intro c hc
  obtain ⟨_, a2, a3, a4, a5⟩ := h1 c hc
  rw [Nat.zero_add] at a5
  exact ⟨a2, a3, a4, a5⟩

/-- Every identifier a full extraction run reports for a callout that carries
an identifier line is exactly the parse of that line of the returned text. -/
theorem extractLines_idLine (src : List Char) (tracked : List Line)
    (ai : Bool) (gen : Nat → Line) (hgen : genOK gen) :
    ∀ c ∈ (extractLines src tracked ai gen).2, ∀ k, c.idLine = some k →
      ∃ l, (extractLines src tracked ai gen).1[k]? = some l ∧
        parseBlockId l = c.blockId := by
  intro c hc k hk
  obtain ⟨h0, l, h1, h2⟩ := extractGo_idLine (uniqLower tracked) ai gen hgen
    (splitLines src).length 0 0 (splitLines src) c hc k hk
  rw [Nat.sub_zero] at h1
  exact ⟨l, h1, h2⟩

/-- With auto-insertion disabled, every reported identifier is the parse of
the identifier line already present in the input text. -/
theorem extractLines_idLine_false (src : List Char) (tracked : List Line)
    (gen : Nat → Line) :
    ∀ c ∈ (extractLines src tracked false gen).2, ∀ k, c.idLine = some k →
      ∃ l, (splitLines src)[k]? = some l ∧ parseBlockId l = c.blockId := by
  intro c hc k hk
  have hg : extractLines src tracked false gen =
      extractLines src tracked false (fun _ => ['a']) := by
    unfold extractLines
    exact extractGo_false_gen _ _ _ _ _ _ _
  rw [hg] at hc
  have hgen : genOK (fun _ => (['a'] : Line)) := by
    intro n
    refine ⟨?_, ?_⟩
    · show (['a'] : Line) ≠ []
      decide
    · show (['a'] : Line).all isIdChar = true
      decide
  obtain ⟨l, h1, h2⟩ := extractLines_idLine src tracked false
    (fun _ => ['a']) hgen c hc k hk
  rw [extractLines_false_fst] at h1
  exact ⟨l, h1, h2⟩

/-- Inversion of the body-replacement operation list: every operation stems
from a callout matched by some entry and spans that callout's body. -/
theorem sourceBodyOps_inv (cs : List Callout) (entries : List MasterEntry) :
    ∀ op ∈ sourceBodyOps cs entries,
      ∃ c ∈ cs, ∃ e ∈ entries, c.blockId = some e.blockId ∧
        op = ⟨c.startLine + 1, c.quoteEndLine,
          quoteBodyLines e.bodyLines⟩ := by
  intro op hop
  unfold sourceBodyOps at hop
  rw [List.mem_filterMap] at hop
  obtain ⟨c, hc, hfc⟩ := hop
  cases hcb : c.blockId with
  | none => rw [hcb] at hfc; simp at hfc
  | some b =>
    rw [hcb] at hfc
    simp only at hfc
    cases hfind : entries.find? (fun e => decide (e.blockId = b)) with
    | none => rw [hfind] at hfc; simp at hfc
    | some e =>
      rw [hfind] at hfc
      obtain ⟨he, heb⟩ := find?_entry_mem hfind
      exact ⟨c, hc, e, he, by rw [hcb, heb], (Option.some.inj hfc).symm⟩

/-- Every body-replacement operation has a forward range. -/
theorem sourceBodyOps_le_stop (src : List Char) (tracked : List Line)
    (ai : Bool) (gen : Nat → Line) (entries : List MasterEntry) :
    ∀ op ∈ sourceBodyOps (extractLines src tracked ai gen).2 entries,
      op.start ≤ op.stop := by
  intro op hop
  obtain ⟨c, hc, e, he, hcb, hopeq⟩ := sourceBodyOps_inv _ entries op hop
  subst hopeq
  simp only
  have := ((extractLines_order src tracked ai gen).1 c hc).1
  omega

/-- The body-replacement operations are ascending and non-overlapping. -/
theorem sourceBodyOps_ordered (src : List Char) (tracked : List Line)
    (ai : Bool) (gen : Nat → Line) (entries : List MasterEntry) :
    OpsOrdered (sourceBodyOps (extractLines src tracked ai gen).2
      entries) := by
  obtain ⟨hall, hpw⟩ := extractLines_order src tracked ai gen
  unfold OpsOrdered sourceBodyOps
  rw [List.pairwise_filterMap]
  refine hpw.imp_of_mem ?_
  intro a b ha hb hr o ho o' ho'
  rw [Option.mem_def] at ho ho'
  cases hab : a.blockId with
  | none => rw [hab] at ho; simp at ho
  | some ba =>
    rw [hab] at ho
    simp only at ho
    cases hfa : entries.find? (fun e => decide (e.blockId = ba)) with
    | none => rw [hfa] at ho; simp at ho
    | some ea =>
      rw [hfa] at ho
      cases hbb : b.blockId with
      | none => rw [hbb] at ho'; simp at ho'
      | some bb =>
        rw [hbb] at ho'
        simp only at ho'
        cases hfb : entries.find? (fun e => decide (e.blockId = bb)) with
        | none => rw [hfb] at ho'; simp at ho'
        | some eb =>
          rw [hfb] at ho'
          have e1 := Option.some.inj ho
          have e2 := Option.some.inj ho'
          rw [← e1, ← e2]
          have h2 := (hall a ha).1
          have h3 := (hall a ha).2.1
          have h4 := (hall b hb).1
          exact ⟨by simp only; omega, by simp only; omega⟩

/-- Relative to any fixed callout of the run, every body-replacement
operation either spans exactly that callout's body or lies entirely beyond
its end or entirely before its header. -/
theorem sourceBodyOps_span (src : List Char) (tracked : List Line)
    (ai : Bool) (gen : Nat → Line) (entries : List MasterEntry) :
    ∀ c ∈ (extractLines src tracked ai gen).2,
    ∀ op ∈ sourceBodyOps (extractLines src tracked ai gen).2 entries,
      (op.start = c.startLine + 1 ∧ op.stop = c.quoteEndLine) ∨
      calloutEnd c ≤ op.start - 1 ∨ op.stop ≤ c.startLine := by
  obtain ⟨hall, hpw⟩ := extractLines_order src tracked ai gen
  intro c hc op hop
  obtain ⟨c2, hc2, e, he, hcb, hopeq⟩ := sourceBodyOps_inv _ entries op hop
  by_cases hcc : c = c2
  · subst hopeq
    rw [← hcc]
    exact Or.inl ⟨rfl, rfl⟩
  · have := List.Pairwise.forall (R := fun a b =>
        calloutEnd a ≤ b.startLine ∨ calloutEnd b ≤ a.startLine)
      (fun {x y} h => h.symm) (hpw.imp (fun h => Or.inl h)) hc hc2 hcc
    subst hopeq
    rcases this with h | h
    · refine Or.inr (Or.inl ?_)
      simp only
      omega
    · refine Or.inr (Or.inr ?_)
      simp only
      have h2 := (hall c2 hc2).2.1
      omega

/-- Every callout's header line lies outside every body-replacement
operation's range. -/
theorem sourceBodyOps_headOutside (src : List Char) (tracked : List Line)
    (ai : Bool) (gen : Nat → Line) (entries : List MasterEntry) :
    ∀ c ∈ (extractLines src tracked ai gen).2,
    ∀ op ∈ sourceBodyOps (extractLines src tracked ai gen).2 entries,
      c.startLine < op.start ∨ op.stop ≤ c.startLine := by
  obtain ⟨hall, hpw⟩ := extractLines_order src tracked ai gen
  intro c hc op hop
  obtain ⟨h2, h3, h4, h5⟩ := hall c hc
  rcases sourceBodyOps_span src tracked ai gen entries c hc op hop with
    ⟨ha, hb⟩ | h | h
  · left
    omega
  · left
    obtain ⟨c2, hc2, e, he, hcb, hopeq⟩ := sourceBodyOps_inv _ entries op hop
    subst hopeq
    simp only at h ⊢
    omega
  · right
    exact h

/-- Every callout's identifier line lies outside every body-replacement
operation's range. -/
theorem sourceBodyOps_idOutside (src : List Char) (tracked : List Line)
    (ai : Bool) (gen : Nat → Line) (entries : List MasterEntry) :
    ∀ c ∈ (extractLines src tracked ai gen).2, ∀ k, c.idLine = some k →
    ∀ op ∈ sourceBodyOps (extractLines src tracked ai gen).2 entries,
      k < op.start ∨ op.stop ≤ k := by
  obtain ⟨hall, hpw⟩ := extractLines_order src tracked ai gen
  intro c hc k hk op hop
  obtain ⟨h2, h3, h4, h5⟩ := hall c hc
  have hqk : c.quoteEndLine ≤ k := h4 k hk
  have hck : calloutEnd c = k + 1 := by
    unfold calloutEnd
    rw [hk]
  rcases sourceBodyOps_span src tracked ai gen entries c hc op hop with
    ⟨ha, hb⟩ | h | h
  · right
    omega
  · left
    obtain ⟨c2, hc2, e, he, hcb, hopeq⟩ := sourceBodyOps_inv _ entries op hop
    subst hopeq
    simp only at h ⊢
    omega
  · right
    omega

/-- Claim C9 (amended): for a carriage-return-free source whose callouts
carry pairwise-distinct identifiers and a chunk list with pairwise-distinct
identifiers, the master-to-source pass (i) equals the simultaneous
replacement of the matched callouts' body spans, (ii) every emitted
operation spans exactly `startLine + 1` to `quoteEndLine` of a callout whose
identifier some chunk carries, (iii) when no chunk matches any callout the
source text is returned entirely unchanged, and (iv) every line outside the
replaced body spans — in particular every callout's header line and
identifier line, which conjuncts (v) and (vi) place outside every span —
reappears unchanged at position `posOf` of the result. -/
theorem C9_frameProperty (src : List Char) (ctype : Line)
    (entries : List MasterEntry) (hcr : '\r' ∉ src)
    (hnde : (entries.map MasterEntry.blockId).Nodup)
    (hndc : ((extractLines src [ctype] false (fun _ => [])).2.filterMap
      Callout.blockId).Nodup) :
    applyMasterEditsToSource src ctype entries =
      joinLines (simApply (splitLines src)
        (sourceBodyOps (extractLines src [ctype] false (fun _ => [])).2
          entries)) ∧
    (∀ op ∈ sourceBodyOps (extractLines src [ctype] false (fun _ => [])).2
        entries,
      ∃ c ∈ (extractLines src [ctype] false (fun _ => [])).2,
        ∃ e ∈ entries, c.blockId = some e.blockId ∧
          op = ⟨c.startLine + 1, c.quoteEndLine,
            quoteBodyLines e.bodyLines⟩) ∧
    ((∀ e ∈ entries,
        lookupCallout (extractLines src [ctype] false (fun _ => [])).2
          e.blockId = none) →
      applyMasterEditsToSource src ctype entries = src) ∧
    (∀ k, k < (splitLines src).length →
      (∀ op ∈ sourceBodyOps (extractLines src [ctype] false
          (fun _ => [])).2 entries, k < op.start ∨ op.stop ≤ k) →
      (simApply (splitLines src)
        (sourceBodyOps (extractLines src [ctype] false (fun _ => [])).2
          entries))[posOf (sourceBodyOps (extractLines src [ctype] false
            (fun _ => [])).2 entries) 0 k]? =
        (splitLines src)[k]?) ∧
    (∀ c ∈ (extractLines src [ctype] false (fun _ => [])).2,
      ∀ op ∈ sourceBodyOps (extractLines src [ctype] false (fun _ => [])).2
        entries, c.startLine < op.start ∨ op.stop ≤ c.startLine) ∧
    (∀ c ∈ (extractLines src [ctype] false (fun _ => [])).2,
      ∀ k, c.idLine = some k →
      ∀ op ∈ sourceBodyOps (extractLines src [ctype] false (fun _ => [])).2
        entries, k < op.start ∨ op.stop ≤ k) := by
  have hchar := applyMaster_char src ctype entries hcr hnde hndc
  have hinv := sourceBodyOps_inv
    (extractLines src [ctype] false (fun _ => [])).2 entries
  refine ⟨hchar, hinv, ?_, ?_,
    sourceBodyOps_headOutside src [ctype] false (fun _ => []) entries,
    sourceBodyOps_idOutside src [ctype] false (fun _ => []) entries⟩
  · intro hnone
    have hops : sourceBodyOps
        (extractLines src [ctype] false (fun _ => [])).2 entries = [] := by
      rw [List.eq_nil_iff_forall_not_mem]
      intro op hop
      obtain ⟨c, hc, e, he, hcb, hopeq⟩ := hinv op hop
      have h1 := hnone e he
      have h2 := lookupCallout_eq_some hndc hc hcb
      rw [h1] at h2
      exact Option.noConfusion h2
    rw [hchar, hops]
    show joinLines (simApplyFrom (splitLines src) 0 []) = src
    show joinLines ((splitLines src).drop 0) = src
    rw [List.drop_zero]
    exact joinLines_splitLines src hcr
  · intro k hk hout
    have hordd := sourceBodyOps_ordered src [ctype] false (fun _ => [])
      entries
    refine simApplyFrom_outside (splitLines src) _ 0 k (Nat.zero_le _) hk
      (fun op _ => Nat.zero_le _)
      (sourceBodyOps_le_stop src [ctype] false (fun _ => []) entries)
      ?_ hout
    unfold OpsOrdered at hordd
    exact hordd.imp (fun h => h.1)

theorem C9_frameProperty_witness :
    applyMasterEditsToSource (str "> [!todo]\n> a\n\n^ab12cd34\n")
        (str "todo") [⟨str "ab12cd34", [str "new"]⟩] =
      joinLines (simApply
        (splitLines (str "> [!todo]\n> a\n\n^ab12cd34\n"))
        (sourceBodyOps
          (extractLines (str "> [!todo]\n> a\n\n^ab12cd34\n")
            [str "todo"] false (fun _ => [])).2
          [⟨str "ab12cd34", [str "new"]⟩])) :=
  (C9_frameProperty (str "> [!todo]\n> a\n\n^ab12cd34\n") (str "todo")
    [⟨str "ab12cd34", [str "new"]⟩]
    (by decide) (by decide) (by decide)).1

/-- Claim C4: identifier stability.  (i) Whatever the auto-insertion flag
and (well-formed) generator, every callout the parse reports with an
identifier line carries exactly the identifier parsed from that line of the
returned text — an existing identifier is returned unchanged, and only a
callout without one receives a generated identifier (on its freshly inserted
line); (ii) the parse only ever inserts lines — the input survives as a
sublist; (iii) with auto-insertion off the text is returned untouched;
(iv) the master-to-source pass is exactly the simultaneous replacement of
the matched callouts' body spans (`startLine + 1` up to `quoteEndLine`);
and (v) under it each callout's identifier line survives verbatim, still
parsing to the same identifier.  Well-formedness of the document is taken
as: no carriage returns, and pairwise-distinct identifiers among the
source's callouts and among the master's chunks. -/
theorem C4_identifierStability (src : List Char) (ctype : Line)
    (entries : List MasterEntry) (tracked : List Line) (ai : Bool)
    (gen : Nat → Line) (hgen : genOK gen) (hcr : '\r' ∉ src)
    (hnde : (entries.map MasterEntry.blockId).Nodup)
    (hndc : ((extractLines src [ctype] false (fun _ => [])).2.filterMap
      Callout.blockId).Nodup) :
    (∀ c ∈ (extractLines src tracked ai gen).2, ∀ k, c.idLine = some k →
      ∃ l, (extractLines src tracked ai gen).1[k]? = some l ∧
        parseBlockId l = c.blockId) ∧
    List.Sublist (splitLines src) (extractLines src tracked ai gen).1 ∧
    (extractLines src tracked false gen).1 = splitLines src ∧
    applyMasterEditsToSource src ctype entries =
      joinLines (simApply (splitLines src)
        (sourceBodyOps (extractLines src [ctype] false (fun _ => [])).2
          entries)) ∧
    (∀ c ∈ (extractLines src [ctype] false (fun _ => [])).2,
      ∀ k, c.idLine = some k →
      ∃ l, (splitLines src)[k]? = some l ∧ parseBlockId l = c.blockId ∧
        (simApply (splitLines src)
          (sourceBodyOps (extractLines src [ctype] false (fun _ => [])).2
            entries))[posOf (sourceBodyOps
              (extractLines src [ctype] false (fun _ => [])).2 entries)
              0 k]? = some l) := by
  refine ⟨extractLines_idLine src tracked ai gen hgen,
    extractLines_sublist src tracked ai gen,
    extractLines_false_fst src tracked gen,
    applyMaster_char src ctype entries hcr hnde hndc, ?_⟩
  intro c hc k hk
  obtain ⟨l, h1, h2⟩ := extractLines_idLine_false src [ctype] (fun _ => [])
    c hc k hk
  refine ⟨l, h1, h2, ?_⟩
  have hk_lt : k < (splitLines src).length := by
    have horder := (extractLines_order src [ctype] false
      (fun _ => [])).1 c hc
    have hck : calloutEnd c = k + 1 := by
      unfold calloutEnd
      rw [hk]
    have h4 := horder.2.2.2
    rw [extractLines_false_fst src [ctype] (fun _ => [])] at h4
    omega
  have hout := sourceBodyOps_idOutside src [ctype] false (fun _ => [])
    entries c hc k hk
  have hordd := sourceBodyOps_ordered src [ctype] false (fun _ => [])
    entries
  have h3 := simApplyFrom_outside (splitLines src)
    (sourceBodyOps (extractLines src [ctype] false (fun _ => [])).2
      entries)
    0 k (Nat.zero_le _) hk_lt (fun op _ => Nat.zero_le _)
    (sourceBodyOps_le_stop src [ctype] false (fun _ => []) entries)
    (by unfold OpsOrdered at hordd; exact hordd.imp (fun h => h.1)) hout
  rw [h1] at h3
  exact h3

theorem C4_identifierStability_witness :
    genOK (fun _ => (['a'] : Line)) ∧
    (extractLines (str "> [!todo]\n> ok\n\n^ef56gh78\n") [str "todo"]
      false (fun _ => (['a'] : Line))).1 =
        splitLines (str "> [!todo]\n> ok\n\n^ef56gh78\n") := by
  refine ⟨?_, ?_⟩
  · intro n
    refine ⟨?_, ?_⟩
    · show (['a'] : Line) ≠ []
      decide
    · show (['a'] : Line).all isIdChar = true
      decide
  · exact (C4_identifierStability (str "> [!todo]\n> ok\n\n^ef56gh78\n")
      (str "todo") [⟨str "ef56gh78", [str "body"]⟩] [str "todo"] false
      (fun _ => ['a'])
      (by
        intro n
        refine ⟨?_, ?_⟩
        · show (['a'] : Line) ≠ []
          decide
        · show (['a'] : Line).all isIdChar = true
          decide)
      (by decide) (by decide) (by decide)).2.2.1

theorem chunksGo_zero (i : Nat) (d : Doc) : chunksGo 0 i d = [] := rfl

theorem chunksGo_nil (fuel i : Nat) : chunksGo (fuel + 1) i [] = [] := rfl

theorem chunksGo_skip {l : Line} {rest : Doc} (fuel i : Nat)
    (h : parseMasterLinkLine l = none) :
    chunksGo (fuel + 1) i (l :: rest) = chunksGo fuel (i + 1) rest := by
  rw [chunksGo, h]

theorem chunksGo_head {l : Line} {rest : Doc} {h0 : LinkHead} (fuel i : Nat)
    (h : parseMasterLinkLine l = some h0) :
    chunksGo (fuel + 1) i (l :: rest) =
      ⟨i, i + 1 + (rest.takeWhile (fun x => !(isMasterHead x))).length,
        h0.display, h0.path, h0.blockId,
        trimTrailingBlankLines
          (rest.takeWhile (fun x => !(isMasterHead x)))⟩ ::
      chunksGo fuel
        (i + 1 + (rest.takeWhile (fun x => !(isMasterHead x))).length)
        (rest.drop (rest.takeWhile (fun x => !(isMasterHead x))).length) := by
  rw [chunksGo, h]

/-- The chunks of a master document span forward, disjoint, strictly
ascending line ranges inside the document. -/
theorem chunksGo_order : ∀ (fuel i : Nat) (d : Doc),
    (∀ ch ∈ chunksGo fuel i d,
      i ≤ ch.start ∧ ch.start < ch.stop ∧ ch.stop ≤ i + d.length) ∧
    (chunksGo fuel i d).Pairwise
      (fun a b => a.stop ≤ b.start ∧ a.start < b.start) := by
  intro fuel
  induction fuel with
  | zero =>
    intro i d
    rw [chunksGo_zero]
    exact ⟨by simp, by simp⟩
  | succ fuel ih =>
    intro i d
    cases d with
    | nil =>
      rw [chunksGo_nil]
      exact ⟨by simp, by simp⟩
    | cons l rest =>
      cases hp : parseMasterLinkLine l with
      | none =>
        rw [chunksGo_skip fuel i hp]
        obtain ⟨ihb, ihp⟩ := ih (i + 1) rest
        refine ⟨?_, ihp⟩
        intro ch hch
        obtain ⟨b1, b2, b3⟩ := ihb ch hch
        refine ⟨by omega, b2, ?_⟩
        simp only [List.length_cons]
        omega
      | some h0 =>
        rw [chunksGo_head fuel i hp]
        obtain ⟨ihb, ihp⟩ := ih
          (i + 1 + (rest.takeWhile (fun x => !(isMasterHead x))).length)
          (rest.drop (rest.takeWhile (fun x => !(isMasterHead x))).length)
        have hbl : (rest.takeWhile (fun x => !(isMasterHead x))).length ≤
            rest.length := (List.takeWhile_sublist _).length_le
        refine ⟨?_, ?_⟩
        · intro ch hch
          rcases List.mem_cons.1 hch with hh | ht
          · subst hh
            refine ⟨?_, ?_, ?_⟩
            · show i ≤ i
              omega
            · show i < i + 1 +
                (rest.takeWhile (fun x => !(isMasterHead x))).length
              omega
            · show i + 1 +
                (rest.takeWhile (fun x => !(isMasterHead x))).length ≤
                i + (l :: rest).length
              simp only [List.length_cons]
              omega
          · obtain ⟨b1, b2, b3⟩ := ihb ch ht
            rw [List.length_drop] at b3
            refine ⟨by omega, b2, ?_⟩
            simp only [List.length_cons]
            omega
        · rw [List.pairwise_cons]
          refine ⟨?_, ihp⟩
          intro b hb
          obtain ⟨b1, b2, b3⟩ := ihb b hb
          refine ⟨?_, ?_⟩
          · show i + 1 +
              (rest.takeWhile (fun x => !(isMasterHead x))).length ≤ b.start
            omega
          · show i < b.start
            omega

/-- The master-side replace/remove operations are ascending and
non-overlapping: their spans are the chunks' spans. -/
theorem masterOps_ordered (lines : Doc) (path basename : Line)
    (callouts : List MasterEntry) :
    OpsOrdered (masterOps (chunksOf lines) path basename callouts) := by
  obtain ⟨hb, hp⟩ := chunksGo_order lines.length 0 lines
  unfold OpsOrdered masterOps
  rw [List.pairwise_map]
  refine (hp.filter _).imp_of_mem ?_
  intro a b ha hb2 hr
  cases hla : lookupDesired callouts a.blockId with
  | none =>
    cases hlb : lookupDesired callouts b.blockId with
    | none =>
      simp only [hla, hlb]
      exact hr
    | some d =>
      simp only [hla, hlb]
      exact hr
  | some d =>
    cases hlb : lookupDesired callouts b.blockId with
    | none =>
      simp only [hla, hlb]
      exact hr
    | some d2 =>
      simp only [hla, hlb]
      exact hr

/-- The master-side operations stay inside the document's line array. -/
theorem masterOps_bounded (lines : Doc) (path basename : Line)
    (callouts : List MasterEntry) :
    OpsBounded lines (masterOps (chunksOf lines) path basename
      callouts) := by
  obtain ⟨hb, hp⟩ := chunksGo_order lines.length 0 lines
  intro op hop
  unfold masterOps at hop
  rw [List.mem_map] at hop
  obtain ⟨ch, hch, hopeq⟩ := hop
  have hch2 : ch ∈ chunksOf lines := List.mem_of_mem_filter hch
  obtain ⟨b1, b2, b3⟩ := hb ch hch2
  cases hld : lookupDesired callouts ch.blockId with
  | none =>
    rw [hld] at hopeq
    rw [← hopeq]
    refine ⟨?_, ?_⟩
    · show ch.start ≤ ch.stop
      omega
    · show ch.stop ≤ lines.length
      omega
  | some d =>
    rw [hld] at hopeq
    rw [← hopeq]
    refine ⟨?_, ?_⟩
    · show ch.start ≤ ch.stop
      omega
    · show ch.stop ≤ lines.length
      omega

/-- Claim C10: one operation per chunk of the reconciled source, duplicates
included.  The source-to-master pass renders the master by simultaneously
replacing every matching chunk's span — the operation list has exactly one
entry per chunk whose `sourcePath` is the reconciled file's, so two chunks
with the same `(sourcePath, blockId)` each get their own operation; when a
current callout carries the identifier both spans receive the same freshly
built chunk lines (the lookup depends only on the identifier), and when
none does both spans are deleted (replaced by nothing).  Duplicates are
never merged. -/
theorem C10_duplicateChunks (masterText : List Char) (path basename : Line)
    (callouts : List MasterEntry) :
    updateMasterForSourceFile masterText path basename callouts =
      ensureTrailingNewline (joinLines (appendAdditions
        (simApply (splitLines masterText)
          (masterOps (chunksOf (splitLines masterText)) path basename
            callouts))
        (masterAdditions (chunksOf (splitLines masterText)) path basename
          callouts))) ∧
    (masterOps (chunksOf (splitLines masterText)) path basename
        callouts).length =
      ((chunksOf (splitLines masterText)).filter
        (fun c => c.sourcePath = path)).length ∧
    (∀ ch ∈ chunksOf (splitLines masterText), ch.sourcePath = path →
      ∀ ch2 ∈ chunksOf (splitLines masterText), ch2.sourcePath = path →
        ch.blockId = ch2.blockId →
        (lookupDesired callouts ch.blockId = none →
          (⟨ch.start, ch.stop, []⟩ : LineOp) ∈
            masterOps (chunksOf (splitLines masterText)) path basename
              callouts ∧
          (⟨ch2.start, ch2.stop, []⟩ : LineOp) ∈
            masterOps (chunksOf (splitLines masterText)) path basename
              callouts) ∧
        (∀ d, lookupDesired callouts ch.blockId = some d →
          (⟨ch.start, ch.stop,
            buildMasterChunkLines basename path d.blockId d.bodyLines⟩ :
            LineOp) ∈
            masterOps (chunksOf (splitLines masterText)) path basename
              callouts ∧
          (⟨ch2.start, ch2.stop,
            buildMasterChunkLines basename path d.blockId d.bodyLines⟩ :
            LineOp) ∈
            masterOps (chunksOf (splitLines masterText)) path basename
              callouts)) := by
  have hmem : ∀ ch ∈ chunksOf (splitLines masterText),
      ch.sourcePath = path →
      (lookupDesired callouts ch.blockId = none →
        (⟨ch.start, ch.stop, []⟩ : LineOp) ∈
          masterOps (chunksOf (splitLines masterText)) path basename
            callouts) ∧
      (∀ d, lookupDesired callouts ch.blockId = some d →
        (⟨ch.start, ch.stop,
          buildMasterChunkLines basename path d.blockId d.bodyLines⟩ :
          LineOp) ∈
          masterOps (chunksOf (splitLines masterText)) path basename
            callouts) := by
    intro ch hch hpath
    have hf : ch ∈ (chunksOf (splitLines masterText)).filter
        (fun c => c.sourcePath = path) := by
      rw [List.mem_filter]
      exact ⟨hch, by simp [hpath]⟩
    constructor
    · intro hld
      unfold masterOps
      rw [List.mem_map]
      refine ⟨ch, hf, ?_⟩
      show (match lookupDesired callouts ch.blockId with
        | none => (⟨ch.start, ch.stop, ([] : Doc)⟩ : LineOp)
        | some d => ⟨ch.start, ch.stop,
            buildMasterChunkLines basename path d.blockId d.bodyLines⟩) =
        (⟨ch.start, ch.stop, []⟩ : LineOp)
      rw [hld]
    · intro d hld
      unfold masterOps
      rw [List.mem_map]
      refine ⟨ch, hf, ?_⟩
      show (match lookupDesired callouts ch.blockId with
        | none => (⟨ch.start, ch.stop, ([] : Doc)⟩ : LineOp)
        | some d2 => ⟨ch.start, ch.stop,
            buildMasterChunkLines basename path d2.blockId d2.bodyLines⟩) =
        (⟨ch.start, ch.stop,
          buildMasterChunkLines basename path d.blockId d.bodyLines⟩ :
          LineOp)
      rw [hld]
  refine ⟨?_, ?_, ?_⟩
  · show ensureTrailingNewline (joinLines (appendAdditions
      (applyOps (splitLines masterText)
        (masterOps (chunksOf (splitLines masterText)) path basename
          callouts))
      (masterAdditions (chunksOf (splitLines masterText)) path basename
        callouts))) = _
    rw [applyOps_eq_simApply _ _ _ (List.Perm.refl _)
      (masterOps_ordered (splitLines masterText) path basename callouts)
      (masterOps_bounded (splitLines masterText) path basename callouts)]
  · unfold masterOps
    exact List.length_map _ _
  · intro ch hch hp1 ch2 hch2 hp2 hbid
    have h1 := hmem ch hch hp1
    have h2 := hmem ch2 hch2 hp2
    constructor
    · intro hld
      refine ⟨h1.1 hld, h2.1 ?_⟩
      rw [← hbid]
      exact hld
    · intro d hld
      refine ⟨h1.2 d hld, h2.2 d ?_⟩
      rw [← hbid]
      exact hld

/-! ## Round trip of the built chunk header line -/

/-- Characters of a canonical path are URI-unescaped and are none of the
characters the header parse treats specially. -/
theorem pathOK_chars {p : Line} (hp : pathOK p) :
    ∀ c ∈ p, uriUnescaped c = true ∧ c ≠ '#' ∧ c ≠ '%' ∧ c ≠ '\n' ∧
      c ≠ '\r' := by
  intro c hc
  rcases hp.2 c hc with h | h | h | h | h | h
  · exact ⟨by simp [uriUnescaped, h],
      fun he => absurd h (by rw [he]; decide),
      fun he => absurd h (by rw [he]; decide),
      fun he => absurd h (by rw [he]; decide),
      fun he => absurd h (by rw [he]; decide)⟩
  · exact ⟨by simp [uriUnescaped, h],
      fun he => absurd h (by rw [he]; decide),
      fun he => absurd h (by rw [he]; decide),
      fun he => absurd h (by rw [he]; decide),
      fun he => absurd h (by rw [he]; decide)⟩
  · subst h
    exact ⟨by decide, by decide, by decide, by decide, by decide⟩
  · subst h
    exact ⟨by decide, by decide, by decide, by decide, by decide⟩
  · subst h
    exact ⟨by decide, by decide, by decide, by decide, by decide⟩
  · subst h
    exact ⟨by decide, by decide, by decide, by decide, by decide⟩

/-- `encodeURI` fixes strings of unescaped characters. -/
theorem encodeURI_id (p : Line) (h : ∀ c ∈ p, uriUnescaped c = true) :
    encodeURI p = p := by
  unfold encodeURI
  induction p with
  | nil => rfl
  | cons c r ih =>
    rw [List.flatMap_cons, if_pos (h c (List.mem_cons_self c r)),
      ih (fun x hx => h x (List.mem_cons_of_mem _ hx))]
    rfl

/-- Percent-free strings tokenize to their own characters. -/
theorem pctTokens_id (p : Line) (h : ∀ c ∈ p, c ≠ '%') :
    pctTokens p = some (p.map Sum.inl) := by
  induction p with
  | nil => rfl
  | cons c r ih =>
    have hc : c ≠ '%' := h c (List.mem_cons_self c r)
    have ht := ih (fun x hx => h x (List.mem_cons_of_mem _ hx))
    rw [pctTokens.eq_def]
    split
    · rename_i heq
      exact absurd heq (by simp)
    · rename_i h1 h2 r2 heq
      rw [List.cons.injEq] at heq
      exact absurd heq.1 hc
    · rename_i x heq
      rw [List.cons.injEq] at heq
      exact absurd heq.1 hc
    · rename_i c2 r2 heq
      rw [List.cons.injEq] at heq
      obtain ⟨hc2, hr2⟩ := heq
      subst hc2
      subst hr2
      rw [ht]
      rfl

/-- Literal token lists decode to their own characters. -/
theorem utf8Decode_inl (p : Line) :
    utf8Decode (p.map Sum.inl) = some p := by
  induction p with
  | nil => rfl
  | cons c r ih =>
    show (utf8Decode (r.map Sum.inl)).map (fun x => c :: x) = some (c :: r)
    rw [ih]
    rfl

/-- `decodeURI` fixes percent-free strings. -/
theorem decodeURI_id (p : Line) (h : ∀ c ∈ p, c ≠ '%') :
    decodeURI p = some p := by
  unfold decodeURI
  rw [pctTokens_id p h]
  exact utf8Decode_inl p

theorem takeWhile_append_all {p : α → Bool} (a b : List α)
    (h : ∀ c ∈ a, p c = true) :
    (a ++ b).takeWhile p = a ++ b.takeWhile p := by
  induction a with
  | nil => rfl
  | cons c a2 ih =>
    rw [List.cons_append, List.takeWhile_cons,
      if_pos (h c (List.mem_cons_self _ _)),
      ih (fun x hx => h x (List.mem_cons_of_mem _ hx))]
    rfl

/-- A trim is the identity on a line with non-space first and last
characters. -/
theorem trimJS_ends {x y : Char} (m : Line)
    (hx : isSpaceJS x = false) (hy : isSpaceJS y = false) :
    trimJS (x :: m ++ [y]) = x :: m ++ [y] := by
  unfold trimJS
  have h1 : List.dropWhile isSpaceJS (x :: (m ++ [y])) = x :: (m ++ [y]) := by
    rw [List.dropWhile_cons, if_neg (by simp [hx])]
  have h1b : List.dropWhile isSpaceJS ((x :: m) ++ [y]) =
      (x :: m) ++ [y] := h1
  rw [h1b]
  have h2 : ((x :: m) ++ [y]).reverse = y :: (x :: m).reverse := by
    rw [List.reverse_append]
    rfl
  rw [h2, List.dropWhile_cons, if_neg (by simp [hy]), List.reverse_cons,
    List.reverse_reverse]

/-- The path/identifier split of the built reference succeeds uniquely. -/
theorem splitPathId_append (p b : Line) (hp : ∀ c ∈ p, c ≠ '#')
    (hb1 : b ≠ []) (hb2 : b.all isIdChar = true) :
    splitPathId (p ++ '#' :: '^' :: b) = some (p, b) := by
  induction p with
  | nil =>
    cases b with
    | nil => exact absurd rfl hb1
    | cons c bs =>
      show (if !(c :: bs).isEmpty && (c :: bs).all isIdChar then
          some (([] : Line), c :: bs)
        else
          match splitPathId ('^' :: c :: bs) with
          | some (p, bid) => some ('#' :: p, bid)
          | none => none) = some ([], c :: bs)
      rw [if_pos]
      show (!(c :: bs).isEmpty && (c :: bs).all isIdChar) = true
      rw [List.isEmpty_cons, hb2]
      rfl
  | cons c p2 ih =>
    have hc : c ≠ '#' := hp c (List.mem_cons_self c p2)
    have ht := ih (fun x hx => hp x (List.mem_cons_of_mem _ hx))
    show splitPathId (c :: (p2 ++ '#' :: '^' :: b)) = some (c :: p2, b)
    rw [splitPathId.eq_def]
    split
    · rename_i heq
      exact absurd heq (by simp)
    · rename_i c2 r2 heq
      rw [List.cons.injEq] at heq
      obtain ⟨h1, h2⟩ := heq
      subst h1
      subst h2
      split
      · exact absurd rfl hc
      · rw [ht]

/-- The markdown-head parse recovers the three components of a built
header. -/
theorem parseMdHead_build (d p b : Line) (hd : displayOK d)
    (hpc : ∀ c ∈ p, c ≠ '#') (hpne : p ≠ [])
    (hb1 : b ≠ []) (hb2 : b.all isIdChar = true) :
    parseMdHead ('[' :: d ++ ']' :: '(' :: p ++ '#' :: '^' :: b ++ [')']) =
      some (d, p, b) := by
  have hN : '[' :: d ++ ']' :: '(' :: p ++ '#' :: '^' :: b ++ [')'] =
      '[' :: (d ++ ']' :: '(' :: (p ++ '#' :: '^' :: (b ++ [')']))) := by
    simp [List.cons_append, List.append_assoc]
  rw [hN, parseMdHead.eq_def]
  split
  · rename_i r1 heq
    rw [List.cons.injEq] at heq
    obtain ⟨_, hr⟩ := heq
    subst hr
    have hall : ∀ c ∈ d, (fun c => !(c = ']')) c = true := by
      intro c hc
      have hne : c ≠ ']' := fun he => hd.2.1 (he ▸ hc)
      simp [hne]
    have htw : (d ++ ']' :: '(' :: (p ++ '#' :: '^' ::
        (b ++ [')']))).takeWhile (fun c => !(c = ']')) = d := by
      rw [takeWhile_append_all d _ hall, List.takeWhile_cons,
        if_neg (by simp), List.append_nil]
    rw [htw]
    have hde : d.isEmpty = false := by
      cases d with
      | nil => exact absurd rfl hd.1
      | cons x xs => rfl
    simp only [hde, Bool.false_eq_true, if_false]
    have hdrop : (d ++ ']' :: '(' :: (p ++ '#' :: '^' ::
        (b ++ [')']))).drop d.length =
        ']' :: '(' :: (p ++ '#' :: '^' :: (b ++ [')'])) :=
      List.drop_left _ _
    rw [hdrop]
    show (if (p ++ '#' :: '^' :: (b ++ [')'])).getLast? = some ')' then
        (match splitPathId (p ++ '#' :: '^' :: (b ++ [')'])).dropLast with
         | some (pp, bid) => if pp.isEmpty then none else some (d, pp, bid)
         | none => none)
      else none) = some (d, p, b)
    have hu : p ++ '#' :: '^' :: (b ++ [')']) =
        (p ++ '#' :: '^' :: b) ++ [')'] := by
      simp [List.append_assoc]
    rw [hu, List.getLast?_concat, if_pos rfl, List.dropLast_concat,
      splitPathId_append p b hpc hb1 hb2]
    show (if p.isEmpty = true then none else some (d, p, b)) =
      some (d, p, b)
    have hpe : p.isEmpty = false := by
      cases p with
      | nil => exact absurd rfl hpne
      | cons x xs => rfl
    rw [hpe, if_neg (by simp)]
  · rename_i hno
    exact absurd rfl (hno _)

/-- The chunk-header parse recovers exactly what the chunk builder wrote:
display, canonical path (the URI codecs cancel) and identifier. -/
theorem parseMasterLinkLine_build (d p b : Line) (hd : displayOK d)
    (hp : pathOK p) (hb : idOK b) :
    parseMasterLinkLine (buildLinkLine d p b) =
      some ⟨d, p, b, true⟩ := by
  have hpch := pathOK_chars hp
  have henc : encodeURI p = p := encodeURI_id p (fun c hc => (hpch c hc).1)
  have hbuild : buildLinkLine d p b =
      '[' :: (d ++ ']' :: '(' :: p ++ '#' :: '^' :: b) ++ [')'] := by
    unfold buildLinkLine
    rw [henc]
    simp [List.cons_append, List.append_assoc]
  unfold parseMasterLinkLine
  rw [hbuild, trimJS_ends _ (by decide) (by decide)]
  have harg : '[' :: (d ++ ']' :: '(' :: p ++ '#' :: '^' :: b) ++ [')'] =
      '[' :: d ++ ']' :: '(' :: p ++ '#' :: '^' :: b ++ [')'] := by
    simp [List.cons_append, List.append_assoc]
  rw [harg]
  show (match parseMdHead ('[' :: d ++ ']' :: '(' :: p ++ '#' :: '^' ::
      b ++ [')']) with
    | some (d2, rawPath, bid) =>
      some (⟨d2, normalizePath ((decodeURI rawPath).getD rawPath), bid,
        true⟩ : LinkHead)
    | none =>
      match parseWikiHead ('[' :: d ++ ']' :: '(' :: p ++ '#' :: '^' ::
          b ++ [')']) with
      | some (rawPath, bid, d2) =>
        some ⟨d2, normalizePath ((decodeURI rawPath).getD rawPath), bid,
          false⟩
      | none => none) = some ⟨d, p, b, true⟩
  rw [parseMdHead_build d p b hd (fun c hc => (hpch c hc).2.1)
    hp.1 hb.1 hb.2]
  show some (⟨d, normalizePath ((decodeURI p).getD p), b, true⟩ :
    LinkHead) = some ⟨d, p, b, true⟩
  rw [decodeURI_id p (fun c hc => (hpch c hc).2.2.1)]
  rfl

/-- A built header line is recognized as a chunk header. -/
theorem isMasterHead_build (d p b : Line) (hd : displayOK d)
    (hp : pathOK p) (hb : idOK b) :
    isMasterHead (buildLinkLine d p b) = true := by
  unfold isMasterHead
  rw [parseMasterLinkLine_build d p b hd hp hb]
  rfl

theorem isMasterHead_nil : isMasterHead [] = false := by decide

/-- A run of built chunks either is empty or starts with a header line, so
the scan's body-collecting `takeWhile` never eats into it. -/
theorem flatMap_build_takeWhile (path basename : Line)
    (hd : displayOK basename) (hp : pathOK path) (es : List MasterEntry)
    (hid : ∀ e ∈ es, idOK e.blockId) :
    (es.flatMap (fun e => buildMasterChunkLines basename path e.blockId
      e.bodyLines)).takeWhile (fun x => !(isMasterHead x)) = [] := by
  cases es with
  | nil => rfl
  | cons e es2 =>
    rw [List.flatMap_cons]
    show ((buildLinkLine basename path e.blockId ::
      (e.bodyLines ++ [[]])) ++ _).takeWhile _ = []
    rw [List.cons_append, List.takeWhile_cons,
      if_neg (by simp [isMasterHead_build basename path e.blockId hd hp
        (hid e (List.mem_cons_self _ _))])]

/-- The master scan of a run of built chunks recovers one chunk per entry,
in order, with the built display, path, identifier and body. -/
theorem chunksGo_build (path basename : Line) (hd : displayOK basename)
    (hp : pathOK path) :
    ∀ (es : List MasterEntry) (fuel i : Nat),
      (∀ e ∈ es, idOK e.blockId) →
      (∀ e ∈ es, bodyOK e.bodyLines) →
      (es.flatMap (fun e => buildMasterChunkLines basename path e.blockId
        e.bodyLines)).length ≤ fuel →
      chunksGo fuel i (es.flatMap (fun e => buildMasterChunkLines basename
        path e.blockId e.bodyLines)) = builtChunks path basename i es := by
  intro es
  induction es with
  | nil =>
    intro fuel i _ _ _
    cases fuel with
    | zero => rfl
    | succ f => rfl
  | cons e es ih =>
    intro fuel i hid hbody hfuel
    have hflat : (e :: es).flatMap (fun e2 => buildMasterChunkLines
        basename path e2.blockId e2.bodyLines) =
        buildLinkLine basename path e.blockId ::
          ((e.bodyLines ++ [[]]) ++ es.flatMap (fun e2 =>
            buildMasterChunkLines basename path e2.blockId
              e2.bodyLines)) := by
      rw [List.flatMap_cons]
      rfl
    rw [hflat] at hfuel ⊢
    cases fuel with
    | zero => simp at hfuel
    | succ f =>
      rw [chunksGo_head f i (parseMasterLinkLine_build basename path
        e.blockId hd hp (hid e (List.mem_cons_self _ _)))]
      have htw : (((e.bodyLines ++ [[]]) ++ es.flatMap (fun e2 =>
          buildMasterChunkLines basename path e2.blockId
            e2.bodyLines)).takeWhile (fun x => !(isMasterHead x))) =
          e.bodyLines ++ [[]] := by
        have hall1 : ∀ l ∈ e.bodyLines ++ [[]],
            (fun x => !(isMasterHead x)) l = true := by
          intro l hl
          rcases List.mem_append.1 hl with h | h
          · have := (hbody e (List.mem_cons_self _ _)) l h
            simp [this.2]
          · rw [List.mem_singleton.1 h]
            simp [isMasterHead_nil]
        rw [takeWhile_append_all _ _ hall1,
          flatMap_build_takeWhile path basename hd hp es
            (fun e2 he2 => hid e2 (List.mem_cons_of_mem _ he2)),
          List.append_nil]
      rw [htw, List.drop_left]
      have hlen : (e.bodyLines ++ [[]]).length = e.bodyLines.length + 1 := by
        simp
      rw [hlen,
        ih f (i + 1 + (e.bodyLines.length + 1))
          (fun e2 he2 => hid e2 (List.mem_cons_of_mem _ he2))
          (fun e2 he2 => hbody e2 (List.mem_cons_of_mem _ he2))
          (by
            simp only [List.length_cons, List.length_append,
              List.length_nil] at hfuel
            omega)]
      rfl

theorem isIdChar_clean {c : Char} (h : isIdChar c = true) :
    c ≠ '\n' ∧ c ≠ '\r' :=
  ⟨fun he => absurd h (by rw [he]; decide),
   fun he => absurd h (by rw [he]; decide)⟩

/-- A built header line contains no line breaks. -/
theorem buildLinkLine_clean (d p b : Line) (hd : displayOK d)
    (hp : pathOK p) (hb : idOK b) : cleanLine (buildLinkLine d p b) := by
  have henc : encodeURI p = p :=
    encodeURI_id p (fun c hc => (pathOK_chars hp c hc).1)
  unfold cleanLine buildLinkLine
  rw [henc]
  constructor
  · intro hmem
    simp only [List.mem_cons, List.mem_append, List.mem_singleton,
      or_assoc] at hmem
    rcases hmem with h | h | h | h | h | h | h | h | h
    · exact absurd h (by decide)
    · exact absurd h hd.2.2.1
    · exact absurd h (by decide)
    · exact absurd h (by decide)
    · exact absurd rfl (pathOK_chars hp _ h).2.2.2.1
    · exact absurd h (by decide)
    · exact absurd h (by decide)
    · exact absurd (List.all_eq_true.1 hb.2 _ h) (by decide)
    · exact absurd h (by decide)
  · intro hmem
    simp only [List.mem_cons, List.mem_append, List.mem_singleton,
      or_assoc] at hmem
    rcases hmem with h | h | h | h | h | h | h | h | h
    · exact absurd h (by decide)
    · exact absurd h hd.2.2.2
    · exact absurd h (by decide)
    · exact absurd h (by decide)
    · exact absurd rfl (pathOK_chars hp _ h).2.2.2.2
    · exact absurd h (by decide)
    · exact absurd h (by decide)
    · exact absurd (List.all_eq_true.1 hb.2 _ h) (by decide)
    · exact absurd h (by decide)

/-- Every line of a run of built chunks is free of line breaks. -/
theorem flatMap_build_clean (path basename : Line) (hd : displayOK basename)
    (hp : pathOK path) (es : List MasterEntry)
    (hid : ∀ e ∈ es, idOK e.blockId)
    (hbody : ∀ e ∈ es, bodyOK e.bodyLines) :
    ∀ l ∈ es.flatMap (fun e => buildMasterChunkLines basename path
      e.blockId e.bodyLines), cleanLine l := by
  intro l hl
  rw [List.mem_flatMap] at hl
  obtain ⟨e, he, hle⟩ := hl
  rcases List.mem_cons.1 hle with h | h
  · subst h
    exact buildLinkLine_clean basename path e.blockId hd hp (hid e he)
  · rcases List.mem_append.1 h with h2 | h2
    · exact ((hbody e he) l h2).1
    · rw [List.mem_singleton.1 h2]
      exact ⟨by simp, by simp⟩

theorem buildMasterChunkLines_getLast (d p b : Line) (body : Doc) :
    (buildMasterChunkLines d p b body).getLast? = some [] := by
  show (buildLinkLine d p b :: (body ++ [[]])).getLast? = some []
  rw [show buildLinkLine d p b :: (body ++ [[]]) =
    (buildLinkLine d p b :: body) ++ [[]] from rfl, List.getLast?_concat]

theorem flatMap_build_ne_nil (path basename : Line) (es : List MasterEntry)
    (h : es ≠ []) :
    es.flatMap (fun e => buildMasterChunkLines basename path e.blockId
      e.bodyLines) ≠ [] := by
  cases es with
  | nil => exact absurd rfl h
  | cons e es2 =>
    rw [List.flatMap_cons]
    intro hc
    rw [List.append_eq_nil] at hc
    exact absurd hc.1 (by simp [buildMasterChunkLines])

theorem flatMap_build_getLast (path basename : Line) :
    ∀ (es : List MasterEntry), es ≠ [] →
      (es.flatMap (fun e => buildMasterChunkLines basename path e.blockId
        e.bodyLines)).getLast? = some [] := by
  intro es
  induction es with
  | nil => intro h; exact absurd rfl h
  | cons e es ih =>
    intro _
    rw [List.flatMap_cons, List.getLast?_append]
    rcases eq_or_ne es [] with he | he
    · subst he
      simp only [List.flatMap_nil, List.getLast?_nil, Option.none_or]
      exact buildMasterChunkLines_getLast _ _ _ _
    · rw [ih he]
      rfl

/-- A joined document whose last line is blank is empty or ends in a
newline. -/
theorem getLast?_joinLines_blank : ∀ (d : Doc), d.getLast? = some [] →
    joinLines d = [] ∨ (joinLines d).getLast? = some '\n' := by
  intro d
  induction d with
  | nil => intro h; exact absurd h (by simp)
  | cons l d ih =>
    intro hlast
    cases d with
    | nil =>
      left
      have hl : l = [] := by simpa using hlast
      rw [hl]
      rfl
    | cons l2 d2 =>
      right
      rw [joinLines_cons_of_ne _ _ (by simp), List.getLast?_append]
      have hlast2 : (l2 :: d2).getLast? = some [] := by
        rw [List.getLast?_cons_cons] at hlast
        exact hlast
      have hJ : ('\n' :: joinLines (l2 :: d2)).getLast? = some '\n' := by
        rcases ih hlast2 with h | h
        · rw [h]
          rfl
        · cases hj : joinLines (l2 :: d2) with
          | nil => rfl
          | cons a as =>
            rw [List.getLast?_cons_cons]
            rw [hj] at h
            exact h
      rw [hJ]
      rfl

/-- The first source-to-master pass from an empty master: the master
becomes a leading blank line followed by the freshly built chunks of all
current callouts, in callout order. -/
theorem updateMaster_empty (path basename : Line) (es : List MasterEntry)
    (hne : es ≠ []) :
    updateMasterForSourceFile (str "") path basename es =
      '\n' :: joinLines (es.flatMap (fun e => buildMasterChunkLines
        basename path e.blockId e.bodyLines)) := by
  unfold updateMasterForSourceFile
  show ensureTrailingNewline (joinLines (appendAdditions
    (applyOps (splitLines (str ""))
      (masterOps (chunksOf (splitLines (str ""))) path basename es))
    (masterAdditions (chunksOf (splitLines (str ""))) path basename
      es))) = _
  have h1 : splitLines (str "") = [[]] := rfl
  have h2 : chunksOf ([[]] : Doc) = [] := rfl
  have h5 : masterAdditions [] path basename es = es.flatMap (fun e =>
      buildMasterChunkLines basename path e.blockId e.bodyLines) := by
    show (es.filter (fun c => !(c.blockId ∈ ([] : List Line)))).flatMap
      (fun d => buildMasterChunkLines basename path d.blockId
        d.bodyLines) = _
    rw [List.filter_eq_self.mpr (fun a _ => by simp)]
  rw [h1, h2, h5]
  have hadds_ne : es.flatMap (fun e => buildMasterChunkLines basename path
      e.blockId e.bodyLines) ≠ [] := flatMap_build_ne_nil path basename es
    hne
  have h6 : appendAdditions (applyOps [[]] (masterOps [] path basename es))
      (es.flatMap (fun e => buildMasterChunkLines basename path e.blockId
        e.bodyLines)) =
      [] :: es.flatMap (fun e => buildMasterChunkLines basename path
        e.blockId e.bodyLines) := by
    cases hfm : es.flatMap (fun e => buildMasterChunkLines basename path
      e.blockId e.bodyLines) with
    | nil => exact absurd hfm hadds_ne
    | cons a as =>
      show appendAdditions [[]] (a :: as) = [] :: a :: as
      unfold appendAdditions
      rw [if_neg (by simp), if_neg (by decide)]
      rfl
  rw [h6, joinLines_cons_of_ne _ _ hadds_ne, List.nil_append]
  unfold ensureTrailingNewline
  have hend : ('\n' :: joinLines (es.flatMap (fun e =>
      buildMasterChunkLines basename path e.blockId
        e.bodyLines))).getLast? = some '\n' := by
    rcases getLast?_joinLines_blank _
      (flatMap_build_getLast path basename es hne) with h | h
    · rw [h]
      rfl
    · cases hj : joinLines (es.flatMap (fun e => buildMasterChunkLines
        basename path e.blockId e.bodyLines)) with
      | nil => rfl
      | cons a as =>
        rw [List.getLast?_cons_cons]
        rw [hj] at h
        exact h
  rw [if_pos hend]

/-- Splitting and parsing the first-pass master: a leading blank line, then
the built chunk lines; the parsed chunk list is one chunk per callout. -/
theorem parseMaster_build (path basename : Line) (es : List MasterEntry)
    (hd : displayOK basename) (hp : pathOK path) (hne : es ≠ [])
    (hid : ∀ e ∈ es, idOK e.blockId)
    (hbody : ∀ e ∈ es, bodyOK e.bodyLines) :
    splitLines (updateMasterForSourceFile (str "") path basename es) =
      [] :: es.flatMap (fun e => buildMasterChunkLines basename path
        e.blockId e.bodyLines) ∧
    (parseMasterChunks (updateMasterForSourceFile (str "") path basename
      es)).2 = builtChunks path basename 1 es := by
  have hm := updateMaster_empty path basename es hne
  have hsplit : splitLines (updateMasterForSourceFile (str "") path
      basename es) = [] :: es.flatMap (fun e => buildMasterChunkLines
        basename path e.blockId e.bodyLines) := by
    rw [hm]
    rw [show splitLines ('\n' :: joinLines (es.flatMap (fun e =>
        buildMasterChunkLines basename path e.blockId e.bodyLines))) =
      [] :: splitLines (joinLines (es.flatMap (fun e =>
        buildMasterChunkLines basename path e.blockId e.bodyLines)))
      from rfl]
    rw [splitLines_joinLines _ (flatMap_build_ne_nil path basename es hne)
      (flatMap_build_clean path basename hd hp es hid hbody)]
  refine ⟨hsplit, ?_⟩
  show chunksOf (splitLines (updateMasterForSourceFile (str "") path
    basename es)) = _
  rw [hsplit]
  show chunksGo (([] :: es.flatMap (fun e => buildMasterChunkLines basename
    path e.blockId e.bodyLines)).length) 0
    ([] :: es.flatMap (fun e => buildMasterChunkLines basename path
      e.blockId e.bodyLines)) = _
  rw [show (([] : Line) :: es.flatMap (fun e => buildMasterChunkLines
      basename path e.blockId e.bodyLines)).length =
    (es.flatMap (fun e => buildMasterChunkLines basename path e.blockId
      e.bodyLines)).length + 1 from by simp]
  rw [chunksGo_skip _ 0 (by decide)]
  exact chunksGo_build path basename hd hp es _ 1 hid hbody (le_refl _)

theorem trimTrailing_append_blank (B : Doc) :
    trimTrailingBlankLines (B ++ [[]]) = trimTrailingBlankLines B := by
  unfold trimTrailingBlankLines
  rw [List.reverse_append]
  show ((([] : Line) :: B.reverse).dropWhile _).reverse = _
  rw [List.dropWhile_cons, if_pos (by decide)]

/-- Filtering the parsed chunks of a built master for the source path and
projecting identifier and body recovers the original entry list. -/
theorem builtChunks_proj (path basename : Line) :
    ∀ (es : List MasterEntry) (i : Nat),
      (∀ e ∈ es, trimTrailingBlankLines e.bodyLines = e.bodyLines) →
      ((builtChunks path basename i es).filter
        (fun c => c.sourcePath = path)).map
        (fun c => (⟨c.blockId, c.bodyLines⟩ : MasterEntry)) = es := by
  intro es
  induction es with
  | nil => intro i _; rfl
  | cons e es ih =>
    intro i htr
    show (((⟨i, i + 1 + (e.bodyLines.length + 1), basename, path,
        e.blockId, trimTrailingBlankLines (e.bodyLines ++ [[]])⟩ :
        MasterChunk) ::
        builtChunks path basename (i + 1 + (e.bodyLines.length + 1))
          es).filter (fun c => c.sourcePath = path)).map
      (fun c => (⟨c.blockId, c.bodyLines⟩ : MasterEntry)) = e :: es
    rw [List.filter_cons, if_pos (by simp), List.map_cons,
      ih (i + 1 + (e.bodyLines.length + 1))
        (fun e2 he2 => htr e2 (List.mem_cons_of_mem _ he2))]
    show (⟨e.blockId,
      trimTrailingBlankLines (e.bodyLines ++ [[]])⟩ : MasterEntry) ::
      es = e :: es
    rw [trimTrailing_append_blank, htr e (List.mem_cons_self _ _)]

/-- The identifiers of the source's chunks in a built master are the
entries' identifiers, in order. -/
theorem builtChunks_ids (path basename : Line) :
    ∀ (es : List MasterEntry) (i : Nat),
      ((builtChunks path basename i es).filter
        (fun c => c.sourcePath = path)).map (fun c => c.blockId) =
      es.map MasterEntry.blockId := by
  intro es
  induction es with
  | nil => intro i; rfl
  | cons e es ih =>
    intro i
    show (((⟨i, i + 1 + (e.bodyLines.length + 1), basename, path,
        e.blockId, trimTrailingBlankLines (e.bodyLines ++ [[]])⟩ :
        MasterChunk) ::
        builtChunks path basename (i + 1 + (e.bodyLines.length + 1))
          es).filter (fun c => c.sourcePath = path)).map
      (fun c => c.blockId) = e.blockId :: es.map MasterEntry.blockId
    rw [List.filter_cons, if_pos (by simp), List.map_cons,
      ih (i + 1 + (e.bodyLines.length + 1))]

theorem filterMap_eq_map_of (f : α → Option β) (g : α → β) :
    ∀ (l : List α), (∀ a ∈ l, f a = some (g a)) →
      l.filterMap f = l.map g := by
  intro l
  induction l with
  | nil => intro _; rfl
  | cons a l ih =>
    intro h
    rw [List.filterMap_cons, h a (List.mem_cons_self _ _), List.map_cons,
      ih (fun x hx => h x (List.mem_cons_of_mem _ hx))]

/-- When every callout carries an identifier, the identifier projection is
a plain map. -/
theorem filterMap_blockId_eq_map (cs : List Callout)
    (h : ∀ c ∈ cs, c.blockId.isSome = true) :
    cs.filterMap Callout.blockId = cs.map (fun c => c.blockId.getD []) := by
  refine filterMap_eq_map_of _ _ cs ?_
  intro c hc
  cases hcb : c.blockId with
  | none => exact absurd (h c hc) (by rw [hcb]; decide)
  | some b => rfl

/-- With auto-insertion off the reported bodies are trimmed of trailing
blank lines (they are stable under a further trim). -/
theorem extractLines_false_trim (src : List Char) (tracked : List Line)
    (gen : Nat → Line) :
    ∀ c ∈ (extractLines src tracked false gen).2,
      trimTrailingBlankLines c.bodyLines = c.bodyLines := by
  intro c hc
  have hg : extractLines src tracked false gen =
      extractLines src tracked false (fun _ => ['a']) := by
    unfold extractLines
    exact extractGo_false_gen _ _ _ _ _ _ _
  rw [hg] at hc
  have hgen : genOK (fun _ => (['a'] : Line)) := by
    intro n
    refine ⟨?_, ?_⟩
    · show (['a'] : Line) ≠ []
      decide
    · show (['a'] : Line).all isIdChar = true
      decide
  exact (extractGo_facts (uniqLower tracked) false (fun _ => ['a']) hgen
    (splitLines src).length 0 0 (splitLines src) c hc).2.2.1

/-- With auto-insertion off every reported identifier is a well-formed
identifier token. -/
theorem extractLines_false_idOK (src : List Char) (tracked : List Line)
    (gen : Nat → Line) :
    ∀ c ∈ (extractLines src tracked false gen).2,
      ∀ bid, c.blockId = some bid → idOK bid := by
  intro c hc
  have hg : extractLines src tracked false gen =
      extractLines src tracked false (fun _ => ['a']) := by
    unfold extractLines
    exact extractGo_false_gen _ _ _ _ _ _ _
  rw [hg] at hc
  have hgen : genOK (fun _ => (['a'] : Line)) := by
    intro n
    refine ⟨?_, ?_⟩
    · show (['a'] : Line) ≠ []
      decide
    · show (['a'] : Line).all isIdChar = true
      decide
  exact (extractGo_facts (uniqLower tracked) false (fun _ => ['a']) hgen
    (splitLines src).length 0 0 (splitLines src) c hc).2.1

/-- Unquoting inverts block-quote wrapping on bodies whose blank lines are
truly empty. -/
theorem map_unquote_quote (B : Doc)
    (h : ∀ l ∈ B, trimJS l = [] → l = []) :
    (quoteBodyLines B).map unquoteLine = B := by
  unfold quoteBodyLines
  rw [List.map_map]
  have hpt : ∀ l ∈ B, (unquoteLine ∘ (fun l =>
      if trimJS l = [] then ['>'] else '>' :: ' ' :: l)) l = l := by
    intro l hl
    show unquoteLine (if trimJS l = [] then ['>'] else '>' :: ' ' :: l) = l
    by_cases ht : trimJS l = []
    · rw [if_pos ht, h l hl ht]
      rfl
    · rw [if_neg ht]
      rfl
  rw [List.map_congr_left hpt, List.map_id']

/-- Reconciling a source against its own callouts produces one body
replacement per callout, rewriting each body span with the block-quote
wrapping of the callout's own body. -/
theorem sourceBodyOps_self (cs : List Callout)
    (hids : ∀ c ∈ cs, c.blockId.isSome = true)
    (hnd : (cs.filterMap Callout.blockId).Nodup) :
    sourceBodyOps cs (cs.map toMasterEntry) =
      cs.map (fun c => (⟨c.startLine + 1, c.quoteEndLine,
        quoteBodyLines c.bodyLines⟩ : LineOp)) := by
  have hndm : ((cs.map toMasterEntry).map MasterEntry.blockId).Nodup := by
    rw [List.map_map,
      show (MasterEntry.blockId ∘ toMasterEntry) =
        (fun c : Callout => c.blockId.getD []) from rfl,
      ← filterMap_blockId_eq_map cs hids]
    exact hnd
  unfold sourceBodyOps
  refine filterMap_eq_map_of _ _ cs ?_
  intro c hc
  cases hcb : c.blockId with
  | none => exact absurd (hids c hc) (by rw [hcb]; decide)
  | some b =>
    have hmem : toMasterEntry c ∈ cs.map toMasterEntry :=
      List.mem_map_of_mem _ hc
    have hbid : (toMasterEntry c).blockId = b := by
      show c.blockId.getD [] = b
      rw [hcb]
      rfl
    show (match (cs.map toMasterEntry).find?
        (fun e => decide (e.blockId = b)) with
      | some e => some (⟨c.startLine + 1, c.quoteEndLine,
          quoteBodyLines e.bodyLines⟩ : LineOp)
      | none => none) = some ⟨c.startLine + 1, c.quoteEndLine,
        quoteBodyLines c.bodyLines⟩
    rw [find?_entry_eq_some hndm hmem hbid]
    rfl

/-- Claim C1 (amended): the round trip through the master restores every
callout's body exactly, modulo block-quote wrapping.  For a
carriage-return-free source with at least one tracked callout, all
identifiers assigned and pairwise distinct, and bodies that are never
chunk-header-shaped (with truly empty blank lines) — the failure mode of
the unamended claim — : (i) building the master from the callouts and
parsing it back yields the callouts' own (identifier, body) entries,
unchanged and in order; (ii) writing those entries back into the source
replaces each callout's body span with exactly the block-quote wrapping of
that callout's own body; and (iii) unquoting that wrapping is the original
body, line for line. -/
theorem C1_roundTrip (src : List Char) (ctype path basename : Line)
    (hcr : '\r' ∉ src) (hd : displayOK basename) (hp : pathOK path)
    (hne : (extractLines src [ctype] false (fun _ => [])).2 ≠ [])
    (hids : ∀ c ∈ (extractLines src [ctype] false (fun _ => [])).2,
      c.blockId.isSome = true)
    (hnd : ((extractLines src [ctype] false (fun _ => [])).2.filterMap
      Callout.blockId).Nodup)
    (hbody : ∀ c ∈ (extractLines src [ctype] false (fun _ => [])).2,
      bodyOK c.bodyLines ∧ ∀ l ∈ c.bodyLines, trimJS l = [] → l = []) :
    ((parseMasterChunks (updateMasterForSourceFile (str "") path basename
        ((extractLines src [ctype] false (fun _ => [])).2.map
          toMasterEntry))).2.filter
      (fun c => c.sourcePath = path)).map
      (fun c => (⟨c.blockId, c.bodyLines⟩ : MasterEntry)) =
      (extractLines src [ctype] false (fun _ => [])).2.map toMasterEntry ∧
    applyMasterEditsToSource src ctype
      (((parseMasterChunks (updateMasterForSourceFile (str "") path
          basename ((extractLines src [ctype] false (fun _ => [])).2.map
            toMasterEntry))).2.filter
        (fun c => c.sourcePath = path)).map
        (fun c => (⟨c.blockId, c.bodyLines⟩ : MasterEntry))) =
      joinLines (simApply (splitLines src)
        ((extractLines src [ctype] false (fun _ => [])).2.map
          (fun c => (⟨c.startLine + 1, c.quoteEndLine,
            quoteBodyLines c.bodyLines⟩ : LineOp)))) ∧
    ∀ c ∈ (extractLines src [ctype] false (fun _ => [])).2,
      (quoteBodyLines c.bodyLines).map unquoteLine = c.bodyLines := by
  have hene : (extractLines src [ctype] false (fun _ => [])).2.map
      toMasterEntry ≠ [] := by
    intro h
    exact hne (List.map_eq_nil_iff.1 h)
  have hid_e : ∀ e ∈ (extractLines src [ctype] false
      (fun _ => [])).2.map toMasterEntry, idOK e.blockId := by
    intro e he
    rw [List.mem_map] at he
    obtain ⟨c, hc, rfl⟩ := he
    cases hcb : c.blockId with
    | none => exact absurd (hids c hc) (by rw [hcb]; decide)
    | some b =>
      have hOK := extractLines_false_idOK src [ctype] (fun _ => []) c hc
        b hcb
      show idOK (c.blockId.getD [])
      rw [hcb]
      exact hOK
  have hbody_e : ∀ e ∈ (extractLines src [ctype] false
      (fun _ => [])).2.map toMasterEntry, bodyOK e.bodyLines := by
    intro e he
    rw [List.mem_map] at he
    obtain ⟨c, hc, rfl⟩ := he
    exact (hbody c hc).1
  have htrim_e : ∀ e ∈ (extractLines src [ctype] false
      (fun _ => [])).2.map toMasterEntry,
      trimTrailingBlankLines e.bodyLines = e.bodyLines := by
    intro e he
    rw [List.mem_map] at he
    obtain ⟨c, hc, rfl⟩ := he
    exact extractLines_false_trim src [ctype] (fun _ => []) c hc
  have hndm : (((extractLines src [ctype] false (fun _ => [])).2.map
      toMasterEntry).map MasterEntry.blockId).Nodup := by
    rw [List.map_map,
      show (MasterEntry.blockId ∘ toMasterEntry) =
        (fun c : Callout => c.blockId.getD []) from rfl,
      ← filterMap_blockId_eq_map _ hids]
    exact hnd
  obtain ⟨hsplit, hchunks⟩ := parseMaster_build path basename
    ((extractLines src [ctype] false (fun _ => [])).2.map toMasterEntry)
    hd hp hene hid_e hbody_e
  have h1 : ((parseMasterChunks (updateMasterForSourceFile (str "") path
      basename ((extractLines src [ctype] false (fun _ => [])).2.map
        toMasterEntry))).2.filter
      (fun c => c.sourcePath = path)).map
      (fun c => (⟨c.blockId, c.bodyLines⟩ : MasterEntry)) =
      (extractLines src [ctype] false (fun _ => [])).2.map
        toMasterEntry := by
    rw [hchunks]
    exact builtChunks_proj path basename _ 1 htrim_e
  refine ⟨h1, ?_, ?_⟩
  · rw [h1, applyMaster_char src ctype _ hcr hndm hnd,
      sourceBodyOps_self _ hids hnd]
  · intro c hc
    exact map_unquote_quote c.bodyLines (hbody c hc).2

theorem C1_roundTrip_witness :
    ((parseMasterChunks (updateMasterForSourceFile (str "") (str "S.md")
        (str "S")
        ((extractLines (str "> [!todo]\n> a\n\n^ab12cd34\n")
          [str "todo"] false (fun _ => [])).2.map
          toMasterEntry))).2.filter
      (fun c => c.sourcePath = str "S.md")).map
      (fun c => (⟨c.blockId, c.bodyLines⟩ : MasterEntry)) =
      (extractLines (str "> [!todo]\n> a\n\n^ab12cd34\n")
        [str "todo"] false (fun _ => [])).2.map toMasterEntry :=
  (C1_roundTrip (str "> [!todo]\n> a\n\n^ab12cd34\n") (str "todo")
    (str "S.md") (str "S") (by decide) (by decide) (by decide) (by decide)
    (by decide) (by decide) (by decide)).1

theorem filter_entry_singleton (es : List MasterEntry) (e : MasterEntry)
    (hnd : (es.map MasterEntry.blockId).Nodup) (he : e ∈ es) :
    es.filter (fun x => x.blockId = e.blockId) = [e] := by
  induction es with
  | nil => cases he
  | cons a es ih =>
    rw [List.map_cons, List.nodup_cons] at hnd
    rcases List.mem_cons.1 he with h | h
    · subst h
      rw [List.filter_cons, if_pos (by simp)]
      have hrest : es.filter (fun x => decide (x.blockId = e.blockId)) =
          [] := by
        rw [List.filter_eq_nil_iff]
        intro x hx
        simp only [decide_eq_true_eq]
        intro heq
        exact hnd.1 (heq ▸ List.mem_map_of_mem MasterEntry.blockId hx)
      rw [hrest]
    · rw [List.filter_cons, if_neg (by
        simp only [decide_eq_true_eq]
        intro heq
        exact hnd.1 (heq ▸ List.mem_map_of_mem MasterEntry.blockId h)),
        ih hnd.2 h]

/-- The by-identifier lookup finds each entry of a duplicate-free list. -/
theorem lookupDesired_self (es : List MasterEntry) (e : MasterEntry)
    (hnd : (es.map MasterEntry.blockId).Nodup) (he : e ∈ es) :
    lookupDesired es e.blockId = some e := by
  unfold lookupDesired
  rw [filter_entry_singleton es e hnd he]
  rfl

/-- One step of the pass-two operation list over a built master: the chunk
of the first entry is replaced by its own freshly rebuilt lines. -/
theorem masterOps_built_cons (path basename : Line)
    (es0 : List MasterEntry) (e : MasterEntry) (es : List MasterEntry)
    (i : Nat) (hl : lookupDesired es0 e.blockId = some e) :
    masterOps (builtChunks path basename i (e :: es)) path basename es0 =
      (⟨i, i + 1 + (e.bodyLines.length + 1),
        buildMasterChunkLines basename path e.blockId e.bodyLines⟩ :
        LineOp) ::
        masterOps (builtChunks path basename
          (i + 1 + (e.bodyLines.length + 1)) es) path basename es0 := by
  rw [show builtChunks path basename i (e :: es) =
    (⟨i, i + 1 + (e.bodyLines.length + 1), basename, path, e.blockId,
      trimTrailingBlankLines (e.bodyLines ++ [[]])⟩ : MasterChunk) ::
    builtChunks path basename (i + 1 + (e.bodyLines.length + 1)) es
    from rfl]
  unfold masterOps
  rw [List.filter_cons, if_pos (by simp), List.map_cons]
  simp only [hl]

/-- Every pass-two operation over a built master rewrites its span with
exactly the lines already standing there. -/
theorem masterOps_built_content (path basename : Line)
    (es0 : List MasterEntry)
    (hnd : (es0.map MasterEntry.blockId).Nodup) :
    ∀ (es : List MasterEntry) (i : Nat) (lines : Doc),
      (∀ e ∈ es, e ∈ es0) →
      lines.drop i = es.flatMap (fun e => buildMasterChunkLines basename
        path e.blockId e.bodyLines) →
      ∀ op ∈ masterOps (builtChunks path basename i es) path basename es0,
        op.insert = (lines.drop op.start).take (op.stop - op.start) := by
  intro es
  induction es with
  | nil =>
    intro i lines _ _ op hop
    exact absurd hop (List.not_mem_nil op)
  | cons e es ih =>
    intro i lines hsub hdrop op hop
    rw [masterOps_built_cons path basename es0 e es i
      (lookupDesired_self es0 e hnd (hsub e (List.mem_cons_self _ _)))]
      at hop
    have hflat : lines.drop i =
        buildMasterChunkLines basename path e.blockId e.bodyLines ++
        es.flatMap (fun e2 => buildMasterChunkLines basename path
          e2.blockId e2.bodyLines) := by
      rw [hdrop, List.flatMap_cons]
    have hblen : (buildMasterChunkLines basename path e.blockId
        e.bodyLines).length = e.bodyLines.length + 2 := by
      show (buildLinkLine basename path e.blockId ::
        (e.bodyLines ++ [[]])).length = _
      simp
    rcases List.mem_cons.1 hop with h | h
    · subst h
      show buildMasterChunkLines basename path e.blockId e.bodyLines =
        (lines.drop i).take (i + 1 + (e.bodyLines.length + 1) - i)
      rw [hflat, show i + 1 + (e.bodyLines.length + 1) - i =
        (buildMasterChunkLines basename path e.blockId
          e.bodyLines).length from by rw [hblen]; omega,
        List.take_left]
    · refine ih (i + 1 + (e.bodyLines.length + 1)) lines
        (fun e2 he2 => hsub e2 (List.mem_cons_of_mem _ he2)) ?_ op h
      rw [show i + 1 + (e.bodyLines.length + 1) =
        i + (e.bodyLines.length + 2) from by omega,
        ← List.drop_drop, hflat, ← hblen, List.drop_left]

/-- On a built master the pass-two additions are empty: every entry's
identifier already has a chunk. -/
theorem masterAdditions_built (path basename : Line)
    (es0 : List MasterEntry) (i : Nat) :
    masterAdditions (builtChunks path basename i es0) path basename
      es0 = [] := by
  unfold masterAdditions
  show (es0.filter (fun c => !(c.blockId ∈ ((builtChunks path basename i
      es0).filter (fun c => c.sourcePath = path)).map
      (fun c => c.blockId)))).flatMap
    (fun d => buildMasterChunkLines basename path d.blockId
      d.bodyLines) = []
  rw [builtChunks_ids path basename es0 i,
    List.filter_eq_nil_iff.mpr ?_]
  · rfl
  · intro e he
    have hm : e.blockId ∈ es0.map MasterEntry.blockId :=
      List.mem_map_of_mem _ he
    simp [hm]

/-- Replacing every span with its own current content is the identity. -/
theorem simApplyFrom_id (lines : Doc) :
    ∀ (ops : List LineOp) (i : Nat),
      (∀ op ∈ ops, i ≤ op.start) →
      (∀ op ∈ ops, op.start ≤ op.stop) →
      List.Pairwise (fun a b => a.stop ≤ b.start) ops →
      (∀ op ∈ ops, op.insert =
        (lines.drop op.start).take (op.stop - op.start)) →
      simApplyFrom lines i ops = lines.drop i := by
  intro ops
  induction ops with
  | nil => intro i _ _ _ _; rfl
  | cons op rest ih =>
    intro i hstart hss hpw hins
    have hso : i ≤ op.start := hstart op (List.mem_cons_self _ _)
    have hse : op.start ≤ op.stop := hss op (List.mem_cons_self _ _)
    show (lines.drop i).take (op.start - i) ++ op.insert ++
      simApplyFrom lines op.stop rest = lines.drop i
    rw [ih op.stop (fun o ho => (List.pairwise_cons.1 hpw).1 o ho)
      (fun o ho => hss o (List.mem_cons_of_mem _ ho))
      (List.pairwise_cons.1 hpw).2
      (fun o ho => hins o (List.mem_cons_of_mem _ ho)),
      hins op (List.mem_cons_self _ _)]
    have h1 : (lines.drop op.start).take (op.stop - op.start) ++
        lines.drop op.stop = lines.drop op.start := by
      have h0 := List.take_append_drop (op.stop - op.start)
        (lines.drop op.start)
      rw [List.drop_drop,
        show op.start + (op.stop - op.start) = op.stop from by omega]
        at h0
      exact h0
    rw [List.append_assoc, h1]
    have h2 := List.take_append_drop (op.start - i) (lines.drop i)
    rw [List.drop_drop,
      show i + (op.start - i) = op.start from by omega] at h2
    exact h2

theorem joinLines_no_cr : ∀ (d : Doc), (∀ l ∈ d, '\r' ∉ l) →
    '\r' ∉ joinLines d := by
  intro d
  induction d with
  | nil => intro _ h; exact absurd h (List.not_mem_nil _)
  | cons l d ih =>
    intro h
    cases d with
    | nil => exact h l (List.mem_cons_self _ _)
    | cons l2 d2 =>
      rw [joinLines_cons_of_ne _ _ (by simp)]
      intro hmem
      rcases List.mem_append.1 hmem with hm | hm
      · exact h l (List.mem_cons_self _ _) hm
      · rcases List.mem_cons.1 hm with hm2 | hm2
        · exact absurd hm2 (by decide)
        · exact ih (fun x hx => h x (List.mem_cons_of_mem _ hx)) hm2

/-- The second source-to-master pass over an unchanged source is the
identity on the master text. -/
theorem updateMaster_second (path basename : Line) (es : List MasterEntry)
    (hd : displayOK basename) (hp : pathOK path) (hne : es ≠ [])
    (hid : ∀ e ∈ es, idOK e.blockId)
    (hbody : ∀ e ∈ es, bodyOK e.bodyLines)
    (hnd : (es.map MasterEntry.blockId).Nodup) :
    updateMasterForSourceFile (updateMasterForSourceFile (str "") path
      basename es) path basename es =
      updateMasterForSourceFile (str "") path basename es := by
  obtain ⟨hsplit, hchunks2⟩ := parseMaster_build path basename es hd hp
    hne hid hbody
  have hchunks : chunksOf (splitLines (updateMasterForSourceFile (str "")
      path basename es)) = builtChunks path basename 1 es := hchunks2
  set M := updateMasterForSourceFile (str "") path basename es with hM
  have hMshape : M = '\n' :: joinLines (es.flatMap (fun e =>
      buildMasterChunkLines basename path e.blockId e.bodyLines)) := by
    rw [hM]
    exact updateMaster_empty path basename es hne
  have hMcr : '\r' ∉ M := by
    rw [hMshape]
    intro hmem
    rcases List.mem_cons.1 hmem with h | h
    · exact absurd h (by decide)
    · exact joinLines_no_cr _
        (fun l hl => (flatMap_build_clean path basename hd hp es hid
          hbody l hl).2) h
  have hord := masterOps_ordered (splitLines M) path basename es
  have hbnd := masterOps_bounded (splitLines M) path basename es
  show ensureTrailingNewline (joinLines (appendAdditions
    (applyOps (splitLines M)
      (masterOps (chunksOf (splitLines M)) path basename es))
    (masterAdditions (chunksOf (splitLines M)) path basename es))) = M
  rw [applyOps_eq_simApply _ _ _ (List.Perm.refl _) hord hbnd, hchunks]
  have hdrop : (splitLines M).drop 1 = es.flatMap (fun e =>
      buildMasterChunkLines basename path e.blockId e.bodyLines) := by
    rw [hsplit]
    rfl
  have hcontent := masterOps_built_content path basename es hnd es 1
    (splitLines M) (fun e he => he) hdrop
  have hord2 : List.Pairwise (fun a b => a.stop ≤ b.start)
      (masterOps (builtChunks path basename 1 es) path basename es) := by
    rw [← hchunks]
    unfold OpsOrdered at hord
    exact hord.imp (fun h => h.1)
  have hss2 : ∀ op ∈ masterOps (builtChunks path basename 1 es) path
      basename es, op.start ≤ op.stop := by
    rw [← hchunks]
    exact fun op hop => (hbnd op hop).1
  have hid2 : simApply (splitLines M)
      (masterOps (builtChunks path basename 1 es) path basename es) =
      splitLines M := by
    show simApplyFrom (splitLines M) 0 _ = _
    rw [simApplyFrom_id (splitLines M) _ 0 (fun op _ => Nat.zero_le _)
      hss2 hord2 hcontent, List.drop_zero]
  rw [hid2, masterAdditions_built path basename es 1,
    show appendAdditions (splitLines M) [] = splitLines M from rfl,
    joinLines_splitLines M hMcr]
  unfold ensureTrailingNewline
  have hendM : M.getLast? = some '\n' := by
    rw [hMshape]
    rcases getLast?_joinLines_blank _
      (flatMap_build_getLast path basename es hne) with h | h
    · rw [h]
      rfl
    · cases hj : joinLines (es.flatMap (fun e => buildMasterChunkLines
        basename path e.blockId e.bodyLines)) with
      | nil => rfl
      | cons a as =>
        rw [List.getLast?_cons_cons]
        rw [hj] at h
        exact h
  rw [if_pos hendM]

/-- Claim C2 (amended): idempotence of source-to-master reconciliation on
an up-to-date master, for sources whose callouts are well formed — at
least one callout, all identifiers assigned and pairwise distinct, and no
body line shaped like a chunk header (the failure mode of the unamended
claim, where an up-to-date master is re-parsed with a link-shaped body
line as a spurious chunk header): the second pass returns the master text
character for character, so `writeFileIfChanged` compares equal texts and
performs no write. -/
theorem C2_idempotence (src : List Char) (ctype path basename : Line)
    (hd : displayOK basename) (hp : pathOK path)
    (hne : (extractLines src [ctype] false (fun _ => [])).2 ≠ [])
    (hids : ∀ c ∈ (extractLines src [ctype] false (fun _ => [])).2,
      c.blockId.isSome = true)
    (hnd : ((extractLines src [ctype] false (fun _ => [])).2.filterMap
      Callout.blockId).Nodup)
    (hbody : ∀ c ∈ (extractLines src [ctype] false (fun _ => [])).2,
      bodyOK c.bodyLines) :
    updateMasterForSourceFile
      (updateMasterForSourceFile (str "") path basename
        ((extractLines src [ctype] false (fun _ => [])).2.map
          toMasterEntry)) path basename
      ((extractLines src [ctype] false (fun _ => [])).2.map
        toMasterEntry) =
      updateMasterForSourceFile (str "") path basename
        ((extractLines src [ctype] false (fun _ => [])).2.map
          toMasterEntry) ∧
    writeFileIfChanged
      (updateMasterForSourceFile (str "") path basename
        ((extractLines src [ctype] false (fun _ => [])).2.map
          toMasterEntry))
      (updateMasterForSourceFile
        (updateMasterForSourceFile (str "") path basename
          ((extractLines src [ctype] false (fun _ => [])).2.map
            toMasterEntry)) path basename
        ((extractLines src [ctype] false (fun _ => [])).2.map
          toMasterEntry)) =
      (updateMasterForSourceFile (str "") path basename
        ((extractLines src [ctype] false (fun _ => [])).2.map
          toMasterEntry), false) := by
  have hene : (extractLines src [ctype] false (fun _ => [])).2.map
      toMasterEntry ≠ [] := by
    intro h
    exact hne (List.map_eq_nil_iff.1 h)
  have hid_e : ∀ e ∈ (extractLines src [ctype] false
      (fun _ => [])).2.map toMasterEntry, idOK e.blockId := by
    intro e he
    rw [List.mem_map] at he
    obtain ⟨c, hc, rfl⟩ := he
    cases hcb : c.blockId with
    | none => exact absurd (hids c hc) (by rw [hcb]; decide)
    | some b =>
      have hOK := extractLines_false_idOK src [ctype] (fun _ => []) c hc
        b hcb
      show idOK (c.blockId.getD [])
      rw [hcb]
      exact hOK
  have hbody_e : ∀ e ∈ (extractLines src [ctype] false
      (fun _ => [])).2.map toMasterEntry, bodyOK e.bodyLines := by
    intro e he
    rw [List.mem_map] at he
    obtain ⟨c, hc, rfl⟩ := he
    exact hbody c hc
  have hndm : (((extractLines src [ctype] false (fun _ => [])).2.map
      toMasterEntry).map MasterEntry.blockId).Nodup := by
    rw [List.map_map,
      show (MasterEntry.blockId ∘ toMasterEntry) =
        (fun c : Callout => c.blockId.getD []) from rfl,
      ← filterMap_blockId_eq_map _ hids]
    exact hnd
  have h2 := updateMaster_second path basename
    ((extractLines src [ctype] false (fun _ => [])).2.map toMasterEntry)
    hd hp hene hid_e hbody_e hndm
  refine ⟨h2, ?_⟩
  rw [h2]
  unfold writeFileIfChanged
  rw [if_pos rfl]

theorem C2_idempotence_witness :
    updateMasterForSourceFile
      (updateMasterForSourceFile (str "") (str "S.md") (str "S")
        ((extractLines (str "> [!todo]\n> a\n\n^ab12cd34\n")
          [str "todo"] false (fun _ => [])).2.map toMasterEntry))
      (str "S.md") (str "S")
      ((extractLines (str "> [!todo]\n> a\n\n^ab12cd34\n")
        [str "todo"] false (fun _ => [])).2.map toMasterEntry) =
      updateMasterForSourceFile (str "") (str "S.md") (str "S")
        ((extractLines (str "> [!todo]\n> a\n\n^ab12cd34\n")
          [str "todo"] false (fun _ => [])).2.map toMasterEntry) :=
  (C2_idempotence (str "> [!todo]\n> a\n\n^ab12cd34\n") (str "todo")
    (str "S.md") (str "S") (by decide) (by decide) (by decide) (by decide)
    (by decide) (by decide)).1

end CalloutExporter
